import Mathlib

/-!
# Verification of the wiki-builder archive pipeline

This file is a shallow embedding of the core of the `wiki-builder` repository:

* the compressor stage (`cmd/compress-entries/main.go`, `writeEntries`),
* the archive-builder stage (the second-level / first-level index writer:
  `createSecondLevelIndex`, `writeSecondLevel`, `writeFirstLevel`,
  `commonPrefixLen`, `appendOffset`, `firstLevelIndexKey`),
* `internal/storage` (`EntryMetadata.StartOffset`, `Redirect`),
* the reader (`OpenWiki`, `decodeFirstLevelIndex`, `firstLevelIndex.offset`,
  `entryOffset`, `query`, `readSecondLevelIndex`, `compareTo`, `entryAt`).

Modelling conventions:

* Bytes and UTF-16 code units are `Nat`; machine-width truncation is explicit
  (`% 256`, `% 2^16`, ...) at the points where the Go code casts.
* zlib compression is abstracted as a parameter `compress : List Nat → List Nat`
  (the library call `zlib.Writer`); decompression as `inflate` with a round-trip
  hypothesis where a claim needs it.
* `panic` in the Go code is modelled as `Option.none` (writer side) or a
  dedicated error constructor (reader side); returned Go `error`s are the
  `Except`/error constructors.
* File I/O is modelled by passing the byte list; the text hand-off files between
  stages (`stage-1-entry-meta.txt` etc.) are modelled as the identity on the
  values they carry.
* `slices.SortFunc` is an unstable comparison sort; it is realised here by
  `List.mergeSort`, which is one conforming implementation (the spec leaves the
  order of equal keys unspecified).
* The Go loops that iterate until `return` are modelled with a fuel argument;
  every iteration consumes at least 7 stream bytes, so fuel `stream.length + 1`
  can never be exhausted before the stream is.
-/

/-! ## Byte-level primitives (encoding side) -/

/-- Little-endian 2-byte encoding, as produced by `binary.LittleEndian.AppendUint16`. -/
def u16le (v : Nat) : List Nat := [v % 256, v / 2 ^ 8 % 256]

/-- The 3-byte little-endian length that `writeEntries` emits
(`binary.LittleEndian.PutUint32(tmp, sizeBytes); w.Write(tmp[:3])`). -/
def u24le (v : Nat) : List Nat := [v % 256, v / 2 ^ 8 % 256, v / 2 ^ 16 % 256]

/-- Little-endian 4-byte encoding (`binary.LittleEndian.AppendUint32`). -/
def u32le (v : Nat) : List Nat :=
  [v % 256, v / 2 ^ 8 % 256, v / 2 ^ 16 % 256, v / 2 ^ 24 % 256]

/-- The 5-byte little-endian payload offset written by `appendOffset`. -/
def u40le (v : Nat) : List Nat :=
  [v % 256, v / 2 ^ 8 % 256, v / 2 ^ 16 % 256, v / 2 ^ 24 % 256, v / 2 ^ 32 % 256]

/-! ## Byte-level primitives (decoding side) -/

/-- `binary.LittleEndian.Uint16` on the first two bytes of a slice. -/
def decodeU16 (b : List Nat) : Nat := b.getD 0 0 + 2 ^ 8 * b.getD 1 0

/-- `entryLength` in the reader: a 3-byte little-endian length. -/
def entryLength (b : List Nat) : Nat :=
  b.getD 0 0 + 2 ^ 8 * b.getD 1 0 + 2 ^ 16 * b.getD 2 0

/-- `binary.LittleEndian.Uint32` on the first four bytes of a slice. -/
def decodeU32 (b : List Nat) : Nat :=
  b.getD 0 0 + 2 ^ 8 * b.getD 1 0 + 2 ^ 16 * b.getD 2 0 + 2 ^ 24 * b.getD 3 0

/-- `entryOffsetToUInt64 b offset`: the 5-byte little-endian payload offset read
out of the scratch buffer. -/
def entryOffsetToUInt64 (b : List Nat) (offset : Nat) : Nat :=
  b.getD offset 0 + 2 ^ 8 * b.getD (offset + 1) 0 + 2 ^ 16 * b.getD (offset + 2) 0 +
    2 ^ 24 * b.getD (offset + 3) 0 + 2 ^ 32 * b.getD (offset + 4) 0

/-- `slices.Compare` on `[]uint16`: element-wise comparison, then length. -/
def slicesCompare : List Nat → List Nat → Int
  | [], [] => 0
  | [], _ :: _ => -1
  | _ :: _, [] => 1
  | x :: xs, y :: ys =>
    if x < y then -1 else if y < x then 1 else slicesCompare xs ys

/-! ## The compressor stage (`cmd/compress-entries`, `writeEntries`)

An input entry is modelled as `(nameUTF16, fileContent)`: the UTF-16 code units
of `Entry.Name()` and the bytes of the file at its local path.  `compress` is
the zlib compression performed by `compress(path)`. -/

/-- One `writtenEntry` record: the entry name (UTF-16 code units) and its
cumulative end offset in the packed compressed region. -/
abbrev WrittenEntry := List Nat × Nat

/-- The serial writer loop of `writeEntries`: for each entry, compute the
compressed blob, bump the cumulative end offset by `size + 3`, abort
(`panic`, modelled `none`) when `sizeBytes > 1<<24`, and emit
`[u24 length][compressed bytes]`.  `sizeBytes` is the Go `uint32(buf.Len())`. -/
def writeEntriesLoop (compress : List Nat → List Nat) :
    List (List Nat × List Nat) → Nat → Option (List Nat × List WrittenEntry)
  | [], _ => some ([], [])
  | (name, content) :: rest, endOffset =>
    let c := compress content
    let sizeBytes := c.length % 2 ^ 32
    let endOffset1 := endOffset + sizeBytes + 3
    if 2 ^ 24 < sizeBytes then none
    else
      match writeEntriesLoop compress rest endOffset1 with
      | none => none
      | some (bytes, written) =>
        some (u24le sizeBytes ++ c ++ bytes, (name, endOffset1) :: written)

/-- `writeEntries`: the packed compressed-entries region plus the
`writtenEntry` metadata stream, starting from cumulative offset 0. -/
def writeEntries (compress : List Nat → List Nat) (entries : List (List Nat × List Nat)) :
    Option (List Nat × List WrittenEntry) :=
  writeEntriesLoop compress entries 0

/-! ## `internal/storage`: entry metadata and redirects -/

/-- `storage.EntryMetadata`: parallel lists of entry names (UTF-16) and
cumulative end offsets, as read back from `stage-1-entry-meta.txt`. -/
structure EntryMetadata where
  namesUTF16 : List (List Nat)
  endOffsets : List Nat
deriving DecidableEq, Repr

/-- `EntryMetadata.StartOffset`: 0 for the first entry, otherwise the previous
entry's end offset.  (The Go code indexes `endOffsets[i-1]` directly and would
panic out of range; it is only ever called with `i < Len()`, which the theorems
below hypothesise, so the `getD` default is never observed.) -/
def EntryMetadata.startOffset (em : EntryMetadata) (i : Nat) : Nat :=
  if i = 0 then 0 else em.endOffsets.getD (i - 1) 0

/-- `EntryMetadata.Name`. -/
def EntryMetadata.name (em : EntryMetadata) (i : Nat) : List Nat :=
  em.namesUTF16.getD i []

/-- `EntryMetadata.Len`. -/
def EntryMetadata.len (em : EntryMetadata) : Nat := em.namesUTF16.length

/-- The metadata hand-off from the compressor to the archive builder
(`writeEntryMeta` then `ReadEntryMetadata`): the identity on names and
cumulative end offsets. -/
def entryMetadataOfWritten (written : List WrittenEntry) : EntryMetadata :=
  ⟨written.map Prod.fst, written.map Prod.snd⟩

/-- `storage.Redirect`: a resolved redirect, source name in UTF-16 code units
plus the index of its target entry. -/
structure Redirect where
  nameUTF16 : List Nat
  entryIdx : Nat
deriving DecidableEq, Repr

/-! ## The archive builder (`cmd/web`-side writer in the builder binary) -/

/-- One row of the second-level index before encoding
(`secondLevelIndexRow`). -/
structure SecondLevelIndexRow where
  nameUTF16 : List Nat
  offset : Nat
deriving DecidableEq, Repr

/-- The row comparison passed to `slices.SortFunc`:
`slices.Compare(a.nameUTF16, b.nameUTF16)`. -/
def rowLe (a b : SecondLevelIndexRow) : Bool :=
  slicesCompare a.nameUTF16 b.nameUTF16 ≤ 0

/-- The row list `createSecondLevelIndex` accumulates before sorting: entry
rows (name, start offset) in entry order, then redirect rows (source name,
start offset of the target entry). -/
def secondLevelUnsorted (entries : EntryMetadata) (redirects : List Redirect) :
    List SecondLevelIndexRow :=
  (List.range entries.len).map
      (fun i => SecondLevelIndexRow.mk (entries.name i) (entries.startOffset i)) ++
    redirects.map
      (fun r => SecondLevelIndexRow.mk r.nameUTF16 (entries.startOffset r.entryIdx))

/-- `createSecondLevelIndex`: the merged rows sorted by UTF-16 code-unit
comparison of the keys (`slices.SortFunc`). -/
def createSecondLevelIndex (entries : EntryMetadata) (redirects : List Redirect) :
    List SecondLevelIndexRow :=
  (secondLevelUnsorted entries redirects).mergeSort rowLe

/-- `firstLevelIndexKey`: the fixed 4-code-unit first-level key. -/
structure FirstLevelIndexKey where
  ch0 : Nat
  ch1 : Nat
  ch2 : Nat
  ch3 : Nat
deriving DecidableEq, Repr

/-- `newFirstLevelIndexKey`: the first four code units, zero-padded.  The Go
code reads `chars[0]` unconditionally and panics on an empty key (`none`). -/
def newFirstLevelIndexKey (chars : List Nat) : Option FirstLevelIndexKey :=
  match chars with
  | [] => none
  | c0 :: rest => some ⟨c0, rest.getD 0 0, rest.getD 1 0, rest.getD 2 0⟩

/-- `firstLevelIndexKey.Append`: the key as 8 bytes (4 little-endian u16). -/
def firstLevelKeyBytes (k : FirstLevelIndexKey) : List Nat :=
  u16le k.ch0 ++ u16le k.ch1 ++ u16le k.ch2 ++ u16le k.ch3

/-- `commonPrefixLen`, inner loop: index of the first mismatch within the first
`fuel` positions, or `fuel` if there is none. -/
def commonPrefixLenLoop : List Nat → List Nat → Nat → Nat
  | x :: xs, y :: ys, fuel + 1 =>
    if x = y then commonPrefixLenLoop xs ys fuel + 1 else 0
  | _, _, _ => 0

/-- `commonPrefixLen(lhs, rhs)`: the Go code truncates
`maxPossible := byte(min(len(lhs), len(rhs)))` to a byte before scanning. -/
def commonPrefixLen (lhs rhs : List Nat) : Nat :=
  commonPrefixLenLoop lhs rhs (min lhs.length rhs.length % 256)

/-- The mutable state threaded through the `writeSecondLevel` loop. -/
structure WSState where
  totalSize : Nat
  prevFirstLevelKey : FirstLevelIndexKey
  countForPrevKey : Nat
  prevKey : List Nat
  flKeys : List FirstLevelIndexKey
  flOffsets : List Nat
deriving DecidableEq, Repr

/-- The branch condition guarding a first-level append in `writeSecondLevel`:
`countForPrevKey >= 1024 && currFirstLevelIndexKey != prevFirstLevelKey`.
Note `prevFirstLevelKey` is updated on every row, so this compares against the
previous row's first-level key. -/
abbrev jumpCond (s : WSState) (currKey : FirstLevelIndexKey) : Prop :=
  1024 ≤ s.countForPrevKey ∧ ¬ currKey = s.prevFirstLevelKey

/-- The body of the `for _, r := range rows` loop of `writeSecondLevel`.
Returns the bytes written for this row (the Go code flushes `bb` per row) and
the updated state; `none` models the panic on keys longer than 127 code units
(and, via `newFirstLevelIndexKey`, on empty keys).
`totalSize` is a Go `uint32`; it is tracked unwrapped here and reduced mod
`2^32` wherever its value is emitted (`u32le`), which yields byte-for-byte the
same output. -/
def writeSecondLevelStep (s : WSState) (r : SecondLevelIndexRow) :
    Option (List Nat × WSState) :=
  match newFirstLevelIndexKey r.nameUTF16 with
  | none => none
  | some currKey =>
    let flKeys := if jumpCond s currKey then s.flKeys ++ [currKey] else s.flKeys
    let flOffsets := if jumpCond s currKey then s.flOffsets ++ [s.totalSize] else s.flOffsets
    let count0 := if jumpCond s currKey then 0 else s.countForPrevKey
    let numChars := r.nameUTF16.length
    if 127 < numChars then none
    else
      let commonLen := if jumpCond s currKey then 0 else commonPrefixLen s.prevKey r.nameUTF16
      let remainingLen := numChars - commonLen
      let chunk := commonLen :: remainingLen ::
        ((r.nameUTF16.drop commonLen).flatMap u16le ++ u40le r.offset)
      some (chunk,
        { totalSize := s.totalSize + 1 + 1 + 2 * remainingLen + 5
          prevFirstLevelKey := currKey
          countForPrevKey := count0 + 1
          prevKey := r.nameUTF16
          flKeys := flKeys
          flOffsets := flOffsets })

/-- The whole `writeSecondLevel` loop over the sorted rows; collects the
per-row byte chunks in order. -/
def writeSecondLevelRun (s : WSState) :
    List SecondLevelIndexRow → Option (List (List Nat) × WSState)
  | [] => some ([], s)
  | r :: rs =>
    match writeSecondLevelStep s r with
    | none => none
    | some (chunk, s1) =>
      match writeSecondLevelRun s1 rs with
      | none => none
      | some (chunks, s2) => some (chunk :: chunks, s2)

/-- The in-memory first-level index built by `writeSecondLevel`
(`firstLevelIndex` with `keys` and `offsets`). -/
structure FirstLevelIndexW where
  keys : List FirstLevelIndexKey
  offsets : List Nat
deriving DecidableEq, Repr

/-- `writeSecondLevel rows`: the initial state seeds the first-level index with
the very first row's key at offset 0; `none` models the panic on
`rows[0]` for an empty slice.  Returns the per-row chunks, the first-level
index, and the final `totalSize` (sum of all chunk lengths, before the `+= 4`
for the trailer). -/
def writeSecondLevel (rows : List SecondLevelIndexRow) :
    Option (List (List Nat) × FirstLevelIndexW × Nat) :=
  match rows with
  | [] => none
  | r0 :: _ =>
    match newFirstLevelIndexKey r0.nameUTF16 with
    | none => none
    | some k0 =>
      match writeSecondLevelRun ⟨0, k0, 0, [], [k0], [0]⟩ rows with
      | none => none
      | some (chunks, sf) => some (chunks, ⟨sf.flKeys, sf.flOffsets⟩, sf.totalSize)

/-- `writeFirstLevel`: packed 8-byte keys, then packed u32 offsets, then the
u16 total size (which includes its own 2 bytes); `uint16` cast explicit. -/
def writeFirstLevel (index : FirstLevelIndexW) : List Nat :=
  let totalSize := (index.keys.length * (8 + 4) + 2) % 2 ^ 16
  (index.keys.flatMap firstLevelKeyBytes) ++ (index.offsets.flatMap u32le) ++ u16le totalSize

/-- The full archive laid out by the builder's `main`: the packed compressed
entries copied verbatim, the second-level chunks, the u32 second-level size
trailer (`totalSize + 4`, including itself), and the first-level region. -/
def buildArchive (compress : List Nat → List Nat) (entries : List (List Nat × List Nat))
    (redirects : List Redirect) : Option (List Nat) :=
  match writeEntries compress entries with
  | none => none
  | some (packed, written) =>
    let rows := createSecondLevelIndex (entryMetadataOfWritten written) redirects
    match writeSecondLevel rows with
    | none => none
    | some (chunks, fl, ts) =>
      some (packed ++ chunks.flatten ++ u32le (ts + 4) ++ writeFirstLevel fl)

/-! ## The reader -/

/-- Reader-side failure modes.  `readFail` covers surfaced I/O errors
(`io.ReadFull` short reads, seeks to negative offsets); `beforeFirst` and
`afterLast` are the typed lookup misses; `emptyIndexPanic` and `slicePanic`
model Go panics (indexing `offsets[-1]`, slicing the 512-byte scratch buffer
out of range); `noFuel` is an artifact of the fuel-bounded loop model and is
unreachable for the fuel values used (each loop iteration consumes at least 7
stream bytes). -/
inductive LookupErr
  | readFail
  | beforeFirst
  | afterLast
  | emptyIndexPanic
  | slicePanic
  | noFuel
deriving DecidableEq, Repr

/-- An open archive handle (`Wiki`): the decoded first-level index (flat
`keyChars`, 4 units per entry, plus `offsets`), the distance from EOF back to
the start of the second-level index, the file bytes, and the 512-byte scratch
buffer in the state `OpenWiki` leaves it. -/
structure Wiki where
  keyChars : List Nat
  offsets : List Nat
  secondLevelIndexOffsetFromEnd : Nat
  file : List Nat
  buf : List Nat
deriving DecidableEq, Repr

/-- Overwrite `data.length` bytes of `l` starting at `off` (callers guard the
bounds where the Go slicing would panic). -/
def listWrite (l : List Nat) (off : Nat) (data : List Nat) : List Nat :=
  l.take off ++ data ++ l.drop (off + data.length)

/-- The key-reading half of `decodeFirstLevelIndex`: `numEntries` reads of 8
bytes, each decoded as 4 little-endian u16 code units; a short read surfaces
as an error (`io.ReadFull`). -/
def readFLKeyChars : Nat → List Nat → Option (List Nat × List Nat)
  | 0, s => some ([], s)
  | n + 1, s =>
    if s.length < 8 then none
    else
      let b := s.take 8
      let units := [decodeU16 b, decodeU16 (b.drop 2), decodeU16 (b.drop 4), decodeU16 (b.drop 6)]
      match readFLKeyChars n (s.drop 8) with
      | none => none
      | some (us, rest) => some (units ++ us, rest)

/-- The offset-reading half of `decodeFirstLevelIndex`: `numEntries` reads of
4 bytes, each a little-endian u32. -/
def readFLOffsets : Nat → List Nat → Option (List Nat × List Nat)
  | 0, s => some ([], s)
  | n + 1, s =>
    if s.length < 4 then none
    else
      match readFLOffsets n (s.drop 4) with
      | none => none
      | some (os, rest) => some (decodeU32 (s.take 4) :: os, rest)

/-- `decodeFirstLevelIndex(r, numEntries)`: flat key code units then offsets;
`none` models the surfaced read error. -/
def decodeFirstLevelIndex (stream : List Nat) (numEntries : Nat) :
    Option (List Nat × List Nat × List Nat) :=
  match readFLKeyChars numEntries stream with
  | none => none
  | some (keyChars, s1) =>
    match readFLOffsets numEntries s1 with
    | none => none
    | some (offsets, s2) => some (keyChars, offsets, s2)

/-- `OpenWiki`, parametrised by `delivered`: the number of bytes the single
un-checked `rdr.Read(buf[:4])` call actually delivers (the Go code discards
both the byte count and the error of that read; every other read goes through
`io.ReadFull`).  A fully delivered read is `delivered = 4`; the underlying
file always has at least 4 bytes left at that point, but `io.Reader` permits
returning fewer.  The scratch buffer starts as 512 zero bytes
(`make([]byte, 512)`); the 2-byte size read lands in `buf[:2]` and the
4-byte read in `buf[:4]`. -/
def openWikiRead (file : List Nat) (delivered : Nat) : Option Wiki :=
  if file.length < 2 then none
  else
    let buf0 := List.replicate 512 0
    let b2 := file.drop (file.length - 2)
    let buf1 := listWrite buf0 0 b2
    let firstLevelIndexSize := decodeU16 b2
    let numFL := (firstLevelIndexSize + 2 ^ 16 - 2) % 2 ^ 16 / 12
    if file.length < firstLevelIndexSize + 4 then none
    else
      let pos := file.length - firstLevelIndexSize - 4
      let got := (file.drop pos).take delivered
      let buf2 := listWrite buf1 0 got
      let secondLevelIndexSize := decodeU32 (buf2.take 4)
      match decodeFirstLevelIndex (file.drop (pos + got.length)) numFL with
      | none => none
      | some (keyChars, offsets, _) =>
        some ⟨keyChars, offsets, firstLevelIndexSize + secondLevelIndexSize, file, buf2⟩

/-- `OpenWiki` with the normal full 4-byte delivery. -/
def openWiki (file : List Nat) : Option Wiki := openWikiRead file 4

/-- The scan loop of `firstLevelIndex.offset`: walk entries in order, 4 key
units per entry; at the first key strictly greater than the query return the
previous entry's offset (`beforeFirst` if there is none); past the end return
the last offset (`offsets[len-1]` panics when the index is empty). -/
def firstLevelOffsetLoop (chars : List Nat) :
    List Nat → List Nat → Option Nat → Except LookupErr Nat
  | keyChars, o :: rest, prev =>
    let key := keyChars.take 4
    if 0 < slicesCompare key chars then
      match prev with
      | none => .error .beforeFirst
      | some p => .ok p
    else firstLevelOffsetLoop chars (keyChars.drop 4) rest (some o)
  | _, [], prev =>
    match prev with
    | none => .error .emptyIndexPanic
    | some p => .ok p

/-- `firstLevelIndex.offset(s)` on the UTF-16 code units of `s`. -/
def firstLevelOffset (w : Wiki) (chars : List Nat) : Except LookupErr Nat :=
  firstLevelOffsetLoop chars w.keyChars w.offsets none

/-- One row read shared by `entryOffset`, `query` and `readSecondLevelIndex`:
2 header bytes, then `numRemainingChars*2 + 5` bytes written into the scratch
buffer at offset `commonPrefixLen*2`.  Returns the remaining stream, the new
buffer, and the header fields.  `slicePanic` models the Go slice-bounds panic
`w.buf[commonPrefixLen*2:][:numRemainingChars*2+5]` when the write does not
fit in the 512-byte buffer. -/
def readRowRaw (stream buf : List Nat) :
    Except LookupErr (List Nat × List Nat × Nat × Nat) :=
  if stream.length < 2 then .error .readFail
  else
    let c := stream.getD 0 0
    let rem := stream.getD 1 0
    let s1 := stream.drop 2
    let need := 2 * rem + 5
    if s1.length < need then .error .readFail
    else if 512 < 2 * c + need then .error .slicePanic
    else .ok (s1.drop need, listWrite buf (2 * c) (s1.take need), c, rem)

/-- `binary.LittleEndian.Uint16(w.buf[2*i:])`: the `i`-th code unit in the
scratch buffer. -/
def bufU16 (buf : List Nat) (i : Nat) : Nat := buf.getD (2 * i) 0 + 2 ^ 8 * buf.getD (2 * i + 1) 0

/-- `w.readString(numBytes)` as code units: the first `numBytes/2` units of the
scratch buffer. -/
def readKeyUnits (buf : List Nat) (n : Nat) : List Nat := (List.range n).map (bufU16 buf)

/-- The inner loop of `compareTo`: first nonzero unit difference, else the
fallback length comparison. -/
def cmpUnitsLoop : List Nat → List Nat → Int → Int
  | x :: xs, y :: ys, tailCmp =>
    let c : Int := (x : Int) - (y : Int)
    if c ≠ 0 then c else cmpUnitsLoop xs ys tailCmp
  | _, _, tailCmp => tailCmp

/-- `compareTo(buf, prefixChars, numBufferBytes)`: compare the buffered key
against the query over the first `min(numBufferBytes/2, len(prefixChars))`
units, falling back to `numBufferBytes - len(prefixChars)*2`. -/
def compareTo (buf : List Nat) (prefixChars : List Nat) (numBufferBytes : Nat) : Int :=
  let n := min (numBufferBytes / 2) prefixChars.length
  cmpUnitsLoop (readKeyUnits buf n) (prefixChars.take n)
    ((numBufferBytes : Int) - 2 * prefixChars.length)

/-- `SearchResult`: a decoded row key (UTF-16 code units) and its payload
offset. -/
structure SearchResult where
  key : List Nat
  entryOffset : Nat
deriving DecidableEq, Repr

/-- `readSecondLevelIndex`: read one row and decode its full key and payload
offset from the scratch buffer. -/
def readSecondLevelIndexStep (stream buf : List Nat) :
    Except LookupErr (List Nat × List Nat × SearchResult) :=
  match readRowRaw stream buf with
  | .error e => .error e
  | .ok (s1, buf1, c, rem) =>
    let numKeyBytes := 2 * (c + rem)
    .ok (s1, buf1, ⟨readKeyUnits buf1 (numKeyBytes / 2), entryOffsetToUInt64 buf1 numKeyBytes⟩)

/-- The row walk of `entryOffset`: return the payload offset at the first row
comparing equal to the name, `afterLast` at the first row comparing greater. -/
def entryOffsetWalk (chars : List Nat) : Nat → List Nat → List Nat → Except LookupErr Nat
  | 0, _, _ => .error .noFuel
  | fuel + 1, stream, buf =>
    match readRowRaw stream buf with
    | .error e => .error e
    | .ok (s1, buf1, c, rem) =>
      let numKeyBytes := 2 * (c + rem)
      let cmp := compareTo buf1 chars numKeyBytes
      if cmp = 0 then .ok (entryOffsetToUInt64 buf1 numKeyBytes)
      else if 0 < cmp then .error .afterLast
      else entryOffsetWalk chars fuel s1 buf1

/-- `w.entryOffset(name)` on the UTF-16 code units of `name`: first-level
routing, seek into the second-level index (`seekToSecondLevelIndexOffset`;
a negative target position is a surfaced seek error), then the row walk. -/
def entryOffsetM (w : Wiki) (chars : List Nat) : Except LookupErr Nat :=
  match firstLevelOffset w chars with
  | .error e => .error e
  | .ok o =>
    if w.file.length + o < w.secondLevelIndexOffsetFromEnd then .error .readFail
    else
      let stream := w.file.drop (w.file.length + o - w.secondLevelIndexOffsetFromEnd)
      entryOffsetWalk chars (stream.length + 1) stream w.buf

/-- The outcome of `w.query`: the guard panic on an empty query string, a
surfaced error, or a result list. -/
inductive QueryResult
  | panicEmptyQuery
  | failed (e : LookupErr)
  | ok (results : List SearchResult)
deriving DecidableEq, Repr

/-- The first loop of `query`: walk rows until the first row with
`compareTo >= 0`, returning it decoded. -/
def queryFindFirst (prefixChars : List Nat) :
    Nat → List Nat → List Nat → Except LookupErr (List Nat × List Nat × SearchResult)
  | 0, _, _ => .error .noFuel
  | fuel + 1, stream, buf =>
    match readRowRaw stream buf with
    | .error e => .error e
    | .ok (s1, buf1, c, rem) =>
      let numKeyBytes := 2 * (c + rem)
      let cmp := compareTo buf1 prefixChars numKeyBytes
      if 0 ≤ cmp then
        .ok (s1, buf1, ⟨readKeyUnits buf1 (numKeyBytes / 2), entryOffsetToUInt64 buf1 numKeyBytes⟩)
      else queryFindFirst prefixChars fuel s1 buf1

/-- The accumulation loop of `query`: while the current result's key has the
query as a (code-unit) prefix and fewer than 32 results are collected, append
it and read the next row.  (Go checks `strings.HasPrefix` on the decoded
strings; on valid UTF-16 that coincides with code-unit prefixes.) -/
def queryAccum (prefixChars : List Nat) :
    Nat → List Nat → List Nat → SearchResult → List SearchResult →
      Except LookupErr (List SearchResult)
  | 0, _, _, _, _ => .error .noFuel
  | fuel + 1, stream, buf, result, results =>
    if prefixChars.isPrefixOf result.key ∧ results.length < 32 then
      match readSecondLevelIndexStep stream buf with
      | .error e => .error e
      | .ok (s1, buf1, r1) => queryAccum prefixChars fuel s1 buf1 r1 (results ++ [result])
    else .ok results

/-- `w.query(prefix)` on the UTF-16 code units of the prefix: the empty-string
guard panic, first-level routing, seek, find-first walk, then accumulation. -/
def queryM (w : Wiki) (prefixChars : List Nat) : QueryResult :=
  if prefixChars = [] then .panicEmptyQuery
  else
    match firstLevelOffset w prefixChars with
    | .error e => .failed e
    | .ok o =>
      if w.file.length + o < w.secondLevelIndexOffsetFromEnd then .failed .readFail
      else
        let stream := w.file.drop (w.file.length + o - w.secondLevelIndexOffsetFromEnd)
        match queryFindFirst prefixChars (stream.length + 1) stream w.buf with
        | .error e => .failed e
        | .ok (s1, buf1, r) =>
          match queryAccum prefixChars (s1.length + 1) s1 buf1 r [] with
          | .error e => .failed e
          | .ok rs => .ok rs

/-- `w.entryAt(offset)` up to zlib decompression: seek to the payload offset,
read the u24 length (surfacing a short read), and hand the next
`compressedSize` bytes to the zlib stream (`io.LimitReader`). -/
def entryAtCompressed (file : List Nat) (offset : Nat) : Except LookupErr (List Nat) :=
  if file.length < offset + 3 then .error .readFail
  else
    let compressedSize := entryLength ((file.drop offset).take 3)
    .ok ((file.drop (offset + 3)).take compressedSize)

/-! ## Order theory of `slicesCompare` -/

theorem slicesCompare_self : ∀ a : List Nat, slicesCompare a a = 0 := by
  intro a
  induction a with
  | nil => rfl
  | cons x xs ih => simp [slicesCompare, ih]

theorem slicesCompare_values : ∀ a b : List Nat,
    slicesCompare a b = -1 ∨ slicesCompare a b = 0 ∨ slicesCompare a b = 1 := by
  intro a
  induction a with
  | nil => intro b; cases b <;> simp [slicesCompare]
  | cons x xs ih =>
    intro b
    cases b with
    | nil => simp [slicesCompare]
    | cons y ys =>
      simp only [slicesCompare]
      split_ifs with h1 h2
      · simp
      · simp
      · exact ih ys

theorem slicesCompare_eq_zero_iff : ∀ a b : List Nat, slicesCompare a b = 0 ↔ a = b := by
  intro a
  induction a with
  | nil => intro b; cases b <;> simp [slicesCompare]
  | cons x xs ih =>
    intro b
    cases b with
    | nil => simp [slicesCompare]
    | cons y ys =>
      simp only [slicesCompare]
      split_ifs with h1 h2
      · constructor
        · intro h; exact absurd h (by decide)
        · intro h
          injection h with hxy hxs
          omega
      · constructor
        · intro h; exact absurd h (by decide)
        · intro h
          injection h with hxy hxs
          omega
      · have hxy : x = y := by omega
        subst hxy
        simp [ih ys]

theorem slicesCompare_neg_of : ∀ a b : List Nat, slicesCompare a b = - slicesCompare b a := by
  intro a
  induction a with
  | nil => intro b; cases b <;> simp [slicesCompare]
  | cons x xs ih =>
    intro b
    cases b with
    | nil => simp [slicesCompare]
    | cons y ys =>
      simp only [slicesCompare]
      split_ifs <;> first
        | omega
        | exact ih ys

theorem slicesCompare_trans_le : ∀ a b c : List Nat,
    slicesCompare a b ≤ 0 → slicesCompare b c ≤ 0 → slicesCompare a c ≤ 0 := by
  intro a
  induction a with
  | nil =>
    intro b c _ _
    cases c <;> simp [slicesCompare]
  | cons x xs ih =>
    intro b c hab hbc
    cases b with
    | nil => simp [slicesCompare] at hab
    | cons y ys =>
      cases c with
      | nil => simp [slicesCompare] at hbc
      | cons z zs =>
        simp only [slicesCompare] at hab hbc ⊢
        split_ifs at hab hbc ⊢ <;> first
          | rfl
          | omega
          | exact ih ys zs hab hbc

theorem slicesCompare_lt_trans : ∀ a b c : List Nat,
    slicesCompare a b < 0 → slicesCompare b c < 0 → slicesCompare a c < 0 := by
  intro a b c hab hbc
  have h1 : slicesCompare a c ≤ 0 :=
    slicesCompare_trans_le a b c (le_of_lt hab) (le_of_lt hbc)
  rcases lt_or_eq_of_le h1 with h | h
  · exact h
  · exfalso
    have hac : a = c := (slicesCompare_eq_zero_iff a c).mp h
    subst hac
    have := slicesCompare_neg_of a b
    omega

theorem slicesCompare_lt_of_le_ne (a b : List Nat)
    (h : slicesCompare a b ≤ 0) (hne : a ≠ b) : slicesCompare a b < 0 := by
  rcases lt_or_eq_of_le h with h0 | h0
  · exact h0
  · exact absurd ((slicesCompare_eq_zero_iff a b).mp h0) hne

theorem rowLe_iff (a b : SecondLevelIndexRow) :
    rowLe a b = true ↔ slicesCompare a.nameUTF16 b.nameUTF16 ≤ 0 := by
  simp [rowLe]

theorem rowLe_trans : ∀ (a b c : SecondLevelIndexRow),
    rowLe a b = true → rowLe b c = true → rowLe a c = true := by
  intro a b c hab hbc
  rw [rowLe_iff] at *
  exact slicesCompare_trans_le _ _ _ hab hbc

theorem rowLe_total : ∀ a b : SecondLevelIndexRow, (rowLe a b || rowLe b a) = true := by
  intro a b
  rw [Bool.or_eq_true]
  rcases le_or_lt (slicesCompare a.nameUTF16 b.nameUTF16) 0 with h | h
  · exact Or.inl ((rowLe_iff a b).mpr h)
  · refine Or.inr ((rowLe_iff b a).mpr ?_)
    have := slicesCompare_neg_of a.nameUTF16 b.nameUTF16
    omega

/-! ## Ghost per-row metadata for the second-level writer

`runMetaGo` recomputes, as a total function of the row list, the jump flag,
the common-prefix length actually used, and the byte position of every row —
exactly the values the `writeSecondLevel` loop threads through its state.
The bridge lemma `writeSecondLevelRun_spec` proves the correspondence. -/

/-- The total counterpart of `newFirstLevelIndexKey` (first four code units,
zero-padded); agrees with it on nonempty keys. -/
def pad4 (chars : List Nat) : FirstLevelIndexKey :=
  ⟨chars.getD 0 0, chars.getD 1 0, chars.getD 2 0, chars.getD 3 0⟩

theorem newFirstLevelIndexKey_eq_pad4 (chars : List Nat) (h : chars ≠ []) :
    newFirstLevelIndexKey chars = some (pad4 chars) := by
  cases chars with
  | nil => exact absurd rfl h
  | cons c rest => rfl

/-- Ghost record for one second-level row: whether the writer forced a jump
boundary here, the common-prefix length it encoded, and the byte position of
the row inside the second-level region. -/
structure RowMeta where
  isJump : Bool
  cl : Nat
  pos : Nat
deriving DecidableEq, Repr

/-- Ghost recomputation of the `writeSecondLevel` loop state. -/
def runMetaGo (pk : List Nat) (pfl : FirstLevelIndexKey) (count pos : Nat) :
    List SecondLevelIndexRow → List RowMeta
  | [] => []
  | r :: rs =>
    let cur := pad4 r.nameUTF16
    let cl := if 1024 ≤ count ∧ ¬ cur = pfl then 0 else commonPrefixLen pk r.nameUTF16
    ⟨decide (1024 ≤ count ∧ ¬ cur = pfl), cl, pos⟩ ::
      runMetaGo r.nameUTF16 cur ((if 1024 ≤ count ∧ ¬ cur = pfl then 0 else count) + 1)
        (pos + 1 + 1 + 2 * (r.nameUTF16.length - cl) + 5) rs

/-- The ghost metadata of a row list under the writer's seed state. -/
def metaOf (rows : List SecondLevelIndexRow) : List RowMeta :=
  match rows with
  | [] => []
  | r0 :: _ => runMetaGo [] (pad4 r0.nameUTF16) 0 0 rows

/-- The bytes `writeSecondLevel` emits for one row, given the common-prefix
length it chose. -/
def chunkOf (cl : Nat) (r : SecondLevelIndexRow) : List Nat :=
  cl :: (r.nameUTF16.length - cl) ::
    ((r.nameUTF16.drop cl).flatMap u16le ++ u40le r.offset)

/-- First-level keys appended during a run: the zero-padded keys of the rows
flagged as jumps. -/
def jumpKeys (ms : List RowMeta) (rows : List SecondLevelIndexRow) : List FirstLevelIndexKey :=
  ((ms.zip rows).filter (fun p => p.1.isJump)).map (fun p => pad4 p.2.nameUTF16)

/-- First-level offsets appended during a run: the byte positions of the rows
flagged as jumps. -/
def jumpOffsets (ms : List RowMeta) : List Nat :=
  (ms.filter (fun m => m.isJump)).map (fun m => m.pos)

theorem runMetaGo_length : ∀ (rows : List SecondLevelIndexRow) (pk : List Nat)
    (pfl : FirstLevelIndexKey) (count pos : Nat),
    (runMetaGo pk pfl count pos rows).length = rows.length := by
  intro rows
  induction rows with
  | nil => intro pk pfl count pos; rfl
  | cons r rs ih =>
    intro pk pfl count pos
    simp only [runMetaGo, List.length_cons]
    rw [ih]

theorem flatMap_u16le_length : ∀ l : List Nat, (l.flatMap u16le).length = 2 * l.length := by
  intro l
  induction l with
  | nil => simp
  | cons x xs ih =>
    simp only [List.flatMap_cons, List.length_append, ih, u16le]
    simp
    omega

theorem chunkOf_length (cl : Nat) (r : SecondLevelIndexRow) :
    (chunkOf cl r).length = 2 + 2 * (r.nameUTF16.length - cl) + 5 := by
  simp only [chunkOf, List.length_cons, List.length_append, flatMap_u16le_length,
    List.length_drop, u40le, List.length_nil]
  omega


/-- Bridge between the writer loop and the ghost metadata: a successful run
emits exactly the chunks described by `runMetaGo`, appends exactly the jump
rows' keys and positions to the first-level index, and advances `totalSize`
by the total chunk length. -/
theorem writeSecondLevelRun_spec :
    ∀ (rows : List SecondLevelIndexRow) (s : WSState) (chunks : List (List Nat)) (s2 : WSState),
      writeSecondLevelRun s rows = some (chunks, s2) →
      chunks = List.zipWith (fun m r => chunkOf m.cl r)
          (runMetaGo s.prevKey s.prevFirstLevelKey s.countForPrevKey s.totalSize rows) rows ∧
      s2.flKeys = s.flKeys ++
        jumpKeys (runMetaGo s.prevKey s.prevFirstLevelKey s.countForPrevKey s.totalSize rows) rows ∧
      s2.flOffsets = s.flOffsets ++
        jumpOffsets (runMetaGo s.prevKey s.prevFirstLevelKey s.countForPrevKey s.totalSize rows) ∧
      s2.totalSize = s.totalSize + (chunks.map List.length).sum := by
  intro rows
  induction rows with
  | nil =>
    intro s chunks s2 h
    simp only [writeSecondLevelRun, Option.some.injEq, Prod.mk.injEq] at h
    obtain ⟨rfl, rfl⟩ := h
    simp [runMetaGo, jumpKeys, jumpOffsets]
  | cons r rs ih =>
    intro s chunks s2 h
    simp only [writeSecondLevelRun] at h
    split at h
    · exact absurd h (by simp)
    · rename_i chunk s1 hstep
      split at h
      · exact absurd h (by simp)
      · rename_i cs s3 hrun
        simp only [Option.some.injEq, Prod.mk.injEq] at h
        obtain ⟨h1, h2⟩ := h
        subst h1
        subst h2
        simp only [writeSecondLevelStep] at hstep
        split at hstep
        · exact absurd hstep (by simp)
        · rename_i ck hk
          have hkeyne : r.nameUTF16 ≠ [] := by
            intro hnil
            rw [hnil] at hk
            exact absurd hk (by simp [newFirstLevelIndexKey])
          have hck : ck = pad4 r.nameUTF16 := by
            have h2 := newFirstLevelIndexKey_eq_pad4 r.nameUTF16 hkeyne
            rw [hk] at h2
            exact Option.some.inj h2
          subst hck
          by_cases hlen : 127 < r.nameUTF16.length
          · rw [if_pos hlen] at hstep; exact absurd hstep (by simp)
          · rw [if_neg hlen] at hstep
            simp only [Option.some.injEq, Prod.mk.injEq] at hstep
            obtain ⟨hchunk, hs1⟩ := hstep
            by_cases hj : 1024 ≤ s.countForPrevKey ∧ ¬ pad4 r.nameUTF16 = s.prevFirstLevelKey
            · simp only [jumpCond, if_pos hj] at hchunk hs1
              subst hs1
              obtain ⟨g1, g2, g3, g4⟩ := ih _ cs s3 hrun
              simp only [runMetaGo, if_pos hj]
              refine ⟨?_, ?_, ?_, ?_⟩
              · simp only [List.zipWith_cons_cons]
                rw [← hchunk]
                refine List.cons_eq_cons.mpr ⟨by simp [chunkOf], ?_⟩
                exact g1
              · rw [g2]
                simp only [jumpKeys, List.zip_cons_cons, List.filter_cons]
                simp [hj, List.append_assoc]
              · rw [g3]
                simp only [jumpOffsets, List.filter_cons]
                simp [hj, List.append_assoc]
              · have hcl : chunk = chunkOf 0 r := hchunk.symm
                rw [g4, hcl, List.map_cons, List.sum_cons, chunkOf_length]
                dsimp only
                omega
            · simp only [jumpCond, if_neg hj] at hchunk hs1
              subst hs1
              obtain ⟨g1, g2, g3, g4⟩ := ih _ cs s3 hrun
              simp only [runMetaGo, if_neg hj]
              refine ⟨?_, ?_, ?_, ?_⟩
              · simp only [List.zipWith_cons_cons]
                rw [← hchunk]
                refine List.cons_eq_cons.mpr ⟨by simp [chunkOf], ?_⟩
                exact g1
              · rw [g2]
                simp only [jumpKeys, List.zip_cons_cons, List.filter_cons]
                simp [hj]
              · rw [g3]
                simp only [jumpOffsets, List.filter_cons]
                simp [hj]
              · have hcl : chunk = chunkOf (commonPrefixLen s.prevKey r.nameUTF16) r :=
                  hchunk.symm
                rw [g4, hcl, List.map_cons, List.sum_cons, chunkOf_length]
                dsimp only
                omega

/-! ## Byte-level decode/encode identities and scratch-buffer lemmas -/

theorem listWrite_length (buf data : List Nat) (off : Nat)
    (h : off + data.length ≤ buf.length) : (listWrite buf off data).length = buf.length := by
  simp [listWrite]
  omega

theorem listWrite_getD (buf : List Nat) (off : Nat) (data : List Nat) (j : Nat)
    (h : off + data.length ≤ buf.length) :
    (listWrite buf off data).getD j 0 =
      if j < off then buf.getD j 0
      else if j < off + data.length then data.getD (j - off) 0
      else buf.getD j 0 := by
  unfold listWrite
  have hoff : off ≤ buf.length := by omega
  simp only [List.getD_eq_getElem?_getD, List.getElem?_append, List.length_append,
    List.length_take, List.getElem?_take, List.getElem?_drop, min_eq_left hoff]
  split_ifs <;> first | rfl | omega | (congr 2; omega)

theorem flatMap_u16le_getD : ∀ (units : List Nat) (k : Nat), k < units.length →
    (units.flatMap u16le).getD (2 * k) 0 = units.getD k 0 % 256 ∧
    (units.flatMap u16le).getD (2 * k + 1) 0 = units.getD k 0 / 2 ^ 8 % 256 := by
  intro units
  induction units with
  | nil => intro k hk; simp at hk
  | cons u us ih =>
    intro k hk
    cases k with
    | zero => simp [u16le]
    | succ k =>
      simp only [List.flatMap_cons]
      have hlen2 : (u16le u).length = 2 := by simp [u16le]
      have e1 : (u16le u ++ us.flatMap u16le).getD (2 * (k + 1)) 0 =
          (us.flatMap u16le).getD (2 * k) 0 := by
        rw [List.getD_append_right _ _ _ _ (by omega)]
        congr 1
      have e2 : (u16le u ++ us.flatMap u16le).getD (2 * (k + 1) + 1) 0 =
          (us.flatMap u16le).getD (2 * k + 1) 0 := by
        rw [List.getD_append_right _ _ _ _ (by omega)]
        congr 1
      rw [e1, e2]
      have := ih k (by simpa using Nat.lt_of_succ_lt_succ hk)
      simpa using this

/-- `buf` holds the code units of `key` in its first `2 * key.length` bytes. -/
def bufReads (buf : List Nat) (key : List Nat) : Prop :=
  ∀ i, i < key.length → bufU16 buf i = key.getD i 0

theorem commonPrefixLenLoop_spec : ∀ (fuel : Nat) (a b : List Nat),
    commonPrefixLenLoop a b fuel ≤ a.length ∧ commonPrefixLenLoop a b fuel ≤ b.length ∧
    a.take (commonPrefixLenLoop a b fuel) = b.take (commonPrefixLenLoop a b fuel) := by
  intro fuel
  induction fuel with
  | zero =>
    intro a b
    cases a <;> cases b <;> simp [commonPrefixLenLoop]
  | succ fuel ih =>
    intro a b
    cases a with
    | nil => simp [commonPrefixLenLoop]
    | cons x xs =>
      cases b with
      | nil => simp [commonPrefixLenLoop]
      | cons y ys =>
        simp only [commonPrefixLenLoop]
        split_ifs with hxy
        · obtain ⟨g1, g2, g3⟩ := ih xs ys
          subst hxy
          refine ⟨by simpa using g1, by simpa using g2, ?_⟩
          simp [List.take_succ_cons, g3]
        · simp

theorem commonPrefixLen_spec (a b : List Nat) :
    commonPrefixLen a b ≤ a.length ∧ commonPrefixLen a b ≤ b.length ∧
    a.take (commonPrefixLen a b) = b.take (commonPrefixLen a b) :=
  commonPrefixLenLoop_spec (min a.length b.length % 256) a b

/-- The compatibility invariant between consecutive rows that the reader's
front-compression walk relies on: every stored `common_prefix_len` reuses only
code units that the previous key (`vk`) indeed shares with the current key. -/
def CLAgree : List Nat → List RowMeta → List SecondLevelIndexRow → Prop
  | _, [], [] => True
  | vk, m :: ms, r :: rs =>
      m.cl ≤ vk.length ∧ m.cl ≤ r.nameUTF16.length ∧
      r.nameUTF16.take m.cl = vk.take m.cl ∧
      CLAgree r.nameUTF16 ms rs
  | _, _, _ => False

theorem runMetaGo_clAgree : ∀ (rows : List SecondLevelIndexRow) (pk : List Nat)
    (pfl : FirstLevelIndexKey) (count pos : Nat),
    CLAgree pk (runMetaGo pk pfl count pos rows) rows := by
  intro rows
  induction rows with
  | nil => intro pk pfl count pos; trivial
  | cons r rs ih =>
    intro pk pfl count pos
    simp only [runMetaGo]
    by_cases hj : 1024 ≤ count ∧ ¬ pad4 r.nameUTF16 = pfl
    · simp only [if_pos hj]
      exact ⟨Nat.zero_le _, Nat.zero_le _, by simp, ih _ _ _ _⟩
    · simp only [if_neg hj]
      obtain ⟨g1, g2, g3⟩ := commonPrefixLen_spec pk r.nameUTF16
      exact ⟨g1, g2, g3.symm, ih _ _ _ _⟩

theorem getD_take_of_lt (l : List Nat) (n i : Nat) (h : i < n) :
    (l.take n).getD i 0 = l.getD i 0 := by
  simp [List.getD_eq_getElem?_getD, List.getElem?_take, h]

/-- Reading the scratch buffer after one row write: writing
`suffix-units ++ offset-bytes` at byte offset `2 * cl` over a buffer that held
the previous key yields a buffer that holds the current key, with the 5 offset
bytes right after it. -/
theorem bufAfterWrite (buf : List Nat) (hb : buf.length = 512) (vk key off5 : List Nat)
    (cl : Nat) (hcl1 : cl ≤ vk.length) (hcl2 : cl ≤ key.length)
    (hagree : key.take cl = vk.take cl)
    (hcov : bufReads buf vk)
    (hkeylen : key.length ≤ 127)
    (hunits : ∀ u ∈ key, u < 2 ^ 16)
    (h5 : off5.length = 5) :
    (listWrite buf (2 * cl) ((key.drop cl).flatMap u16le ++ off5)).length = 512 ∧
    bufReads (listWrite buf (2 * cl) ((key.drop cl).flatMap u16le ++ off5)) key ∧
    (∀ k, k < 5 →
      (listWrite buf (2 * cl) ((key.drop cl).flatMap u16le ++ off5)).getD (2 * key.length + k) 0 =
        off5.getD k 0) := by
  have hdata : ((key.drop cl).flatMap u16le ++ off5).length = 2 * (key.length - cl) + 5 := by
    rw [List.length_append, flatMap_u16le_length, List.length_drop, h5]
  have hfit : 2 * cl + ((key.drop cl).flatMap u16le ++ off5).length ≤ buf.length := by
    rw [hdata, hb]; omega
  have hflen : ((key.drop cl).flatMap u16le).length = 2 * (key.length - cl) := by
    rw [flatMap_u16le_length, List.length_drop]
  refine ⟨?_, ?_, ?_⟩
  · rw [listWrite_length _ _ _ hfit, hb]
  · intro i hi
    by_cases hicl : i < cl
    · have h1 : 2 * i < 2 * cl := by omega
      have h2 : 2 * i + 1 < 2 * cl := by omega
      simp only [bufU16, listWrite_getD _ _ _ _ hfit, if_pos h1, if_pos h2]
      have := hcov i (by omega)
      simp only [bufU16] at this
      rw [this]
      have e1 : vk.getD i 0 = (vk.take cl).getD i 0 := (getD_take_of_lt vk cl i hicl).symm
      have e2 : key.getD i 0 = (key.take cl).getD i 0 := (getD_take_of_lt key cl i hicl).symm
      rw [e1, e2, hagree]
    · have h1 : ¬ 2 * i < 2 * cl := by omega
      have h2 : ¬ 2 * i + 1 < 2 * cl := by omega
      have h3 : 2 * i < 2 * cl + (2 * (key.length - cl) + 5) := by omega
      have h4 : 2 * i + 1 < 2 * cl + (2 * (key.length - cl) + 5) := by omega
      simp only [bufU16, listWrite_getD _ _ _ _ hfit, if_neg h1, if_neg h2, hdata,
        if_pos h3, if_pos h4]
      have hk : i - cl < (key.drop cl).length := by rw [List.length_drop]; omega
      have e0 : 2 * i - 2 * cl = 2 * (i - cl) := by omega
      have e1 : 2 * i + 1 - 2 * cl = 2 * (i - cl) + 1 := by omega
      rw [e0, e1]
      have hin : 2 * (i - cl) < ((key.drop cl).flatMap u16le).length := by rw [hflen]; omega
      have hin1 : 2 * (i - cl) + 1 < ((key.drop cl).flatMap u16le).length := by rw [hflen]; omega
      rw [List.getD_append _ _ _ _ hin, List.getD_append _ _ _ _ hin1]
      obtain ⟨f0, f1⟩ := flatMap_u16le_getD (key.drop cl) (i - cl) hk
      rw [f0, f1]
      have hdrop : (key.drop cl).getD (i - cl) 0 = key.getD i 0 := by
        simp only [List.getD_eq_getElem?_getD, List.getElem?_drop]
        congr 2
        omega
      rw [hdrop]
      have hub : key.getD i 0 < 2 ^ 16 := by
        have : key.getD i 0 ∈ key := by
          rw [List.getD_eq_getElem _ _ hi]
          exact List.getElem_mem _
        exact hunits _ this
      omega
  · intro k hk5
    have h1 : ¬ 2 * key.length + k < 2 * cl := by omega
    have h2 : 2 * key.length + k < 2 * cl + (2 * (key.length - cl) + 5) := by omega
    simp only [listWrite_getD _ _ _ _ hfit, if_neg h1, hdata, if_pos h2]
    rw [List.getD_append_right _ _ _ _ (by rw [hflen]; omega)]
    congr 1
    rw [hflen]
    omega

theorem readKeyUnits_eq (buf key : List Nat) (hcov : bufReads buf key) (n : Nat)
    (hn : n ≤ key.length) : readKeyUnits buf n = key.take n := by
  apply List.ext_getElem
  · simp [readKeyUnits]
    omega
  · intro i h1 h2
    simp only [readKeyUnits, List.getElem_map, List.getElem_range, List.getElem_take]
    have hi : i < key.length := by
      simp [readKeyUnits] at h1
      omega
    rw [hcov i hi, List.getD_eq_getElem _ _ hi]

theorem readKeyUnits_eq_self (buf key : List Nat) (hcov : bufReads buf key) :
    readKeyUnits buf key.length = key := by
  rw [readKeyUnits_eq buf key hcov key.length (le_refl _), List.take_length]

/-- The offset bytes following the key in the scratch buffer decode to the
written offset, reduced to 40 bits. -/
theorem entryOffsetToUInt64_ofWrite (buf : List Nat) (nkb : Nat) (v : Nat)
    (hoff : ∀ k, k < 5 → buf.getD (nkb + k) 0 = (u40le v).getD k 0) :
    entryOffsetToUInt64 buf nkb = v % 2 ^ 40 := by
  have h0 := hoff 0 (by omega)
  have h1 := hoff 1 (by omega)
  have h2 := hoff 2 (by omega)
  have h3 := hoff 3 (by omega)
  have h4 := hoff 4 (by omega)
  simp only [Nat.add_zero] at h0
  simp only [entryOffsetToUInt64, h0, h1, h2, h3, h4, u40le]
  simp only [List.getD_cons_zero, List.getD_cons_succ]
  omega

theorem cmpUnitsLoop_sign : ∀ (key chars : List Nat),
    (cmpUnitsLoop (key.take (min key.length chars.length))
        (chars.take (min key.length chars.length))
        ((2 * key.length : Int) - 2 * chars.length) = 0 ↔ slicesCompare key chars = 0) ∧
    (cmpUnitsLoop (key.take (min key.length chars.length))
        (chars.take (min key.length chars.length))
        ((2 * key.length : Int) - 2 * chars.length) < 0 ↔ slicesCompare key chars < 0) ∧
    (0 < cmpUnitsLoop (key.take (min key.length chars.length))
        (chars.take (min key.length chars.length))
        ((2 * key.length : Int) - 2 * chars.length) ↔ 0 < slicesCompare key chars) := by
  intro key
  induction key with
  | nil =>
    intro chars
    cases chars with
    | nil => simp [cmpUnitsLoop, slicesCompare]
    | cons y ys =>
      simp only [List.length_nil, Nat.zero_min, List.take_zero, cmpUnitsLoop, slicesCompare,
        List.length_cons]
      refine ⟨?_, ?_, ?_⟩ <;> constructor <;> intro h <;> omega
  | cons x xs ih =>
    intro chars
    cases chars with
    | nil =>
      simp only [List.length_nil, Nat.min_zero, List.take_zero, cmpUnitsLoop, slicesCompare,
        List.length_cons]
      refine ⟨?_, ?_, ?_⟩ <;> constructor <;> intro h <;> omega
    | cons y ys =>
      have hmin : min (x :: xs).length (y :: ys).length = min xs.length ys.length + 1 := by
        simp [Nat.succ_min_succ]
      rw [hmin]
      simp only [List.take_succ_cons, cmpUnitsLoop, slicesCompare]
      by_cases hxy : x = y
      · subst hxy
        simp only [sub_self, ne_eq, not_true_eq_false, if_false]
        have harith : ((2 * (x :: xs).length : Int) - 2 * (x :: ys).length) =
            (2 * xs.length : Int) - 2 * ys.length := by
          simp
          ring
        rw [harith]
        have hih := ih ys
        rw [if_neg (lt_irrefl x), if_neg (lt_irrefl x)]
        exact hih
      · have hne : ((x : Int) - y ≠ 0) := by
          intro h
          apply hxy
          omega
        rw [if_pos hne]
        rcases Nat.lt_trichotomy x y with hlt | heq | hgt
        · rw [if_pos hlt]
          refine ⟨?_, ?_, ?_⟩ <;> constructor <;> intro h <;> omega
        · exact absurd heq hxy
        · rw [if_neg (by omega), if_pos hgt]
          refine ⟨?_, ?_, ?_⟩ <;> constructor <;> intro h <;> omega

/-- `compareTo` computes the sign of the code-unit comparison between the
buffered key and the query (shorter-prefix compares smaller), exactly as
`slices.Compare` on the decoded key. -/
theorem compareTo_sign (buf key chars : List Nat) (hcov : bufReads buf key) :
    (compareTo buf chars (2 * key.length) = 0 ↔ key = chars) ∧
    (compareTo buf chars (2 * key.length) < 0 ↔ slicesCompare key chars < 0) ∧
    (0 < compareTo buf chars (2 * key.length) ↔ 0 < slicesCompare key chars) := by
  have hdiv : 2 * key.length / 2 = key.length := by omega
  have hcast : ((2 * key.length : Nat) : Int) = 2 * (key.length : Int) := by
    push_cast
    ring
  unfold compareTo
  simp only [hdiv, hcast]
  rw [readKeyUnits_eq buf key hcov _ (min_le_left _ _)]
  obtain ⟨c1, c2, c3⟩ := cmpUnitsLoop_sign key chars
  refine ⟨?_, c2, c3⟩
  rw [c1, slicesCompare_eq_zero_iff]

/-- Default row used with `List.getD`. -/
def rowDefault : SecondLevelIndexRow := ⟨[], 0⟩

/-- Reading one well-formed row chunk: `readRowRaw` consumes exactly the chunk,
leaves the rest of the stream, and the scratch buffer now holds the row's full
key followed by its 40-bit offset bytes. -/
theorem readRowRaw_chunk (m : RowMeta) (r : SecondLevelIndexRow) (rest buf vk : List Nat)
    (hb : buf.length = 512)
    (hcl1 : m.cl ≤ vk.length) (hcl2 : m.cl ≤ r.nameUTF16.length)
    (hagree : r.nameUTF16.take m.cl = vk.take m.cl)
    (hcov : bufReads buf vk)
    (hlen : r.nameUTF16.length ≤ 127)
    (hunits : ∀ u ∈ r.nameUTF16, u < 2 ^ 16) :
    ∃ buf1, readRowRaw (chunkOf m.cl r ++ rest) buf =
        .ok (rest, buf1, m.cl, r.nameUTF16.length - m.cl) ∧
      buf1.length = 512 ∧ bufReads buf1 r.nameUTF16 ∧
      entryOffsetToUInt64 buf1 (2 * r.nameUTF16.length) = r.offset % 2 ^ 40 := by
  have hdata : ((r.nameUTF16.drop m.cl).flatMap u16le ++ u40le r.offset).length =
      2 * (r.nameUTF16.length - m.cl) + 5 := by
    rw [List.length_append, flatMap_u16le_length, List.length_drop]
    simp [u40le]
  have hstream : chunkOf m.cl r ++ rest =
      m.cl :: (r.nameUTF16.length - m.cl) ::
        (((r.nameUTF16.drop m.cl).flatMap u16le ++ u40le r.offset) ++ rest) := rfl
  obtain ⟨w1, w2, w3⟩ := bufAfterWrite buf hb vk r.nameUTF16 (u40le r.offset) m.cl hcl1 hcl2
    hagree hcov hlen hunits (by simp [u40le])
  refine ⟨listWrite buf (2 * m.cl) ((r.nameUTF16.drop m.cl).flatMap u16le ++ u40le r.offset),
    ?_, w1, w2, ?_⟩
  · rw [hstream]
    unfold readRowRaw
    rw [if_neg (by simp)]
    have hget0 : (m.cl :: (r.nameUTF16.length - m.cl) ::
        (((r.nameUTF16.drop m.cl).flatMap u16le ++ u40le r.offset) ++ rest)).getD 0 0 = m.cl := rfl
    have hget1 : (m.cl :: (r.nameUTF16.length - m.cl) ::
        (((r.nameUTF16.drop m.cl).flatMap u16le ++ u40le r.offset) ++ rest)).getD 1 0 =
        r.nameUTF16.length - m.cl := rfl
    simp only [hget0, hget1, List.drop_succ_cons, List.drop_zero]
    rw [if_neg (by
      rw [List.length_append, hdata]
      omega)]
    rw [if_neg (by omega)]
    rw [List.take_left' hdata, List.drop_left' hdata]
  · exact entryOffsetToUInt64_ofWrite _ _ _ w3

theorem CLAgree_lengths : ∀ (vk : List Nat) (ms : List RowMeta)
    (rows : List SecondLevelIndexRow), CLAgree vk ms rows → ms.length = rows.length := by
  intro vk ms
  induction ms generalizing vk with
  | nil => intro rows h; cases rows with
    | nil => rfl
    | cons r rs => exact absurd h (by simp [CLAgree])
  | cons m ms ih =>
    intro rows h
    cases rows with
    | nil => exact absurd h (by simp [CLAgree])
    | cons r rs =>
      obtain ⟨-, -, -, htail⟩ := h
      simpa using ih _ _ htail

/-- The row walk of `entryOffset` over well-formed chunks: with strictly
smaller keys before the target and the target's key equal to the query, the
walk returns the target's stored 40-bit offset. -/
theorem entryOffsetWalk_finds :
    ∀ (rows : List SecondLevelIndexRow) (ms : List RowMeta) (vk tail buf chars : List Nat)
      (fuel t : Nat),
      t < rows.length →
      t + 1 ≤ fuel →
      buf.length = 512 →
      bufReads buf vk →
      CLAgree vk ms rows →
      (∀ r ∈ rows, r.nameUTF16.length ≤ 127 ∧ ∀ u ∈ r.nameUTF16, u < 2 ^ 16) →
      (∀ i, i < t → slicesCompare ((rows.getD i rowDefault).nameUTF16) chars < 0) →
      ((rows.getD t rowDefault).nameUTF16 = chars) →
      entryOffsetWalk chars fuel
          ((List.zipWith (fun m r => chunkOf m.cl r) ms rows).flatten ++ tail) buf =
        .ok ((rows.getD t rowDefault).offset % 2 ^ 40) := by
  intro rows
  induction rows with
  | nil =>
    intro ms vk tail buf chars fuel t ht
    exact absurd ht (by simp)
  | cons r rs ih =>
    intro ms vk tail buf chars fuel t ht hfuel hb hcov hagree hvalid hbefore htarget
    cases ms with
    | nil => exact absurd hagree (by simp [CLAgree])
    | cons m ms =>
      obtain ⟨a1, a2, a3, a4⟩ := hagree
      cases fuel with
      | zero => omega
      | succ fuel =>
        obtain ⟨hl127, hu16⟩ := hvalid r (by simp)
        obtain ⟨buf1, hread, hb1, hcov1, hoff1⟩ :=
          readRowRaw_chunk m r (((List.zipWith (fun m r => chunkOf m.cl r) ms rs).flatten) ++ tail)
            buf vk hb a1 a2 a3 hcov hl127 hu16
        have hstream : (List.zipWith (fun m r => chunkOf m.cl r) (m :: ms) (r :: rs)).flatten
            ++ tail = chunkOf m.cl r ++
              (((List.zipWith (fun m r => chunkOf m.cl r) ms rs).flatten) ++ tail) := by
          simp [List.zipWith_cons_cons, List.flatten_cons, List.append_assoc]
        rw [hstream]
        simp only [entryOffsetWalk, hread]
        have hnkb : 2 * (m.cl + (r.nameUTF16.length - m.cl)) = 2 * r.nameUTF16.length := by
          omega
        rw [hnkb]
        obtain ⟨c1, c2, c3⟩ := compareTo_sign buf1 r.nameUTF16 chars hcov1
        cases t with
        | zero =>
          have hkey : r.nameUTF16 = chars := htarget
          have hc0 : compareTo buf1 chars (2 * r.nameUTF16.length) = 0 := c1.mpr hkey
          rw [if_pos hc0]
          simp only [List.getD_cons_zero]
          rw [← hoff1]
        | succ t =>
          have hlt : slicesCompare r.nameUTF16 chars < 0 := by
            have := hbefore 0 (by omega)
            simpa using this
          have hcne : ¬ compareTo buf1 chars (2 * r.nameUTF16.length) = 0 := by
            intro h0
            have := c1.mp h0
            subst this
            simp [slicesCompare_self] at hlt
          have hcnlt : ¬ 0 < compareTo buf1 chars (2 * r.nameUTF16.length) := by
            intro hgt
            have := c3.mp hgt
            omega
          rw [if_neg hcne, if_neg hcnlt]
          have htail' : (rs.getD t rowDefault).nameUTF16 = chars := htarget
          have hbefore' : ∀ i, i < t → slicesCompare ((rs.getD i rowDefault).nameUTF16) chars < 0 := by
            intro i hi
            have := hbefore (i + 1) (by omega)
            simpa using this
          have := ih ms r.nameUTF16 tail buf1 chars fuel t (by simpa using Nat.lt_of_succ_lt_succ ht)
            (by omega) hb1 hcov1 a4 (fun rr hrr => hvalid rr (by simp [hrr]))
            hbefore' htail'
          simpa using this

/-! ## First-level keys as 4-unit lists -/

/-- The four code units of a first-level key, in order (the sequence the
writer emits and the reader compares). -/
def keyList (k : FirstLevelIndexKey) : List Nat := [k.ch0, k.ch1, k.ch2, k.ch3]

/-- `n` code units of `a`, zero-padded past its end. -/
def padList : Nat → List Nat → List Nat
  | 0, _ => []
  | n + 1, a => a.getD 0 0 :: padList n a.tail

theorem getD_tail (a : List Nat) (i : Nat) : a.tail.getD i 0 = a.getD (i + 1) 0 := by
  cases a <;> simp

theorem keyList_pad4 (a : List Nat) : keyList (pad4 a) = padList 4 a := by
  simp only [keyList, pad4, padList, getD_tail]

theorem keyList_length (k : FirstLevelIndexKey) : (keyList k).length = 4 := rfl

theorem padList_length : ∀ (n : Nat) (a : List Nat), (padList n a).length = n := by
  intro n
  induction n with
  | zero => intro a; rfl
  | succ n ih => intro a; simp [padList, ih]

theorem keyList_inj {a b : FirstLevelIndexKey} (h : keyList a = keyList b) : a = b := by
  cases a
  cases b
  simp only [keyList, List.cons.injEq] at h
  simp_all

theorem padList_mono : ∀ (n : Nat) (a b : List Nat), slicesCompare a b ≤ 0 →
    slicesCompare (padList n a) (padList n b) ≤ 0 := by
  intro n
  induction n with
  | zero => intro a b _; simp [padList, slicesCompare]
  | succ n ih =>
    intro a b h
    cases a with
    | nil =>
      cases b with
      | nil => simp [padList, slicesCompare, ih [] [] (by simp [slicesCompare])]
      | cons y ys =>
        simp only [padList, List.getD_cons_zero, List.tail_cons, List.getD_nil,
          List.tail_nil, slicesCompare]
        split_ifs with h1 h2
        · omega
        · omega
        · have hy : y = 0 := by omega
          exact ih [] ys (by cases ys <;> simp [slicesCompare])
    | cons x xs =>
      cases b with
      | nil => simp [slicesCompare] at h
      | cons y ys =>
        simp only [slicesCompare] at h
        simp only [padList, List.getD_cons_zero, List.tail_cons, slicesCompare]
        split_ifs at h ⊢ with h1 h2 <;> first
          | omega
          | exact ih xs ys h

theorem padList_nil_le : ∀ (n : Nat) (g : List Nat), n ≤ g.length →
    slicesCompare (padList n []) g ≤ 0 := by
  intro n
  induction n with
  | zero => intro g _; cases g <;> simp [padList, slicesCompare]
  | succ n ih =>
    intro g hg
    cases g with
    | nil => simp at hg
    | cons y ys =>
      simp only [padList, List.getD_nil, List.tail_nil, slicesCompare]
      split_ifs with h1 h2
      · omega
      · omega
      · exact ih ys (by simpa using hg)

theorem padCompare_gt_iff : ∀ (n : Nat) (f K : List Nat), f.length = n →
    (0 < slicesCompare f K ↔
      (0 < slicesCompare f (padList n K) ∨ (f = padList n K ∧ K.length < n))) := by
  intro n
  induction n with
  | zero =>
    intro f K hf
    rw [List.length_eq_zero.mp hf]
    cases K <;> simp [slicesCompare, padList]
  | succ n ih =>
    intro f K hf
    cases f with
    | nil => simp at hf
    | cons x xs =>
      have hxs : xs.length = n := by simpa using hf
      cases K with
      | nil =>
        have hle := padList_nil_le (n + 1) (x :: xs) (by simp [hf])
        constructor
        · intro _
          rcases lt_or_eq_of_le hle with hlt | heq
          · left
            have := slicesCompare_neg_of (padList (n + 1) []) (x :: xs)
            omega
          · right
            exact ⟨((slicesCompare_eq_zero_iff _ _).mp heq).symm, by simp⟩
        · intro _
          simp [slicesCompare]
      | cons k ks =>
        have hpad : padList (n + 1) (k :: ks) = k :: padList n ks := by
          simp [padList]
        rw [hpad]
        simp only [slicesCompare]
        split_ifs with h1 h2
        · constructor
          · intro h; exact absurd h (by decide)
          · rintro (h | ⟨heq, -⟩)
            · exact absurd h (by decide)
            · have hx : x = k := by
                have := congrArg (fun l => l.getD 0 0) heq
                simpa using this
              omega
        · simp only [List.cons.injEq]
          constructor
          · intro _; left; decide
          · intro _; decide
        · have hx : x = k := by omega
          subst hx
          rw [ih xs ks hxs]
          simp only [List.cons.injEq, true_and, List.length_cons]
          constructor
          · rintro (h | ⟨heq, hlen⟩)
            · exact Or.inl h
            · exact Or.inr ⟨heq, by simpa using Nat.succ_lt_succ hlen⟩
          · rintro (h | ⟨heq, hlen⟩)
            · exact Or.inl h
            · exact Or.inr ⟨heq, by omega⟩

theorem flKey_gt_iff (f : FirstLevelIndexKey) (K : List Nat) :
    (0 < slicesCompare (keyList f) K) ↔
      (0 < slicesCompare (keyList f) (keyList (pad4 K)) ∨ (f = pad4 K ∧ K.length < 4)) := by
  rw [keyList_pad4, padCompare_gt_iff 4 (keyList f) K (keyList_length f)]
  constructor
  · rintro (h | ⟨heq, hlen⟩)
    · exact Or.inl h
    · refine Or.inr ⟨keyList_inj (by rw [heq, keyList_pad4]), hlen⟩
  · rintro (h | ⟨heq, hlen⟩)
    · exact Or.inl h
    · exact Or.inr ⟨by rw [heq, keyList_pad4], hlen⟩

/-- Default first-level key for `List.getD`. -/
def flDefault : FirstLevelIndexKey := ⟨0, 0, 0, 0⟩

/-- The flat code-unit list the reader decodes from the packed first-level
keys (each byte pair decoded modulo `2^16`). -/
def flatUnits (keys : List FirstLevelIndexKey) : List Nat :=
  keys.flatMap (fun k => [k.ch0 % 2 ^ 16, k.ch1 % 2 ^ 16, k.ch2 % 2 ^ 16, k.ch3 % 2 ^ 16])

theorem flatUnits_eq_keyList : ∀ (keys : List FirstLevelIndexKey),
    (∀ k ∈ keys, k.ch0 < 2 ^ 16 ∧ k.ch1 < 2 ^ 16 ∧ k.ch2 < 2 ^ 16 ∧ k.ch3 < 2 ^ 16) →
    flatUnits keys = keys.flatMap keyList := by
  intro keys
  induction keys with
  | nil => intro _; rfl
  | cons k ks ih =>
    intro h
    obtain ⟨h0, h1, h2, h3⟩ := h k (by simp)
    simp only [flatUnits, List.flatMap_cons] at *
    rw [Nat.mod_eq_of_lt h0, Nat.mod_eq_of_lt h1, Nat.mod_eq_of_lt h2, Nat.mod_eq_of_lt h3]
    rw [ih (fun k2 hk2 => h k2 (by simp [hk2]))]
    rfl

theorem firstLevelOffsetLoop_all_gt (chars : List Nat) :
    ∀ (keys : List FirstLevelIndexKey) (offs : List Nat) (p : Nat),
      keys.length = offs.length →
      (∀ k ∈ keys, 0 < slicesCompare (keyList k) chars) →
      firstLevelOffsetLoop chars (keys.flatMap keyList) offs (some p) = .ok p := by
  intro keys offs p hlen hgt
  cases offs with
  | nil => rfl
  | cons o os =>
    cases keys with
    | nil => simp at hlen
    | cons k ks =>
      simp only [List.flatMap_cons, firstLevelOffsetLoop]
      rw [List.take_left' (keyList_length k), if_pos (hgt k (by simp))]

theorem firstLevelOffsetLoop_find (chars : List Nat) :
    ∀ (keys : List FirstLevelIndexKey) (offs : List Nat) (j : Nat) (prev : Option Nat),
      keys.length = offs.length →
      j < keys.length →
      (∀ i, i ≤ j → ¬ 0 < slicesCompare (keyList (keys.getD i flDefault)) chars) →
      (∀ i, j < i → i < keys.length →
        0 < slicesCompare (keyList (keys.getD i flDefault)) chars) →
      firstLevelOffsetLoop chars (keys.flatMap keyList) offs prev = .ok (offs.getD j 0) := by
  intro keys
  induction keys with
  | nil =>
    intro offs j prev hlen hj
    simp at hj
  | cons k ks ih =>
    intro offs j prev hlen hj hle hgt
    cases offs with
    | nil => simp at hlen
    | cons o os =>
      simp only [List.flatMap_cons, firstLevelOffsetLoop]
      rw [List.take_left' (keyList_length k)]
      rw [if_neg (by simpa using hle 0 (by omega))]
      rw [List.drop_left' (keyList_length k)]
      cases j with
      | zero =>
        rw [firstLevelOffsetLoop_all_gt chars ks os o (by simpa using hlen)
          (fun k2 hk2 => by
            obtain ⟨i, hi, rfl⟩ := List.getElem_of_mem hk2
            have := hgt (i + 1) (by omega) (by simpa using Nat.succ_lt_succ hi)
            rw [List.getD_cons_succ, List.getD_eq_getElem _ _ hi] at this
            exact this)]
        rfl
      | succ j =>
        rw [ih os j (some o) (by simpa using hlen) (by simpa using Nat.lt_of_succ_lt_succ hj)
          (fun i hi => by simpa using hle (i + 1) (by omega))
          (fun i hi1 hi2 => by
            have := hgt (i + 1) (by omega) (by simpa using Nat.succ_lt_succ hi2)
            simpa using this)]
        rfl

/-! ## Decoding the first-level region -/

theorem decodeU16_u16le (v : Nat) (rest : List Nat) :
    decodeU16 (u16le v ++ rest) = v % 2 ^ 16 := by
  simp [decodeU16, u16le]
  omega

theorem readFLKeyChars_spec : ∀ (keys : List FirstLevelIndexKey) (rest : List Nat),
    readFLKeyChars keys.length (keys.flatMap firstLevelKeyBytes ++ rest) =
      some (flatUnits keys, rest) := by
  intro keys
  induction keys with
  | nil => intro rest; simp [readFLKeyChars, flatUnits]
  | cons k ks ih =>
    intro rest
    have h8 : (firstLevelKeyBytes k).length = 8 := by
      simp [firstLevelKeyBytes, u16le]
    simp only [List.flatMap_cons, List.length_cons, readFLKeyChars, List.append_assoc]
    rw [if_neg (by
      rw [List.length_append, h8]
      omega)]
    rw [List.take_append_eq_append_take, List.take_of_length_le (by omega), h8]
    have htk : List.take (8 - 8) (ks.flatMap firstLevelKeyBytes ++ rest) = [] := by simp
    rw [htk, List.append_nil]
    rw [List.drop_append_eq_append_drop, List.drop_of_length_le (by omega), h8]
    have hdr : List.drop (8 - 8) (ks.flatMap firstLevelKeyBytes ++ rest) =
        ks.flatMap firstLevelKeyBytes ++ rest := by simp
    rw [hdr, List.nil_append, ih]
    have e0 : decodeU16 (firstLevelKeyBytes k) = k.ch0 % 2 ^ 16 := by
      simp [firstLevelKeyBytes, u16le, decodeU16]
      omega
    have e1 : decodeU16 ((firstLevelKeyBytes k).drop 2) = k.ch1 % 2 ^ 16 := by
      simp [firstLevelKeyBytes, u16le, decodeU16]
      omega
    have e2 : decodeU16 ((firstLevelKeyBytes k).drop 4) = k.ch2 % 2 ^ 16 := by
      simp [firstLevelKeyBytes, u16le, decodeU16]
      omega
    have e3 : decodeU16 ((firstLevelKeyBytes k).drop 6) = k.ch3 % 2 ^ 16 := by
      simp [firstLevelKeyBytes, u16le, decodeU16]
      omega
    rw [e0, e1, e2, e3]
    simp [flatUnits]

theorem decodeU32_u32le (v : Nat) (rest : List Nat) :
    decodeU32 (u32le v ++ rest) = v % 2 ^ 32 := by
  simp [decodeU32, u32le]
  omega

theorem readFLOffsets_spec : ∀ (offs : List Nat) (rest : List Nat),
    readFLOffsets offs.length (offs.flatMap u32le ++ rest) =
      some (offs.map (· % 2 ^ 32), rest) := by
  intro offs
  induction offs with
  | nil => intro rest; simp [readFLOffsets]
  | cons o os ih =>
    intro rest
    have h4 : (u32le o).length = 4 := by simp [u32le]
    simp only [List.flatMap_cons, List.length_cons, readFLOffsets, List.append_assoc]
    rw [if_neg (by
      rw [List.length_append, h4]
      omega)]
    rw [List.drop_append_eq_append_drop, List.drop_of_length_le (by omega), h4]
    have hdr : List.drop (4 - 4) (os.flatMap u32le ++ rest) = os.flatMap u32le ++ rest := by simp
    rw [hdr, List.nil_append, ih]
    rw [List.take_append_eq_append_take, List.take_of_length_le (by omega), h4]
    have htk : List.take (4 - 4) (os.flatMap u32le ++ rest) = [] := by simp
    rw [htk, List.append_nil]
    have : decodeU32 (u32le o) = o % 2 ^ 32 := by
      simp [decodeU32, u32le]
      omega
    rw [this]
    rfl

theorem flatMap_fkb_length : ∀ keys : List FirstLevelIndexKey,
    (keys.flatMap firstLevelKeyBytes).length = 8 * keys.length := by
  intro keys
  induction keys with
  | nil => rfl
  | cons k ks ih =>
    simp only [List.flatMap_cons, List.length_append, ih, List.length_cons]
    have : (firstLevelKeyBytes k).length = 8 := by simp [firstLevelKeyBytes, u16le]
    omega

theorem flatMap_u32le_length : ∀ offs : List Nat,
    (offs.flatMap u32le).length = 4 * offs.length := by
  intro offs
  induction offs with
  | nil => rfl
  | cons o os ih =>
    simp only [List.flatMap_cons, List.length_append, ih, List.length_cons]
    have : (u32le o).length = 4 := by simp [u32le]
    omega

/-- Opening an archive laid out by the builder (normal full 4-byte read):
the decoded handle has the first-level key units and offsets the writer
packed, and anchors the second-level index `first_level_size +
second_level_size` bytes from EOF. -/
theorem openWiki_spec (pre sl : List Nat) (fl : FirstLevelIndexW) (slSize : Nat)
    (hlen : fl.keys.length = fl.offsets.length)
    (hn : 12 * fl.keys.length + 2 < 2 ^ 16)
    (hss : slSize < 2 ^ 32) :
    openWiki (pre ++ sl ++ u32le slSize ++ writeFirstLevel fl) =
      some ⟨flatUnits fl.keys, fl.offsets.map (· % 2 ^ 32),
        12 * fl.keys.length + 2 + slSize,
        pre ++ sl ++ u32le slSize ++ writeFirstLevel fl,
        u32le slSize ++ List.replicate 508 0⟩ := by
  have hkb := flatMap_fkb_length fl.keys
  have hob := flatMap_u32le_length fl.offsets
  have h32 : (u32le slSize).length = 4 := by simp [u32le]
  have htsz : (fl.keys.length * (8 + 4) + 2) % 2 ^ 16 = 12 * fl.keys.length + 2 := by omega
  have hwfl : (writeFirstLevel fl).length = 12 * fl.keys.length + 2 := by
    simp only [writeFirstLevel, List.length_append, hkb, hob, htsz]
    simp [u16le]
    omega
  have hF : (pre ++ sl ++ u32le slSize ++ writeFirstLevel fl).length =
      pre.length + sl.length + 4 + (12 * fl.keys.length + 2) := by
    simp only [List.length_append, h32, hwfl]
  have hb2 : (pre ++ sl ++ u32le slSize ++ writeFirstLevel fl).drop
      ((pre ++ sl ++ u32le slSize ++ writeFirstLevel fl).length - 2) =
      u16le ((fl.keys.length * (8 + 4) + 2) % 2 ^ 16) := by
    have hsplit : pre ++ sl ++ u32le slSize ++ writeFirstLevel fl =
        (pre ++ sl ++ u32le slSize ++ (fl.keys.flatMap firstLevelKeyBytes) ++
          (fl.offsets.flatMap u32le)) ++ u16le ((fl.keys.length * (8 + 4) + 2) % 2 ^ 16) := by
      simp [writeFirstLevel, List.append_assoc]
    rw [hsplit]
    rw [List.drop_left' ?hl]
    case hl =>
      have h2 : (u16le ((fl.keys.length * (8 + 4) + 2) % 2 ^ 16)).length = 2 := by simp [u16le]
      simp only [List.length_append, h2, hkb, hob, h32]
      omega
  have hdec : decodeU16 (u16le ((fl.keys.length * (8 + 4) + 2) % 2 ^ 16)) =
      12 * fl.keys.length + 2 := by
    simp [decodeU16, u16le]
    omega
  unfold openWiki openWikiRead
  rw [if_neg (by omega)]
  simp only [hb2, hdec]
  rw [if_neg (by omega)]
  have hpos : (pre ++ sl ++ u32le slSize ++ writeFirstLevel fl).length -
      (12 * fl.keys.length + 2) - 4 = (pre ++ sl).length := by
    rw [hF]
    simp [List.length_append]
  rw [hpos]
  have hdroppos : (pre ++ sl ++ u32le slSize ++ writeFirstLevel fl).drop (pre ++ sl).length =
      u32le slSize ++ writeFirstLevel fl := by
    have hsplit : pre ++ sl ++ u32le slSize ++ writeFirstLevel fl =
        (pre ++ sl) ++ (u32le slSize ++ writeFirstLevel fl) := by
      simp [List.append_assoc]
    rw [hsplit, List.drop_left]
  rw [hdroppos]
  have htake4 : (u32le slSize ++ writeFirstLevel fl).take 4 = u32le slSize :=
    List.take_left' h32
  rw [htake4, h32]
  have hnum : (12 * fl.keys.length + 2 + 2 ^ 16 - 2) % 2 ^ 16 / 12 = fl.keys.length := by
    omega
  rw [hnum]
  have hdropafter : (pre ++ sl ++ u32le slSize ++ writeFirstLevel fl).drop
      ((pre ++ sl).length + 4) = writeFirstLevel fl := by
    have hsplit : pre ++ sl ++ u32le slSize ++ writeFirstLevel fl =
        ((pre ++ sl) ++ u32le slSize) ++ writeFirstLevel fl := by
      simp [List.append_assoc]
    rw [hsplit]
    rw [List.drop_left' (by rw [List.length_append, h32])]
  rw [hdropafter]
  have hro := readFLOffsets_spec fl.offsets
    (u16le ((fl.keys.length * (8 + 4) + 2) % 2 ^ 16))
  rw [← hlen] at hro
  have hdfl : decodeFirstLevelIndex (writeFirstLevel fl) fl.keys.length =
      some (flatUnits fl.keys, fl.offsets.map (· % 2 ^ 32),
        u16le ((fl.keys.length * (8 + 4) + 2) % 2 ^ 16)) := by
    unfold decodeFirstLevelIndex
    have hsplit : writeFirstLevel fl = fl.keys.flatMap firstLevelKeyBytes ++
        (fl.offsets.flatMap u32le ++ u16le ((fl.keys.length * (8 + 4) + 2) % 2 ^ 16)) := by
      simp [writeFirstLevel, List.append_assoc]
    rw [hsplit, readFLKeyChars_spec]
    simp only [hro]
  rw [hdfl]
  have h2t : (u16le ((fl.keys.length * (8 + 4) + 2) % 2 ^ 16)).length = 2 := by simp [u16le]
  have hbuf1 : listWrite (List.replicate 512 0) 0
      (u16le ((fl.keys.length * (8 + 4) + 2) % 2 ^ 16)) =
      u16le ((fl.keys.length * (8 + 4) + 2) % 2 ^ 16) ++ List.replicate 510 0 := by
    unfold listWrite
    rw [List.take_zero, List.nil_append, Nat.zero_add, h2t, List.drop_replicate]
  have hbufw : listWrite (listWrite (List.replicate 512 0) 0
      (u16le ((fl.keys.length * (8 + 4) + 2) % 2 ^ 16))) 0 (u32le slSize) =
      u32le slSize ++ List.replicate 508 0 := by
    rw [hbuf1]
    unfold listWrite
    rw [List.take_zero, List.nil_append, Nat.zero_add, h32]
    rw [List.drop_append_eq_append_drop, h2t]
    rw [List.drop_of_length_le (by rw [h2t]; omega), List.drop_replicate]
    norm_num
  rw [hbufw]
  have hdec32 : decodeU32 ((u32le slSize ++ List.replicate 508 0).take 4) = slSize := by
    rw [List.take_left' h32]
    simp only [decodeU32, u32le]
    simp only [List.getD_cons_zero, List.getD_cons_succ]
    omega
  rw [hdec32]

theorem flatten_drop_take (L : List (List Nat)) (i : Nat) :
    (L.flatten).drop ((L.take i).flatten.length) = (L.drop i).flatten := by
  have h : L.flatten = (L.take i).flatten ++ (L.drop i).flatten := by
    rw [← List.flatten_append, List.take_append_drop]
  rw [h, List.drop_left]

/-- Default row metadata for `List.getD`. -/
def metaDefault : RowMeta := ⟨false, 0, 0⟩

/-- Byte positions recorded by the ghost run: the position of row `i` is the
base position plus the total length of the preceding chunks. -/
theorem runMetaGo_pos : ∀ (rows : List SecondLevelIndexRow) (pk : List Nat)
    (pfl : FirstLevelIndexKey) (count pos : Nat) (i : Nat), i < rows.length →
    ((runMetaGo pk pfl count pos rows).getD i metaDefault).pos =
      pos + ((List.zipWith (fun m r => chunkOf m.cl r)
        (runMetaGo pk pfl count pos rows) rows).take i).flatten.length := by
  intro rows
  induction rows with
  | nil => intro pk pfl count pos i hi; simp at hi
  | cons r rs ih =>
    intro pk pfl count pos i hi
    simp only [runMetaGo]
    by_cases hj : 1024 ≤ count ∧ ¬ pad4 r.nameUTF16 = pfl
    · simp only [if_pos hj]
      cases i with
      | zero => simp
      | succ i =>
        simp only [List.getD_cons_succ, List.zipWith_cons_cons, List.take_succ_cons,
          List.flatten_cons, List.length_append]
        rw [ih _ _ _ _ i (by simpa using Nat.lt_of_succ_lt_succ hi)]
        rw [chunkOf_length]
        omega
    · simp only [if_neg hj]
      cases i with
      | zero => simp
      | succ i =>
        simp only [List.getD_cons_succ, List.zipWith_cons_cons, List.take_succ_cons,
          List.flatten_cons, List.length_append]
        rw [ih _ _ _ _ i (by simpa using Nat.lt_of_succ_lt_succ hi)]
        rw [chunkOf_length]
        omega

theorem CLAgree_drop : ∀ (i : Nat) (vk : List Nat) (ms : List RowMeta)
    (rows : List SecondLevelIndexRow), CLAgree vk ms rows →
    ∃ vk2, CLAgree vk2 (ms.drop i) (rows.drop i) := by
  intro i
  induction i with
  | zero => intro vk ms rows h; exact ⟨vk, h⟩
  | succ i ih =>
    intro vk ms rows h
    cases ms with
    | nil =>
      cases rows with
      | nil => exact ⟨[], trivial⟩
      | cons r rs => exact absurd h (by simp [CLAgree])
    | cons m ms =>
      cases rows with
      | nil => exact absurd h (by simp [CLAgree])
      | cons r rs =>
        obtain ⟨-, -, -, h4⟩ := h
        simpa using ih _ _ _ h4

theorem CLAgree_head_zero (vk : List Nat) (m : RowMeta) (ms : List RowMeta)
    (r : SecondLevelIndexRow) (rs : List SecondLevelIndexRow)
    (h : CLAgree vk (m :: ms) (r :: rs)) (h0 : m.cl = 0) :
    CLAgree [] (m :: ms) (r :: rs) := by
  obtain ⟨-, -, -, h4⟩ := h
  exact ⟨by omega, by omega, by rw [h0]; rfl, h4⟩

theorem jumpKeys_cons_true (m : RowMeta) (ms : List RowMeta) (r : SecondLevelIndexRow)
    (rs : List SecondLevelIndexRow) (h : m.isJump = true) :
    jumpKeys (m :: ms) (r :: rs) = pad4 r.nameUTF16 :: jumpKeys ms rs := by
  simp [jumpKeys, h]

theorem jumpKeys_cons_false (m : RowMeta) (ms : List RowMeta) (r : SecondLevelIndexRow)
    (rs : List SecondLevelIndexRow) (h : m.isJump = false) :
    jumpKeys (m :: ms) (r :: rs) = jumpKeys ms rs := by
  simp [jumpKeys, h]

theorem jumpOffsets_cons_true (m : RowMeta) (ms : List RowMeta) (h : m.isJump = true) :
    jumpOffsets (m :: ms) = m.pos :: jumpOffsets ms := by
  simp [jumpOffsets, h]

theorem jumpOffsets_cons_false (m : RowMeta) (ms : List RowMeta) (h : m.isJump = false) :
    jumpOffsets (m :: ms) = jumpOffsets ms := by
  simp [jumpOffsets, h]

/-- Structure of the first-level entries a run appends: they are exactly the
rows flagged as jumps, listed by strictly increasing row index; each such row
is encoded self-contained (`cl = 0`); a jump at the very first row needs the
inherited counter and key state; a jump at any later row has a first-level
key different from the immediately preceding row's. -/
theorem runMetaGo_jump_struct :
    ∀ (rows : List SecondLevelIndexRow) (pk : List Nat) (pfl : FirstLevelIndexKey)
      (count pos : Nat),
      ∃ idxs : List Nat,
        jumpKeys (runMetaGo pk pfl count pos rows) rows =
          idxs.map (fun i => pad4 ((rows.getD i rowDefault).nameUTF16)) ∧
        jumpOffsets (runMetaGo pk pfl count pos rows) =
          idxs.map (fun i => ((runMetaGo pk pfl count pos rows).getD i metaDefault).pos) ∧
        List.Chain' (· < ·) idxs ∧
        ∀ i ∈ idxs, i < rows.length ∧
          ((runMetaGo pk pfl count pos rows).getD i metaDefault).cl = 0 ∧
          (i = 0 → 1024 ≤ count ∧ pad4 ((rows.getD 0 rowDefault).nameUTF16) ≠ pfl) ∧
          (0 < i → pad4 ((rows.getD i rowDefault).nameUTF16) ≠
            pad4 ((rows.getD (i - 1) rowDefault).nameUTF16)) := by
  intro rows
  induction rows with
  | nil =>
    intro pk pfl count pos
    exact ⟨[], by simp [runMetaGo, jumpKeys, jumpOffsets]⟩
  | cons r rs ih =>
    intro pk pfl count pos
    by_cases hj : 1024 ≤ count ∧ ¬ pad4 r.nameUTF16 = pfl
    · have hmeta : runMetaGo pk pfl count pos (r :: rs) =
          (⟨decide (1024 ≤ count ∧ ¬ pad4 r.nameUTF16 = pfl), 0, pos⟩ : RowMeta) ::
            runMetaGo r.nameUTF16 (pad4 r.nameUTF16) 1
              (pos + 1 + 1 + 2 * (r.nameUTF16.length - 0) + 5) rs := by
        simp only [runMetaGo, if_pos hj]
      obtain ⟨idxsT, g1, g2, g3, g4⟩ := ih r.nameUTF16 (pad4 r.nameUTF16) 1
        (pos + 1 + 1 + 2 * (r.nameUTF16.length - 0) + 5)
      refine ⟨0 :: idxsT.map (· + 1), ?_, ?_, ?_, ?_⟩
      · rw [hmeta, jumpKeys_cons_true _ _ _ _ (by simp [decide_eq_true hj]), g1]
        simp only [List.map_cons, List.getD_cons_zero, List.map_map]
        congr 1
      · rw [hmeta, jumpOffsets_cons_true _ _ (by simp [decide_eq_true hj]), g2]
        simp only [List.map_cons, List.getD_cons_zero, List.map_map]
        congr 1
      · rw [List.chain'_cons']
        constructor
        · intro b hb
          have hmem : b ∈ idxsT.map (· + 1) := List.mem_of_mem_head? hb
          obtain ⟨x, -, rfl⟩ := List.mem_map.mp hmem
          omega
        · rw [List.chain'_map]
          simpa using g3
      · intro i hi
        rcases List.mem_cons.mp hi with rfl | hi2
        · refine ⟨by simp, ?_, ?_, ?_⟩
          · rw [hmeta]
            simp
          · intro _
            exact ⟨hj.1, by simpa using hj.2⟩
          · intro h0
            omega
        · obtain ⟨j, hjmem, rfl⟩ := List.mem_map.mp hi2
          obtain ⟨p1, p2, p3, p4⟩ := g4 j hjmem
          refine ⟨by simpa using Nat.succ_lt_succ p1, ?_, ?_, ?_⟩
          · rw [hmeta]
            simpa using p2
          · intro h
            exact absurd h (by omega)
          · intro _
            cases j with
            | zero =>
              obtain ⟨habs, -⟩ := p3 rfl
              omega
            | succ j =>
              have hp := p4 (by omega)
              simpa using hp
    · have hmeta : runMetaGo pk pfl count pos (r :: rs) =
          (⟨decide (1024 ≤ count ∧ ¬ pad4 r.nameUTF16 = pfl),
            commonPrefixLen pk r.nameUTF16, pos⟩ : RowMeta) ::
            runMetaGo r.nameUTF16 (pad4 r.nameUTF16) (count + 1)
              (pos + 1 + 1 + 2 * (r.nameUTF16.length - commonPrefixLen pk r.nameUTF16) + 5)
              rs := by
        simp only [runMetaGo, if_neg hj]
      obtain ⟨idxsT, g1, g2, g3, g4⟩ := ih r.nameUTF16 (pad4 r.nameUTF16) (count + 1)
        (pos + 1 + 1 + 2 * (r.nameUTF16.length - commonPrefixLen pk r.nameUTF16) + 5)
      refine ⟨idxsT.map (· + 1), ?_, ?_, ?_, ?_⟩
      · rw [hmeta, jumpKeys_cons_false _ _ _ _ (by simp [decide_eq_false hj]), g1]
        simp only [List.map_map]
        apply List.map_congr_left
        intro j _
        simp
      · rw [hmeta, jumpOffsets_cons_false _ _ (by simp [decide_eq_false hj]), g2]
        simp only [List.map_map]
        apply List.map_congr_left
        intro j _
        simp
      · rw [List.chain'_map]
        simpa using g3
      · intro i hi
        obtain ⟨j, hjmem, rfl⟩ := List.mem_map.mp hi
        obtain ⟨p1, p2, p3, p4⟩ := g4 j hjmem
        refine ⟨by simpa using Nat.succ_lt_succ p1, ?_, ?_, ?_⟩
        · rw [hmeta]
          simpa using p2
        · intro h
          exact absurd h (by omega)
        · intro _
          cases j with
          | zero =>
            obtain ⟨-, hne⟩ := p3 rfl
            simpa using hne
          | succ j =>
            have hp := p4 (by omega)
            simpa using hp

/-! ## Totality of the writer on valid rows, and the top-level writer spec -/

theorem writeSecondLevelRun_total : ∀ (rows : List SecondLevelIndexRow) (s : WSState),
    (∀ r ∈ rows, r.nameUTF16 ≠ [] ∧ r.nameUTF16.length ≤ 127) →
    ∃ out, writeSecondLevelRun s rows = some out := by
  intro rows
  induction rows with
  | nil => intro s _; exact ⟨_, rfl⟩
  | cons r rs ih =>
    intro s hvalid
    obtain ⟨hne, h127⟩ := hvalid r (by simp)
    have hk := newFirstLevelIndexKey_eq_pad4 r.nameUTF16 hne
    have hstep : ∃ cs1, writeSecondLevelStep s r = some cs1 := by
      simp only [writeSecondLevelStep, hk]
      rw [if_neg (by omega)]
      exact ⟨_, rfl⟩
    obtain ⟨⟨chunk, s1⟩, hstep⟩ := hstep
    obtain ⟨out, hout⟩ := ih s1 (fun rr hrr => hvalid rr (by simp [hrr]))
    obtain ⟨chunks, s2⟩ := out
    simp only [writeSecondLevelRun, hstep, hout]
    exact ⟨_, rfl⟩

/-- `writeSecondLevel` on nonempty, valid rows: it succeeds, emits the ghost
chunks, and builds the first-level index from the seed entry (first row's key
at offset 0) followed by the jump rows' keys and byte positions. -/
theorem writeSecondLevel_spec (rows : List SecondLevelIndexRow) (hne : rows ≠ [])
    (hvalid : ∀ r ∈ rows, r.nameUTF16 ≠ [] ∧ r.nameUTF16.length ≤ 127) :
    writeSecondLevel rows = some
      (List.zipWith (fun m r => chunkOf m.cl r) (metaOf rows) rows,
       ⟨pad4 ((rows.getD 0 rowDefault).nameUTF16) :: jumpKeys (metaOf rows) rows,
        0 :: jumpOffsets (metaOf rows)⟩,
       ((List.zipWith (fun m r => chunkOf m.cl r) (metaOf rows) rows).map List.length).sum) := by
  cases rows with
  | nil => exact absurd rfl hne
  | cons r0 rest =>
    obtain ⟨hne0, -⟩ := hvalid r0 (by simp)
    have hk := newFirstLevelIndexKey_eq_pad4 r0.nameUTF16 hne0
    obtain ⟨⟨chunks, sf⟩, hrun⟩ :=
      writeSecondLevelRun_total (r0 :: rest) ⟨0, pad4 r0.nameUTF16, 0, [], [pad4 r0.nameUTF16], [0]⟩
        hvalid
    obtain ⟨g1, g2, g3, g4⟩ := writeSecondLevelRun_spec (r0 :: rest) _ chunks sf hrun
    simp only [writeSecondLevel, hk, hrun]
    have hmeta : metaOf (r0 :: rest) = runMetaGo [] (pad4 r0.nameUTF16) 0 0 (r0 :: rest) := rfl
    refine congrArg _ ?_
    refine Prod.ext ?_ (Prod.ext ?_ ?_)
    · rw [g1, hmeta]
    · dsimp only
      refine congrArg₂ _ ?_ ?_
      · rw [g2, hmeta]
        simp
      · rw [g3, hmeta]
        simp
    · dsimp only
      rw [g4, g1, hmeta]
      simp

/-- The common-prefix length the writer stores for each row: 0 at jump rows,
otherwise the `commonPrefixLen` of the previous row's key (the seed `pk` for
row 0) and this row's key. -/
theorem runMetaGo_cl : ∀ (rows : List SecondLevelIndexRow) (pk : List Nat)
    (pfl : FirstLevelIndexKey) (count pos : Nat) (i : Nat), i < rows.length →
    ((runMetaGo pk pfl count pos rows).getD i metaDefault).cl =
      if ((runMetaGo pk pfl count pos rows).getD i metaDefault).isJump then 0
      else commonPrefixLen (if i = 0 then pk else (rows.getD (i - 1) rowDefault).nameUTF16)
        ((rows.getD i rowDefault).nameUTF16) := by
  intro rows
  induction rows with
  | nil => intro pk pfl count pos i hi; simp at hi
  | cons r rs ih =>
    intro pk pfl count pos i hi
    simp only [runMetaGo]
    by_cases hj : 1024 ≤ count ∧ ¬ pad4 r.nameUTF16 = pfl
    · simp only [if_pos hj]
      cases i with
      | zero => simp [decide_eq_true hj]
      | succ i =>
        simp only [List.getD_cons_succ]
        rw [ih _ _ _ _ i (by simpa using Nat.lt_of_succ_lt_succ hi)]
        cases i with
        | zero => simp
        | succ i => simp
    · simp only [if_neg hj]
      cases i with
      | zero => simp [decide_eq_false hj]
      | succ i =>
        simp only [List.getD_cons_succ]
        rw [ih _ _ _ _ i (by simpa using Nat.lt_of_succ_lt_succ hi)]
        cases i with
        | zero => simp
        | succ i => simp

/-! ## Decoding a run of rows with `readSecondLevelIndex` -/

/-- `n` consecutive calls of `readSecondLevelIndex` starting from a stream
position and scratch buffer, collecting the decoded results in order. -/
def decodeRowsM : Nat → List Nat → List Nat → Except LookupErr (List SearchResult)
  | 0, _, _ => .ok []
  | n + 1, stream, buf =>
    match readSecondLevelIndexStep stream buf with
    | .error e => .error e
    | .ok (s1, buf1, r) =>
      match decodeRowsM n s1 buf1 with
      | .error e => .error e
      | .ok rs => .ok (r :: rs)

/-- Front-compression reconstruction: decoding the writer's chunks row by row
(as the reader's row walk does) recovers exactly the originally inserted keys,
with their stored offsets reduced to 40 bits. -/
theorem decodeRowsM_spec :
    ∀ (rows : List SecondLevelIndexRow) (ms : List RowMeta) (vk tail buf : List Nat),
      buf.length = 512 →
      bufReads buf vk →
      CLAgree vk ms rows →
      (∀ r ∈ rows, r.nameUTF16.length ≤ 127 ∧ ∀ u ∈ r.nameUTF16, u < 2 ^ 16) →
      decodeRowsM rows.length
          ((List.zipWith (fun m r => chunkOf m.cl r) ms rows).flatten ++ tail) buf =
        .ok (rows.map (fun r => ⟨r.nameUTF16, r.offset % 2 ^ 40⟩)) := by
  intro rows
  induction rows with
  | nil =>
    intro ms vk tail buf hb hcov hagree hvalid
    rfl
  | cons r rs ih =>
    intro ms vk tail buf hb hcov hagree hvalid
    cases ms with
    | nil => exact absurd hagree (by simp [CLAgree])
    | cons m ms =>
      obtain ⟨a1, a2, a3, a4⟩ := hagree
      obtain ⟨hl127, hu16⟩ := hvalid r (by simp)
      obtain ⟨buf1, hread, hb1, hcov1, hoff1⟩ :=
        readRowRaw_chunk m r (((List.zipWith (fun m r => chunkOf m.cl r) ms rs).flatten) ++ tail)
          buf vk hb a1 a2 a3 hcov hl127 hu16
      have hstream : (List.zipWith (fun m r => chunkOf m.cl r) (m :: ms) (r :: rs)).flatten
          ++ tail = chunkOf m.cl r ++
            (((List.zipWith (fun m r => chunkOf m.cl r) ms rs).flatten) ++ tail) := by
        simp [List.zipWith_cons_cons, List.flatten_cons, List.append_assoc]
      rw [List.length_cons, hstream]
      simp only [decodeRowsM, readSecondLevelIndexStep, hread]
      have hnkb : 2 * (m.cl + (r.nameUTF16.length - m.cl)) = 2 * r.nameUTF16.length := by
        omega
      rw [hnkb]
      have hhalf : 2 * r.nameUTF16.length / 2 = r.nameUTF16.length := by omega
      rw [hhalf, readKeyUnits_eq_self buf1 r.nameUTF16 hcov1, hoff1]
      rw [ih ms r.nameUTF16 tail buf1 hb1 hcov1 a4 (fun rr hrr => hvalid rr (by simp [hrr]))]
      rfl

/-! ## First-level routing -/

theorem slicesCompare_le_lt_trans (a b c : List Nat)
    (hab : slicesCompare a b ≤ 0) (hbc : slicesCompare b c < 0) : slicesCompare a c < 0 := by
  rcases lt_or_eq_of_le hab with h | h
  · exact slicesCompare_lt_trans a b c h hbc
  · have hab2 : a = b := (slicesCompare_eq_zero_iff a b).mp h
    subst hab2
    exact hbc

theorem pad4_keyList_mono (a b : List Nat) (h : slicesCompare a b ≤ 0) :
    slicesCompare (keyList (pad4 a)) (keyList (pad4 b)) ≤ 0 := by
  rw [keyList_pad4, keyList_pad4]
  exact padList_mono 4 a b h

theorem getD_map_fl (f : Nat → FirstLevelIndexKey) (l : List Nat) (i : Nat) (h : i < l.length) :
    (l.map f).getD i flDefault = f (l.getD i 0) := by
  rw [List.getD_eq_getElem _ _ (by simpa), List.getElem_map, List.getD_eq_getElem _ _ h]

theorem getD_chain_lt (ks : List Nat) (hchain : List.Chain' (· < ·) ks) (i : Nat)
    (hi : i + 1 < ks.length) : ks.getD i 0 < ks.getD (i + 1) 0 := by
  have hc := List.chain'_iff_get.mp hchain i (by omega)
  rw [List.get_eq_getElem, List.get_eq_getElem] at hc
  rw [List.getD_eq_getElem _ _ (by omega), List.getD_eq_getElem _ _ (by omega)]
  exact hc

/-- The first-level scan on an index whose entries are the zero-padded keys of
a strictly increasing list of row indices `ks` (row 0 first, every later
indexed row having a first-level key different from its immediate predecessor
row): for a present key (row `t`), the scan picks an entry whose row index is
at most `t`, provided the query is at least 4 units long or its padded key
differs from row 0's. -/
theorem flRouting_spec (rows : List SecondLevelIndexRow) (ks offs : List Nat) (t : Nat)
    (chars : List Nat)
    (hchars : (rows.getD t rowDefault).nameUTF16 = chars)
    (hne : ks ≠ [])
    (hks0 : ks.getD 0 0 = 0)
    (hlen : ks.length = offs.length)
    (hchain : List.Chain' (· < ·) ks)
    (hjump : ∀ i, 0 < i → i < ks.length → 0 < ks.getD i 0 ∧ ks.getD i 0 < rows.length ∧
      pad4 ((rows.getD (ks.getD i 0) rowDefault).nameUTF16) ≠
        pad4 ((rows.getD (ks.getD i 0 - 1) rowDefault).nameUTF16))
    (hsorted : ∀ i j, i < j → j < rows.length →
      slicesCompare ((rows.getD i rowDefault).nameUTF16) ((rows.getD j rowDefault).nameUTF16) < 0)
    (ht : t < rows.length)
    (hguard : 4 ≤ chars.length ∨ pad4 chars ≠ pad4 ((rows.getD 0 rowDefault).nameUTF16)) :
    ∃ j, j < ks.length ∧ ks.getD j 0 ≤ t ∧
      firstLevelOffsetLoop chars
        ((ks.map (fun k => pad4 ((rows.getD k rowDefault).nameUTF16))).flatMap keyList)
        offs none = .ok (offs.getD j 0) := by
  classical
  have hkslen : 0 < ks.length := List.length_pos.mpr hne
  have hrowle : ∀ i j, i ≤ j → j < rows.length →
      slicesCompare ((rows.getD i rowDefault).nameUTF16)
        ((rows.getD j rowDefault).nameUTF16) ≤ 0 := by
    intro i j hij hj
    rcases Nat.lt_or_ge i j with h | h
    · exact le_of_lt (hsorted i j h hj)
    · have hij2 : i = j := by omega
      subst hij2
      rw [slicesCompare_self]
  set P : Nat → Prop := fun i =>
    0 < slicesCompare (keyList (pad4 ((rows.getD (ks.getD i 0) rowDefault).nameUTF16))) chars
    with hP
  have hKmono : ∀ i, i + 1 < ks.length →
      slicesCompare (keyList (pad4 ((rows.getD (ks.getD i 0) rowDefault).nameUTF16)))
        (keyList (pad4 ((rows.getD (ks.getD (i + 1) 0) rowDefault).nameUTF16))) < 0 := by
    intro i hi
    obtain ⟨hpos, hklt, hne2⟩ := hjump (i + 1) (by omega) hi
    have hks : ks.getD i 0 < ks.getD (i + 1) 0 := getD_chain_lt ks hchain i hi
    have h1 : slicesCompare (keyList (pad4 ((rows.getD (ks.getD i 0) rowDefault).nameUTF16)))
        (keyList (pad4 ((rows.getD (ks.getD (i + 1) 0 - 1) rowDefault).nameUTF16))) ≤ 0 :=
      pad4_keyList_mono _ _ (hrowle _ _ (by omega) (by omega))
    have h2 : slicesCompare (keyList (pad4 ((rows.getD (ks.getD (i + 1) 0 - 1) rowDefault).nameUTF16)))
        (keyList (pad4 ((rows.getD (ks.getD (i + 1) 0) rowDefault).nameUTF16))) ≤ 0 :=
      pad4_keyList_mono _ _ (hrowle _ _ (by omega) hklt)
    have h2s : slicesCompare (keyList (pad4 ((rows.getD (ks.getD (i + 1) 0 - 1) rowDefault).nameUTF16)))
        (keyList (pad4 ((rows.getD (ks.getD (i + 1) 0) rowDefault).nameUTF16))) < 0 := by
      refine slicesCompare_lt_of_le_ne _ _ h2 (fun he => hne2 ?_)
      exact (keyList_inj he).symm
    exact slicesCompare_le_lt_trans _ _ _ h1 h2s
  have hPup : ∀ i, i + 1 < ks.length → P i → P (i + 1) := by
    intro i hi hPi
    have hm := hKmono i hi
    rw [hP] at hPi ⊢
    have hn1 := slicesCompare_neg_of
      (keyList (pad4 ((rows.getD (ks.getD i 0) rowDefault).nameUTF16))) chars
    have h3 := slicesCompare_lt_trans chars
      (keyList (pad4 ((rows.getD (ks.getD i 0) rowDefault).nameUTF16)))
      (keyList (pad4 ((rows.getD (ks.getD (i + 1) 0) rowDefault).nameUTF16))) (by omega) hm
    have hn2 := slicesCompare_neg_of
      (keyList (pad4 ((rows.getD (ks.getD (i + 1) 0) rowDefault).nameUTF16))) chars
    omega
  have hPmonoAux : ∀ d i, i + d < ks.length → P i → P (i + d) := by
    intro d
    induction d with
    | zero => intro i _ h; simpa using h
    | succ d ih =>
      intro i hi hPi
      have h1 := ih i (by omega) hPi
      have h2 := hPup (i + d) (by omega) h1
      have he : i + (d + 1) = i + d + 1 := by omega
      rw [he]
      exact h2
  have hPmono : ∀ i m, i ≤ m → m < ks.length → P i → P m := by
    intro i m him hm hPi
    have he : m = i + (m - i) := by omega
    rw [he]
    exact hPmonoAux (m - i) i (by omega) hPi
  have hP0 : ¬ P 0 := by
    rw [hP]
    simp only [hks0]
    rw [flKey_gt_iff]
    rintro (hgt2 | ⟨heq, hlt4⟩)
    · have hle0 : slicesCompare ((rows.getD 0 rowDefault).nameUTF16)
          ((rows.getD t rowDefault).nameUTF16) ≤ 0 := hrowle 0 t (by omega) ht
      rw [hchars] at hle0
      have := pad4_keyList_mono _ _ hle0
      omega
    · rcases hguard with hg | hg
      · omega
      · exact hg heq.symm
  set j := Nat.findGreatest (fun i => ¬ P i) (ks.length - 1) with hjdef
  have hjb : j ≤ ks.length - 1 := Nat.findGreatest_le _
  have hjlt : j < ks.length := by omega
  have hPj : ¬ P j :=
    Nat.findGreatest_spec (P := fun i => ¬ P i) (m := 0) (Nat.zero_le _) hP0
  have hle : ∀ i, i ≤ j → ¬ P i := fun i hij hPi => hPj (hPmono i j hij hjlt hPi)
  have hgt : ∀ i, j < i → i < ks.length → P i := by
    intro i hji hi
    have h := Nat.findGreatest_is_greatest (P := fun i => ¬ P i) hji (by omega)
    exact not_not.mp h
  have hksle : ks.getD j 0 ≤ t := by
    by_contra hkt
    push_neg at hkt
    rcases Nat.eq_zero_or_pos j with hj0 | hj0
    · rw [hj0, hks0] at hkt
      omega
    · obtain ⟨hpos, hklt, hne2⟩ := hjump j hj0 hjlt
      have hAB : slicesCompare (keyList (pad4 chars))
          (keyList (pad4 ((rows.getD (ks.getD j 0 - 1) rowDefault).nameUTF16))) ≤ 0 := by
        rw [← hchars]
        exact pad4_keyList_mono _ _ (hrowle t (ks.getD j 0 - 1) (by omega) (by omega))
      have hBC : slicesCompare (keyList (pad4 ((rows.getD (ks.getD j 0 - 1) rowDefault).nameUTF16)))
          (keyList (pad4 ((rows.getD (ks.getD j 0) rowDefault).nameUTF16))) ≤ 0 :=
        pad4_keyList_mono _ _ (hrowle _ _ (by omega) hklt)
      have hCA : slicesCompare (keyList (pad4 ((rows.getD (ks.getD j 0) rowDefault).nameUTF16)))
          (keyList (pad4 chars)) ≤ 0 := by
        rw [hP] at hPj
        push_neg at hPj
        rw [flKey_gt_iff] at hPj
        push_neg at hPj
        omega
      have hCB : slicesCompare (keyList (pad4 ((rows.getD (ks.getD j 0) rowDefault).nameUTF16)))
          (keyList (pad4 ((rows.getD (ks.getD j 0 - 1) rowDefault).nameUTF16))) ≤ 0 :=
        slicesCompare_trans_le _ _ _ hCA hAB
      have hn := slicesCompare_neg_of
        (keyList (pad4 ((rows.getD (ks.getD j 0 - 1) rowDefault).nameUTF16)))
        (keyList (pad4 ((rows.getD (ks.getD j 0) rowDefault).nameUTF16)))
      have hz : slicesCompare (keyList (pad4 ((rows.getD (ks.getD j 0 - 1) rowDefault).nameUTF16)))
          (keyList (pad4 ((rows.getD (ks.getD j 0) rowDefault).nameUTF16))) = 0 := by omega
      have := keyList_inj ((slicesCompare_eq_zero_iff _ _).mp hz)
      exact hne2 this.symm
  refine ⟨j, hjlt, hksle, ?_⟩
  refine firstLevelOffsetLoop_find chars _ offs j none (by simpa using hlen)
    (by simpa using hjlt) ?_ ?_
  · intro i hij
    rw [getD_map_fl _ _ _ (lt_of_le_of_lt hij hjlt)]
    have := hle i hij
    rw [hP] at this
    exact this
  · intro i hji hi
    rw [List.length_map] at hi
    rw [getD_map_fl _ _ _ hi]
    have := hgt i hji hi
    rw [hP] at this
    exact this

/-! ## Size bookkeeping helpers -/

theorem pairwise_lt_length_le : ∀ (l : List Nat) (n low : Nat),
    List.Pairwise (· < ·) l → (∀ x ∈ l, x < n) → (∀ x ∈ l, low ≤ x) →
    l.length ≤ n - low := by
  intro l
  induction l with
  | nil => intro n low _ _ _; simp
  | cons x xs ih =>
    intro n low hp hlt hlow
    have hx : x < n := hlt x (by simp)
    have hxlow : low ≤ x := hlow x (by simp)
    have hxs := ih n (x + 1) (List.Pairwise.of_cons hp)
      (fun y hy => hlt y (by simp [hy]))
      (fun y hy => List.rel_of_pairwise_cons hp hy)
    simp only [List.length_cons]
    omega

theorem zip_chunks_sum_le : ∀ (ms : List RowMeta) (rows : List SecondLevelIndexRow),
    (∀ r ∈ rows, r.nameUTF16.length ≤ 127) →
    ((List.zipWith (fun m r => chunkOf m.cl r) ms rows).map List.length).sum ≤
      261 * rows.length := by
  intro ms
  induction ms with
  | nil => intro rows _; simp
  | cons m ms ih =>
    intro rows hlen
    cases rows with
    | nil => simp
    | cons r rs =>
      have h127 : r.nameUTF16.length ≤ 127 := hlen r (by simp)
      simp only [List.zipWith_cons_cons, List.map_cons, List.sum_cons, chunkOf_length,
        List.length_cons]
      have := ih rs (fun rr hrr => hlen rr (by simp [hrr]))
      omega

theorem zip_chunks_flatten_ge : ∀ (ms : List RowMeta) (rows : List SecondLevelIndexRow),
    rows.length ≤ ms.length →
    7 * rows.length ≤ (List.zipWith (fun m r => chunkOf m.cl r) ms rows).flatten.length := by
  intro ms
  induction ms with
  | nil =>
    intro rows h
    have : rows.length = 0 := by simpa using h
    simp [this]
  | cons m ms ih =>
    intro rows h
    cases rows with
    | nil => simp
    | cons r rs =>
      simp only [List.zipWith_cons_cons, List.flatten_cons, List.length_append, chunkOf_length,
        List.length_cons]
      have := ih rs (by simpa using h)
      omega

theorem pad4_units_lt (a : List Nat) (h : ∀ u ∈ a, u < 2 ^ 16) :
    (pad4 a).ch0 < 2 ^ 16 ∧ (pad4 a).ch1 < 2 ^ 16 ∧ (pad4 a).ch2 < 2 ^ 16 ∧
      (pad4 a).ch3 < 2 ^ 16 := by
  have hg : ∀ i, a.getD i 0 < 2 ^ 16 := by
    intro i
    rcases Nat.lt_or_ge i a.length with hi | hi
    · rw [List.getD_eq_getElem _ _ hi]
      exact h _ (a.getElem_mem hi)
    · rw [List.getD_eq_default _ _ hi]
      norm_num
  exact ⟨hg 0, hg 1, hg 2, hg 3⟩

theorem getD_drop_gen {α : Type} (l : List α) (n i : Nat) (d : α) :
    (l.drop n).getD i d = l.getD (n + i) d := by
  rcases Nat.lt_or_ge (n + i) l.length with h | h
  · rw [List.getD_eq_getElem _ _ (by simp; omega), List.getD_eq_getElem _ _ h,
      List.getElem_drop]
  · rw [List.getD_eq_default _ _ (by simp; omega), List.getD_eq_default _ _ h]

theorem getD_map_nat (f : Nat → Nat) (l : List Nat) (i : Nat) (h : i < l.length) :
    (l.map f).getD i 0 = f (l.getD i 0) := by
  rw [List.getD_eq_getElem _ _ (by simpa), List.getElem_map, List.getD_eq_getElem _ _ h]

theorem metaOf_head_cl (rows : List SecondLevelIndexRow) (h : rows ≠ []) :
    ((metaOf rows).getD 0 metaDefault).cl = 0 := by
  cases rows with
  | nil => exact absurd rfl h
  | cons r rs =>
    simp only [metaOf, runMetaGo, List.getD_cons_zero]
    have hcpl : commonPrefixLen [] r.nameUTF16 = 0 := by
      simp [commonPrefixLen, commonPrefixLenLoop]
    split <;> simp [hcpl]

theorem take_flatten_le (L : List (List Nat)) (i : Nat) :
    (L.take i).flatten.length ≤ L.flatten.length := by
  conv_rhs => rw [← List.take_append_drop i L]
  rw [List.flatten_append, List.length_append]
  omega

theorem writeFirstLevel_length (fl : FirstLevelIndexW) :
    (writeFirstLevel fl).length = 8 * fl.keys.length + 4 * fl.offsets.length + 2 := by
  simp only [writeFirstLevel, List.length_append, flatMap_fkb_length, flatMap_u32le_length]
  simp [u16le]

/-- End-to-end routing and row walk: laying out the second-level chunks, the
u32 size trailer and the first-level region after an arbitrary prefix region,
`OpenWiki` succeeds, and `entryOffset` on the key of row `t` returns that
row's stored 40-bit offset — provided the key is at least 4 code units long or
its first-level key differs from the very first row's (the reader's
before-the-first-entry blind spot). -/
theorem archiveLookup_spec (pre : List Nat) (rows : List SecondLevelIndexRow) (t : Nat)
    (hsorted : ∀ i j, i < j → j < rows.length →
      slicesCompare ((rows.getD i rowDefault).nameUTF16)
        ((rows.getD j rowDefault).nameUTF16) < 0)
    (hvalid : ∀ r ∈ rows, r.nameUTF16 ≠ [] ∧ r.nameUTF16.length ≤ 127 ∧
      ∀ u ∈ r.nameUTF16, u < 2 ^ 16)
    (hcount : 12 * rows.length + 14 < 2 ^ 16)
    (ht : t < rows.length)
    (hguard : 4 ≤ ((rows.getD t rowDefault).nameUTF16).length ∨
      pad4 ((rows.getD t rowDefault).nameUTF16) ≠ pad4 ((rows.getD 0 rowDefault).nameUTF16)) :
    ∃ chunks fl ts w,
      writeSecondLevel rows = some (chunks, fl, ts) ∧
      openWiki (pre ++ chunks.flatten ++ u32le (ts + 4) ++ writeFirstLevel fl) = some w ∧
      entryOffsetM w ((rows.getD t rowDefault).nameUTF16) =
        .ok ((rows.getD t rowDefault).offset % 2 ^ 40) := by
  have hne : rows ≠ [] := by
    intro h
    rw [h] at ht
    simp at ht
  have hn0 : 0 < rows.length := by omega
  have hvalid2 : ∀ r ∈ rows, r.nameUTF16 ≠ [] ∧ r.nameUTF16.length ≤ 127 :=
    fun r hr => ⟨(hvalid r hr).1, (hvalid r hr).2.1⟩
  have hrowmem : ∀ k, k < rows.length → rows.getD k rowDefault ∈ rows := by
    intro k hk
    rw [List.getD_eq_getElem _ _ hk]
    exact rows.getElem_mem hk
  have hm0 : metaOf rows = runMetaGo [] (pad4 ((rows.getD 0 rowDefault).nameUTF16)) 0 0 rows := by
    cases rows with
    | nil => exact absurd rfl hne
    | cons r rs => simp [metaOf]
  have hmslen : (metaOf rows).length = rows.length := by
    rw [hm0, runMetaGo_length]
  obtain ⟨idxs, j1, j2, j3, j4⟩ :=
    runMetaGo_jump_struct rows [] (pad4 ((rows.getD 0 rowDefault).nameUTF16)) 0 0
  rw [← hm0] at j1 j2 j4
  have h0pos : ∀ i ∈ idxs, 0 < i := by
    intro i hi
    rcases Nat.eq_zero_or_pos i with h0 | h0
    · obtain ⟨h1024, -⟩ := (j4 i hi).2.2.1 h0
      omega
    · exact h0
  have hchain : List.Chain' (· < ·) (0 :: idxs) := by
    rw [List.chain'_cons']
    exact ⟨fun y hy => h0pos y (List.mem_of_mem_head? hy), j3⟩
  have hkeys : (pad4 ((rows.getD 0 rowDefault).nameUTF16) :: jumpKeys (metaOf rows) rows) =
      (0 :: idxs).map (fun k => pad4 ((rows.getD k rowDefault).nameUTF16)) := by
    rw [j1, List.map_cons]
  have hpos0 : ((metaOf rows).getD 0 metaDefault).pos = 0 := by
    rw [hm0, runMetaGo_pos rows [] _ 0 0 0 hn0]
    simp
  have hoffs : (0 :: jumpOffsets (metaOf rows)) =
      (0 :: idxs).map (fun k => ((metaOf rows).getD k metaDefault).pos) := by
    rw [j2, List.map_cons, hpos0]
  have hidxlen : idxs.length ≤ rows.length := by
    have hp : List.Pairwise (· < ·) idxs := List.chain'_iff_pairwise.mp j3
    have := pairwise_lt_length_le idxs rows.length 0 hp (fun x hx => (j4 x hx).1)
      (fun x _ => Nat.zero_le x)
    omega
  have htsflat : (List.zipWith (fun m r => chunkOf m.cl r) (metaOf rows) rows).flatten.length =
      ((List.zipWith (fun m r => chunkOf m.cl r) (metaOf rows) rows).map List.length).sum := by
    rw [List.length_flatten]
  have htsle : ((List.zipWith (fun m r => chunkOf m.cl r) (metaOf rows) rows).map
      List.length).sum ≤ 261 * rows.length :=
    zip_chunks_sum_le (metaOf rows) rows (fun r hr => (hvalid r hr).2.1)
  have hposle : ∀ k, k < rows.length →
      ((metaOf rows).getD k metaDefault).pos ≤
        ((List.zipWith (fun m r => chunkOf m.cl r) (metaOf rows) rows).map List.length).sum := by
    intro k hk
    rw [hm0, runMetaGo_pos rows [] _ 0 0 k hk, ← hm0, Nat.zero_add, ← htsflat]
    exact take_flatten_le _ k
  have hws := writeSecondLevel_spec rows hne hvalid2
  have hopen := openWiki_spec pre
      (List.zipWith (fun m r => chunkOf m.cl r) (metaOf rows) rows).flatten
      ⟨pad4 ((rows.getD 0 rowDefault).nameUTF16) :: jumpKeys (metaOf rows) rows,
        0 :: jumpOffsets (metaOf rows)⟩
      (((List.zipWith (fun m r => chunkOf m.cl r) (metaOf rows) rows).map List.length).sum + 4)
      (by
        dsimp only
        rw [hkeys, hoffs]
        simp)
      (by
        dsimp only
        rw [hkeys]
        simp only [List.length_map, List.length_cons]
        omega)
      (by omega)
  refine ⟨_, _, _, _, hws, hopen, ?_⟩
  have h32 : ∀ v : Nat, (u32le v).length = 4 := fun v => by simp [u32le]
  have hflkeyslen : (pad4 ((rows.getD 0 rowDefault).nameUTF16) ::
      jumpKeys (metaOf rows) rows).length = idxs.length + 1 := by
    rw [hkeys]
    simp
  have hoffslen : (0 :: jumpOffsets (metaOf rows)).length = idxs.length + 1 := by
    rw [hoffs]
    simp
  have hoffmod : ((0 :: jumpOffsets (metaOf rows)).map (· % 2 ^ 32)) =
      (0 :: jumpOffsets (metaOf rows)) := by
    have hmem : ∀ o ∈ (0 :: jumpOffsets (metaOf rows)), o % 2 ^ 32 = o := by
      intro o ho
      rw [hoffs] at ho
      obtain ⟨k, hk, rfl⟩ := List.mem_map.mp ho
      have hkn : k < rows.length := by
        rcases List.mem_cons.mp hk with rfl | hk2
        · omega
        · exact (j4 k hk2).1
      exact Nat.mod_eq_of_lt (by have := hposle k hkn; omega)
    exact (List.map_congr_left hmem).trans (List.map_id _)
  have hfu : flatUnits (pad4 ((rows.getD 0 rowDefault).nameUTF16) ::
        jumpKeys (metaOf rows) rows) =
      ((0 :: idxs).map (fun k => pad4 ((rows.getD k rowDefault).nameUTF16))).flatMap keyList := by
    rw [hkeys]
    refine flatUnits_eq_keyList _ ?_
    intro k hk
    obtain ⟨k2, hk2, rfl⟩ := List.mem_map.mp hk
    have hkn : k2 < rows.length := by
      rcases List.mem_cons.mp hk2 with rfl | hk3
      · omega
      · exact (j4 k2 hk3).1
    exact pad4_units_lt _ ((hvalid _ (hrowmem k2 hkn)).2.2)
  have hjumpks : ∀ i, 0 < i → i < (0 :: idxs).length →
      0 < (0 :: idxs).getD i 0 ∧ (0 :: idxs).getD i 0 < rows.length ∧
      pad4 ((rows.getD ((0 :: idxs).getD i 0) rowDefault).nameUTF16) ≠
        pad4 ((rows.getD ((0 :: idxs).getD i 0 - 1) rowDefault).nameUTF16) := by
    intro i hi0 hilen
    cases i with
    | zero => omega
    | succ i =>
      rw [List.getD_cons_succ]
      have hilen2 : i < idxs.length := by simpa using hilen
      have hmem : idxs.getD i 0 ∈ idxs := by
        rw [List.getD_eq_getElem _ _ hilen2]
        exact idxs.getElem_mem hilen2
      obtain ⟨p1, p2, p3, p4⟩ := j4 _ hmem
      exact ⟨h0pos _ hmem, p1, p4 (h0pos _ hmem)⟩
  obtain ⟨j, hjlt, hksle, hloop⟩ := flRouting_spec rows (0 :: idxs)
    (0 :: jumpOffsets (metaOf rows)) t ((rows.getD t rowDefault).nameUTF16) rfl
    (by simp) (by simp) (by rw [hoffslen]; simp) hchain hjumpks hsorted ht hguard
  have hk0n : (0 :: idxs).getD j 0 < rows.length := by
    cases j with
    | zero => simpa using hn0
    | succ i =>
      rw [List.getD_cons_succ]
      have hilen2 : i < idxs.length := by simpa using hjlt
      have hmem : idxs.getD i 0 ∈ idxs := by
        rw [List.getD_eq_getElem _ _ hilen2]
        exact idxs.getElem_mem hilen2
      exact (j4 _ hmem).1
  have hk0cl : ((metaOf rows).getD ((0 :: idxs).getD j 0) metaDefault).cl = 0 := by
    cases j with
    | zero => exact metaOf_head_cl rows hne
    | succ i =>
      rw [List.getD_cons_succ]
      have hilen2 : i < idxs.length := by simpa using hjlt
      have hmem : idxs.getD i 0 ∈ idxs := by
        rw [List.getD_eq_getElem _ _ hilen2]
        exact idxs.getElem_mem hilen2
      exact (j4 _ hmem).2.1
  have hoffval : (0 :: jumpOffsets (metaOf rows)).getD j 0 =
      ((metaOf rows).getD ((0 :: idxs).getD j 0) metaDefault).pos := by
    rw [hoffs, getD_map_nat _ _ _ (by simpa using hjlt)]
  have hposk0 : ((metaOf rows).getD ((0 :: idxs).getD j 0) metaDefault).pos =
      ((List.zipWith (fun m r => chunkOf m.cl r) (metaOf rows) rows).take
        ((0 :: idxs).getD j 0)).flatten.length := by
    rw [hm0, runMetaGo_pos rows [] _ 0 0 _ hk0n, ← hm0, Nat.zero_add]
  have hposle2 : ((metaOf rows).getD ((0 :: idxs).getD j 0) metaDefault).pos ≤
      (List.zipWith (fun m r => chunkOf m.cl r) (metaOf rows) rows).flatten.length := by
    rw [htsflat]
    exact hposle _ hk0n
  have hwfllen : (writeFirstLevel
      ⟨pad4 ((rows.getD 0 rowDefault).nameUTF16) :: jumpKeys (metaOf rows) rows,
        0 :: jumpOffsets (metaOf rows)⟩).length = 12 * (idxs.length + 1) + 2 := by
    rw [writeFirstLevel_length]
    dsimp only
    rw [hflkeyslen, hoffslen]
    omega
  simp only [entryOffsetM, firstLevelOffset]
  rw [hfu, hoffmod, hloop]
  rw [hoffval]
  dsimp only
  rw [if_neg (by
    simp only [List.length_append, h32, hwfllen, htsflat, hflkeyslen]
    omega)]
  have harg : (pre ++ (List.zipWith (fun m r => chunkOf m.cl r) (metaOf rows) rows).flatten ++
        u32le (((List.zipWith (fun m r => chunkOf m.cl r) (metaOf rows) rows).map
          List.length).sum + 4) ++
        writeFirstLevel ⟨pad4 ((rows.getD 0 rowDefault).nameUTF16) ::
          jumpKeys (metaOf rows) rows, 0 :: jumpOffsets (metaOf rows)⟩).length +
      ((metaOf rows).getD ((0 :: idxs).getD j 0) metaDefault).pos -
      (12 * (pad4 ((rows.getD 0 rowDefault).nameUTF16) ::
        jumpKeys (metaOf rows) rows).length + 2 +
        (((List.zipWith (fun m r => chunkOf m.cl r) (metaOf rows) rows).map
          List.length).sum + 4)) =
      pre.length + ((metaOf rows).getD ((0 :: idxs).getD j 0) metaDefault).pos := by
    simp only [List.length_append, h32, hwfllen, htsflat, hflkeyslen]
    omega
  rw [harg]
  have hdrop : (pre ++ (List.zipWith (fun m r => chunkOf m.cl r) (metaOf rows) rows).flatten ++
        u32le (((List.zipWith (fun m r => chunkOf m.cl r) (metaOf rows) rows).map
          List.length).sum + 4) ++
        writeFirstLevel ⟨pad4 ((rows.getD 0 rowDefault).nameUTF16) ::
          jumpKeys (metaOf rows) rows, 0 :: jumpOffsets (metaOf rows)⟩).drop
      (pre.length + ((metaOf rows).getD ((0 :: idxs).getD j 0) metaDefault).pos) =
      (List.zipWith (fun m r => chunkOf m.cl r) ((metaOf rows).drop ((0 :: idxs).getD j 0))
        (rows.drop ((0 :: idxs).getD j 0))).flatten ++
      (u32le (((List.zipWith (fun m r => chunkOf m.cl r) (metaOf rows) rows).map
          List.length).sum + 4) ++
        writeFirstLevel ⟨pad4 ((rows.getD 0 rowDefault).nameUTF16) ::
          jumpKeys (metaOf rows) rows, 0 :: jumpOffsets (metaOf rows)⟩) := by
    rw [show pre ++ (List.zipWith (fun m r => chunkOf m.cl r) (metaOf rows) rows).flatten ++
        u32le (((List.zipWith (fun m r => chunkOf m.cl r) (metaOf rows) rows).map
          List.length).sum + 4) ++
        writeFirstLevel ⟨pad4 ((rows.getD 0 rowDefault).nameUTF16) ::
          jumpKeys (metaOf rows) rows, 0 :: jumpOffsets (metaOf rows)⟩ =
      pre ++ ((List.zipWith (fun m r => chunkOf m.cl r) (metaOf rows) rows).flatten ++
        (u32le (((List.zipWith (fun m r => chunkOf m.cl r) (metaOf rows) rows).map
          List.length).sum + 4) ++
        writeFirstLevel ⟨pad4 ((rows.getD 0 rowDefault).nameUTF16) ::
          jumpKeys (metaOf rows) rows, 0 :: jumpOffsets (metaOf rows)⟩)) from by
      simp [List.append_assoc]]
    rw [List.drop_append_eq_append_drop, List.drop_of_length_le (by omega),
      List.nil_append, show pre.length +
        ((metaOf rows).getD ((0 :: idxs).getD j 0) metaDefault).pos - pre.length =
        ((metaOf rows).getD ((0 :: idxs).getD j 0) metaDefault).pos from by omega]
    rw [List.drop_append_eq_append_drop,
      show ((metaOf rows).getD ((0 :: idxs).getD j 0) metaDefault).pos -
        (List.zipWith (fun m r => chunkOf m.cl r) (metaOf rows) rows).flatten.length = 0 from
        by omega,
      List.drop_zero]
    rw [hposk0, flatten_drop_take, List.drop_zipWith]
  rw [hdrop]
  have hagree0 : CLAgree [] (metaOf rows) rows := by
    rw [hm0]
    exact runMetaGo_clAgree rows [] _ 0 0
  obtain ⟨vk2, hag2⟩ := CLAgree_drop ((0 :: idxs).getD j 0) [] (metaOf rows) rows hagree0
  have hdroplen : 0 < (rows.drop ((0 :: idxs).getD j 0)).length := by
    simp only [List.length_drop]
    omega
  have hagree : CLAgree [] ((metaOf rows).drop ((0 :: idxs).getD j 0))
      (rows.drop ((0 :: idxs).getD j 0)) := by
    cases hrd : rows.drop ((0 :: idxs).getD j 0) with
    | nil =>
      rw [hrd] at hdroplen
      simp at hdroplen
    | cons rd rds =>
      cases hmd : (metaOf rows).drop ((0 :: idxs).getD j 0) with
      | nil =>
        rw [hrd, hmd] at hag2
        exact absurd hag2 (by simp [CLAgree])
      | cons md mds =>
        rw [hrd, hmd] at hag2
        refine CLAgree_head_zero vk2 md mds rd rds hag2 ?_
        have hmd0 : md = ((metaOf rows).drop ((0 :: idxs).getD j 0)).getD 0 metaDefault := by
          rw [hmd]
          rfl
        rw [hmd0, getD_drop_gen, Nat.add_zero]
        exact hk0cl
  have hwalk := entryOffsetWalk_finds (rows.drop ((0 :: idxs).getD j 0))
    ((metaOf rows).drop ((0 :: idxs).getD j 0)) []
    (u32le (((List.zipWith (fun m r => chunkOf m.cl r) (metaOf rows) rows).map
        List.length).sum + 4) ++
      writeFirstLevel ⟨pad4 ((rows.getD 0 rowDefault).nameUTF16) ::
        jumpKeys (metaOf rows) rows, 0 :: jumpOffsets (metaOf rows)⟩)
    (u32le (((List.zipWith (fun m r => chunkOf m.cl r) (metaOf rows) rows).map
        List.length).sum + 4) ++ List.replicate 508 0)
    ((rows.getD t rowDefault).nameUTF16)
    ((List.zipWith (fun m r => chunkOf m.cl r) ((metaOf rows).drop ((0 :: idxs).getD j 0))
        (rows.drop ((0 :: idxs).getD j 0))).flatten ++
      (u32le (((List.zipWith (fun m r => chunkOf m.cl r) (metaOf rows) rows).map
          List.length).sum + 4) ++
        writeFirstLevel ⟨pad4 ((rows.getD 0 rowDefault).nameUTF16) ::
          jumpKeys (metaOf rows) rows, 0 :: jumpOffsets (metaOf rows)⟩)).length.succ
    (t - (0 :: idxs).getD j 0)
    (by simp only [List.length_drop]; omega)
    (by
      have hge := zip_chunks_flatten_ge ((metaOf rows).drop ((0 :: idxs).getD j 0))
        (rows.drop ((0 :: idxs).getD j 0))
        (by simp only [List.length_drop, hmslen]; omega)
      simp only [Nat.succ_eq_add_one, List.length_append, List.length_drop] at hge ⊢
      omega)
    (by
      rw [List.length_append, h32, List.length_replicate])
    (fun i hi => absurd hi (by simp))
    hagree
    (fun r hr => ⟨(hvalid r (List.drop_subset _ _ hr)).2.1,
      (hvalid r (List.drop_subset _ _ hr)).2.2⟩)
    (by
      intro i hi
      rw [getD_drop_gen]
      exact hsorted ((0 :: idxs).getD j 0 + i) t (by omega) ht)
    (by
      rw [getD_drop_gen, show (0 :: idxs).getD j 0 + (t - (0 :: idxs).getD j 0) = t from
        by omega])
  rw [getD_drop_gen, show (0 :: idxs).getD j 0 + (t - (0 :: idxs).getD j 0) = t from
    by omega] at hwalk
  exact hwalk

/-! ## Layout of the packed compressed-entries region -/

theorem writeEntriesLoop_layout (compress : List Nat → List Nat) :
    ∀ (entries : List (List Nat × List Nat)) (off : Nat),
      (∀ e ∈ entries, (compress e.2).length < 2 ^ 24) →
      writeEntriesLoop compress entries off = some
        (entries.flatMap (fun e => u24le (compress e.2).length ++ compress e.2),
         (List.range entries.length).map (fun i =>
           ((entries.getD i ([], [])).1,
            off + ((entries.take (i + 1)).map
              (fun e => (compress e.2).length + 3)).sum))) := by
  intro entries
  induction entries with
  | nil => intro off _; rfl
  | cons e es ih =>
    intro off hsize
    have hlen : (compress e.2).length < 2 ^ 24 := hsize e (by simp)
    have hmod : (compress e.2).length % 2 ^ 32 = (compress e.2).length :=
      Nat.mod_eq_of_lt (by omega)
    simp only [writeEntriesLoop, hmod]
    rw [if_neg (by omega)]
    rw [ih (off + (compress e.2).length + 3) (fun x hx => hsize x (by simp [hx]))]
    dsimp only
    refine congrArg _ ?_
    refine Prod.ext ?_ ?_
    · simp [List.flatMap_cons, List.append_assoc]
    · dsimp only
      rw [List.length_cons, List.range_succ_eq_map, List.map_cons, List.map_map]
      refine List.cons_eq_cons.mpr ⟨?_, ?_⟩
      · simp only [List.getD_cons_zero, List.take_succ_cons, List.take_zero, List.map_cons,
          List.map_nil, List.sum_cons, List.sum_nil, Prod.mk.injEq]
        exact ⟨trivial, by omega⟩
      · refine List.map_congr_left ?_
        intro i _
        simp only [Function.comp_apply, List.getD_cons_succ, List.take_succ_cons, List.map_cons,
          List.sum_cons, Prod.mk.injEq, Nat.succ_eq_add_one]
        exact ⟨trivial, by omega⟩

/-- The whole compress-entries stage on inputs whose compressed blobs fit the
24-bit length prefix: the packed region is the concatenation of
`[u24 length][compressed bytes]` blocks, and the recorded end offset of entry
`i` is the cumulative size of blocks `0..i`. -/
theorem writeEntries_layout (compress : List Nat → List Nat)
    (entries : List (List Nat × List Nat))
    (hsize : ∀ e ∈ entries, (compress e.2).length < 2 ^ 24) :
    writeEntries compress entries = some
      (entries.flatMap (fun e => u24le (compress e.2).length ++ compress e.2),
       (List.range entries.length).map (fun i =>
         ((entries.getD i ([], [])).1,
          0 + ((entries.take (i + 1)).map
            (fun e => (compress e.2).length + 3)).sum))) :=
  writeEntriesLoop_layout compress entries 0 hsize

theorem layout_written_meta (compress : List Nat → List Nat)
    (entries : List (List Nat × List Nat)) :
    entryMetadataOfWritten ((List.range entries.length).map (fun i =>
        ((entries.getD i ([], [])).1,
         0 + ((entries.take (i + 1)).map (fun e => (compress e.2).length + 3)).sum))) =
      ⟨(List.range entries.length).map (fun i => (entries.getD i ([], [])).1),
       (List.range entries.length).map (fun i =>
         ((entries.take (i + 1)).map (fun e => (compress e.2).length + 3)).sum)⟩ := by
  unfold entryMetadataOfWritten
  rw [List.map_map, List.map_map]
  refine congrArg₂ _ ?_ ?_ <;> exact List.map_congr_left (fun i _ => by simp)

theorem layout_startOffset (compress : List Nat → List Nat)
    (entries : List (List Nat × List Nat)) (i : Nat) (hi : i < entries.length) :
    EntryMetadata.startOffset
      ⟨(List.range entries.length).map (fun k => (entries.getD k ([], [])).1),
       (List.range entries.length).map (fun k =>
         ((entries.take (k + 1)).map (fun e => (compress e.2).length + 3)).sum)⟩ i =
      ((entries.take i).map (fun e => (compress e.2).length + 3)).sum := by
  unfold EntryMetadata.startOffset
  dsimp only
  by_cases h0 : i = 0
  · subst h0
    simp
  · rw [if_neg h0]
    rw [getD_map_nat _ _ _ (by simp; omega)]
    rw [List.getD_eq_getElem _ _ (by simp; omega), List.getElem_range]
    rw [show i - 1 + 1 = i from by omega]

theorem layout_name (compress : List Nat → List Nat)
    (entries : List (List Nat × List Nat)) (i : Nat) (hi : i < entries.length) :
    EntryMetadata.name
      ⟨(List.range entries.length).map (fun k => (entries.getD k ([], [])).1),
       (List.range entries.length).map (fun k =>
         ((entries.take (k + 1)).map (fun e => (compress e.2).length + 3)).sum)⟩ i =
      (entries.getD i ([], [])).1 := by
  unfold EntryMetadata.name
  dsimp only
  rw [List.getD_eq_getElem _ _ (by simpa), List.getElem_map, List.getElem_range]

theorem sum_le_card_mul : ∀ (l : List Nat) (c : Nat), (∀ x ∈ l, x ≤ c) →
    l.sum ≤ c * l.length := by
  intro l
  induction l with
  | nil => intro c _; simp
  | cons x xs ih =>
    intro c h
    have hx : x ≤ c := h x (by simp)
    have := ih c (fun y hy => h y (by simp [hy]))
    simp only [List.sum_cons, List.length_cons]
    have hm : c * (xs.length + 1) = c * xs.length + c := by ring
    omega

theorem entryLength_u24le (v : Nat) (h : v < 2 ^ 24) : entryLength (u24le v) = v := by
  simp [entryLength, u24le]
  omega

/-! ## The merged, sorted second-level rows -/

theorem createSecondLevelIndex_perm (em : EntryMetadata) (redirects : List Redirect) :
    (createSecondLevelIndex em redirects).Perm (secondLevelUnsorted em redirects) :=
  List.mergeSort_perm _ rowLe

theorem createSecondLevelIndex_sorted (em : EntryMetadata) (redirects : List Redirect) :
    (createSecondLevelIndex em redirects).Pairwise (fun a b => rowLe a b = true) :=
  List.sorted_mergeSort (fun a b c => rowLe_trans a b c) (fun a b => rowLe_total a b) _

theorem rows_sorted_strict (rows : List SecondLevelIndexRow)
    (hpair : rows.Pairwise (fun a b => rowLe a b = true))
    (hnodup : (rows.map SecondLevelIndexRow.nameUTF16).Nodup) :
    ∀ i j, i < j → j < rows.length →
      slicesCompare ((rows.getD i rowDefault).nameUTF16)
        ((rows.getD j rowDefault).nameUTF16) < 0 := by
  have hne : rows.Pairwise (fun a b => a.nameUTF16 ≠ b.nameUTF16) :=
    List.pairwise_map.mp hnodup
  have hcomb := hpair.and hne
  have hg := List.pairwise_iff_getElem.mp hcomb
  intro i j hij hj
  obtain ⟨h1, h2⟩ := hg i j (by omega) hj hij
  rw [List.getD_eq_getElem _ _ (by omega), List.getD_eq_getElem _ _ hj]
  exact slicesCompare_lt_of_le_ne _ _ ((rowLe_iff _ _).mp h1) h2

theorem mem_secondLevelUnsorted_entry (em : EntryMetadata) (redirects : List Redirect)
    (i : Nat) (hi : i < em.len) :
    SecondLevelIndexRow.mk (em.name i) (em.startOffset i) ∈
      secondLevelUnsorted em redirects := by
  unfold secondLevelUnsorted
  exact List.mem_append.mpr (Or.inl (List.mem_map.mpr ⟨i, List.mem_range.mpr hi, rfl⟩))

theorem mem_secondLevelUnsorted_redirect (em : EntryMetadata) (redirects : List Redirect)
    (r : Redirect) (hr : r ∈ redirects) :
    SecondLevelIndexRow.mk r.nameUTF16 (em.startOffset r.entryIdx) ∈
      secondLevelUnsorted em redirects := by
  unfold secondLevelUnsorted
  exact List.mem_append.mpr (Or.inr (List.mem_map.mpr ⟨r, hr, rfl⟩))

theorem mem_secondLevelUnsorted_elim (em : EntryMetadata) (redirects : List Redirect)
    (row : SecondLevelIndexRow) (h : row ∈ secondLevelUnsorted em redirects) :
    (∃ i, i < em.len ∧ row = ⟨em.name i, em.startOffset i⟩) ∨
    (∃ r, r ∈ redirects ∧ row = ⟨r.nameUTF16, em.startOffset r.entryIdx⟩) := by
  unfold secondLevelUnsorted at h
  rcases List.mem_append.mp h with h2 | h2
  · obtain ⟨i, hi, rfl⟩ := List.mem_map.mp h2
    exact Or.inl ⟨i, List.mem_range.mp hi, rfl⟩
  · obtain ⟨r, hr, rfl⟩ := List.mem_map.mp h2
    exact Or.inr ⟨r, hr, rfl⟩

theorem secondLevelUnsorted_names (em : EntryMetadata) (redirects : List Redirect) :
    (secondLevelUnsorted em redirects).map SecondLevelIndexRow.nameUTF16 =
      (List.range em.len).map em.name ++ redirects.map Redirect.nameUTF16 := by
  unfold secondLevelUnsorted
  rw [List.map_append, List.map_map, List.map_map]
  rfl

theorem secondLevelUnsorted_length (em : EntryMetadata) (redirects : List Redirect) :
    (secondLevelUnsorted em redirects).length = em.len + redirects.length := by
  unfold secondLevelUnsorted
  simp

theorem range_map_getD {α : Type} (l : List α) (d : α) :
    (List.range l.length).map (fun i => l.getD i d) = l := by
  apply List.ext_getElem
  · simp
  · intro i h1 h2
    simp only [List.getElem_map, List.getElem_range]
    rw [List.getD_eq_getElem _ _ h2]

theorem take_sum_le (l : List Nat) (i : Nat) : (l.take i).sum ≤ l.sum := by
  conv_rhs => rw [← List.take_append_drop i l]
  rw [List.sum_append]
  omega

theorem blob_length (compress : List Nat → List Nat) (e : List Nat × List Nat) :
    (u24le (compress e.2).length ++ compress e.2).length = (compress e.2).length + 3 := by
  simp only [List.length_append, u24le, List.length_cons, List.length_nil]
  omega

theorem range_map_getD_fst (entries : List (List Nat × List Nat)) :
    (List.range entries.length).map (fun k => (entries.getD k ([], [])).1) =
      entries.map Prod.fst := by
  apply List.ext_getElem
  · simp
  · intro i h1 h2
    simp only [List.getElem_map, List.getElem_range]
    rw [List.getD_eq_getElem _ _ (by simpa using h2)]

/-- Reading the packed region at the cumulative start offset of entry `k`
recovers exactly entry `k`'s compressed bytes (after the u24 length prefix),
regardless of what follows the packed region. -/
theorem packed_blob_at (compress : List Nat → List Nat)
    (entries : List (List Nat × List Nat)) (k : Nat) (hk : k < entries.length)
    (rest : List Nat)
    (hsz : ∀ e ∈ entries, (compress e.2).length < 2 ^ 24) :
    entryAtCompressed
      (entries.flatMap (fun e => u24le (compress e.2).length ++ compress e.2) ++ rest)
      (((entries.take k).map (fun e => (compress e.2).length + 3)).sum) =
      .ok (compress ((entries.getD k ([], [])).2)) := by
  have hflat : entries.flatMap (fun e => u24le (compress e.2).length ++ compress e.2) =
      List.flatten (entries.map (fun e => u24le (compress e.2).length ++ compress e.2)) :=
    List.flatMap_def _ _
  have hS : (((entries.take k).map (fun e => (compress e.2).length + 3)).sum) =
      List.length (List.flatten (List.take k
        (entries.map (fun e => u24le (compress e.2).length ++ compress e.2)))) := by
    rw [List.length_flatten, ← List.map_take, List.map_map]
    refine congrArg _ (List.map_congr_left ?_)
    intro e _
    exact (blob_length compress e).symm
  have hdk : entries.drop k = entries.getD k ([], []) :: entries.drop (k + 1) := by
    rw [List.drop_eq_getElem_cons hk, List.getD_eq_getElem _ _ hk]
  have htfl := take_flatten_le
    (entries.map (fun e => u24le (compress e.2).length ++ compress e.2)) k
  have hdrop : List.drop
      (((entries.take k).map (fun e => (compress e.2).length + 3)).sum)
      (List.flatten (entries.map (fun e => u24le (compress e.2).length ++ compress e.2))
        ++ rest) =
      (u24le ((compress ((entries.getD k ([], [])).2)).length) ++
        compress ((entries.getD k ([], [])).2)) ++
      (List.flatten ((entries.drop (k + 1)).map
        (fun e => u24le (compress e.2).length ++ compress e.2)) ++ rest) := by
    rw [List.drop_append_eq_append_drop, hS, flatten_drop_take,
      Nat.sub_eq_zero_of_le htfl, List.drop_zero]
    rw [← List.map_drop, hdk, List.map_cons, List.flatten_cons, List.append_assoc]
  rw [hflat]
  have hlen3 : (u24le ((compress ((entries.getD k ([], [])).2)).length)).length = 3 := by
    simp [u24le]
  have hdlen := congrArg List.length hdrop
  simp only [List.length_drop, List.length_append, hlen3] at hdlen
  unfold entryAtCompressed
  rw [if_neg (by simp only [List.length_append]; omega)]
  rw [hdrop, List.append_assoc, List.take_left' hlen3]
  rw [entryLength_u24le _ (hsz _ (by
    rw [List.getD_eq_getElem _ _ hk]
    exact entries.getElem_mem hk))]
  rw [← List.drop_drop, hdrop, List.append_assoc, List.drop_left' hlen3]
  dsimp only
  rw [List.take_left]

/-- Full-pipeline lookup: building the archive from valid entries and
redirects with distinct names, any second-level row carrying the start offset
of entry `k` (be it the entry's own row or a redirect source row) is found by
`entryOffset`, and the payload at the returned offset is entry `k`'s
compressed blob.  The queried name must be at least 4 code units long. -/
theorem buildArchive_lookup (compress : List Nat → List Nat)
    (entries : List (List Nat × List Nat)) (redirects : List Redirect)
    (N : List Nat) (k : Nat)
    (hvnames : ∀ e ∈ entries, e.1 ≠ [] ∧ e.1.length ≤ 127 ∧ ∀ u ∈ e.1, u < 2 ^ 16)
    (hvred : ∀ r ∈ redirects, r.nameUTF16 ≠ [] ∧ r.nameUTF16.length ≤ 127 ∧
      ∀ u ∈ r.nameUTF16, u < 2 ^ 16)
    (hnodup : ((entries.map Prod.fst) ++ redirects.map Redirect.nameUTF16).Nodup)
    (hsz : ∀ e ∈ entries, (compress e.2).length < 2 ^ 24)
    (hcount : 12 * (entries.length + redirects.length) + 14 < 2 ^ 16)
    (hk : k < entries.length)
    (hmemrow : (⟨N, ((entries.take k).map (fun e => (compress e.2).length + 3)).sum⟩ :
        SecondLevelIndexRow) ∈
      secondLevelUnsorted
        ⟨(List.range entries.length).map (fun j => (entries.getD j ([], [])).1),
         (List.range entries.length).map (fun j =>
           ((entries.take (j + 1)).map (fun e => (compress e.2).length + 3)).sum)⟩ redirects)
    (hguard : 4 ≤ N.length) :
    ∃ file w, buildArchive compress entries redirects = some file ∧
      openWiki file = some w ∧
      entryOffsetM w N =
        .ok (((entries.take k).map (fun e => (compress e.2).length + 3)).sum) ∧
      entryAtCompressed file
        (((entries.take k).map (fun e => (compress e.2).length + 3)).sum) =
        .ok (compress ((entries.getD k ([], [])).2)) := by
  have hlay := writeEntries_layout compress entries hsz
  have hmeta := layout_written_meta compress entries
  have hemlen : (EntryMetadata.mk
      ((List.range entries.length).map (fun j => (entries.getD j ([], [])).1))
      ((List.range entries.length).map (fun j =>
        ((entries.take (j + 1)).map (fun e => (compress e.2).length + 3)).sum))).len =
      entries.length := by
    simp [EntryMetadata.len]
  have hperm := createSecondLevelIndex_perm
    ⟨(List.range entries.length).map (fun j => (entries.getD j ([], [])).1),
     (List.range entries.length).map (fun j =>
       ((entries.take (j + 1)).map (fun e => (compress e.2).length + 3)).sum)⟩ redirects
  have hrowslen : (createSecondLevelIndex
      ⟨(List.range entries.length).map (fun j => (entries.getD j ([], [])).1),
       (List.range entries.length).map (fun j =>
         ((entries.take (j + 1)).map (fun e => (compress e.2).length + 3)).sum)⟩
      redirects).length = entries.length + redirects.length := by
    rw [hperm.length_eq, secondLevelUnsorted_length, hemlen]
  have hnamesun : (secondLevelUnsorted
      ⟨(List.range entries.length).map (fun j => (entries.getD j ([], [])).1),
       (List.range entries.length).map (fun j =>
         ((entries.take (j + 1)).map (fun e => (compress e.2).length + 3)).sum)⟩
      redirects).map SecondLevelIndexRow.nameUTF16 =
      entries.map Prod.fst ++ redirects.map Redirect.nameUTF16 := by
    rw [secondLevelUnsorted_names, hemlen]
    refine congrArg₂ _ ?_ rfl
    rw [← range_map_getD_fst entries]
    refine List.map_congr_left ?_
    intro j hj
    exact layout_name compress entries j (List.mem_range.mp hj)
  have hrownodup : ((createSecondLevelIndex
      ⟨(List.range entries.length).map (fun j => (entries.getD j ([], [])).1),
       (List.range entries.length).map (fun j =>
         ((entries.take (j + 1)).map (fun e => (compress e.2).length + 3)).sum)⟩
      redirects).map SecondLevelIndexRow.nameUTF16).Nodup := by
    refine ((hperm.map SecondLevelIndexRow.nameUTF16).nodup_iff).mpr ?_
    rw [hnamesun]
    exact hnodup
  have hsorted := rows_sorted_strict _ (createSecondLevelIndex_sorted _ _) hrownodup
  have hvalidrows : ∀ r ∈ createSecondLevelIndex
      ⟨(List.range entries.length).map (fun j => (entries.getD j ([], [])).1),
       (List.range entries.length).map (fun j =>
         ((entries.take (j + 1)).map (fun e => (compress e.2).length + 3)).sum)⟩
      redirects, r.nameUTF16 ≠ [] ∧ r.nameUTF16.length ≤ 127 ∧
        ∀ u ∈ r.nameUTF16, u < 2 ^ 16 := by
    intro r hr
    have hru := hperm.mem_iff.mp hr
    rcases mem_secondLevelUnsorted_elim _ _ _ hru with ⟨i0, hi0, rfl⟩ | ⟨r0, hr0, rfl⟩
    · rw [hemlen] at hi0
      dsimp only
      rw [layout_name compress entries i0 hi0]
      refine hvnames _ ?_
      rw [List.getD_eq_getElem _ _ hi0]
      exact entries.getElem_mem hi0
    · exact hvred r0 hr0
  have hm : (⟨N, ((entries.take k).map (fun e => (compress e.2).length + 3)).sum⟩ :
      SecondLevelIndexRow) ∈ createSecondLevelIndex
      ⟨(List.range entries.length).map (fun j => (entries.getD j ([], [])).1),
       (List.range entries.length).map (fun j =>
         ((entries.take (j + 1)).map (fun e => (compress e.2).length + 3)).sum)⟩
      redirects := hperm.mem_iff.mpr hmemrow
  obtain ⟨t, htlen, hrt⟩ := List.getElem_of_mem hm
  have hrowt : (createSecondLevelIndex
      ⟨(List.range entries.length).map (fun j => (entries.getD j ([], [])).1),
       (List.range entries.length).map (fun j =>
         ((entries.take (j + 1)).map (fun e => (compress e.2).length + 3)).sum)⟩
      redirects).getD t rowDefault =
      ⟨N, ((entries.take k).map (fun e => (compress e.2).length + 3)).sum⟩ := by
    rw [List.getD_eq_getElem _ _ htlen, hrt]
  obtain ⟨chunks, fl, ts, w, hws, hopen, hlook⟩ := archiveLookup_spec
    (entries.flatMap (fun e => u24le (compress e.2).length ++ compress e.2))
    _ t hsorted hvalidrows (by rw [hrowslen]; exact hcount) htlen
    (Or.inl (by rw [hrowt]; exact hguard))
  have hSfull : ((entries.take k).map (fun e => (compress e.2).length + 3)).sum ≤
      (entries.map (fun e => (compress e.2).length + 3)).sum := by
    rw [List.map_take]
    exact take_sum_le _ k
  have hsum_le : (entries.map (fun e => (compress e.2).length + 3)).sum ≤
      (2 ^ 24 + 2) * entries.length := by
    have h1 := sum_le_card_mul (entries.map (fun e => (compress e.2).length + 3)) (2 ^ 24 + 2)
      (by
        intro x hx
        obtain ⟨e, he, rfl⟩ := List.mem_map.mp hx
        have := hsz e he
        omega)
    simpa using h1
  have hn5460 : entries.length ≤ 5460 := by omega
  have hmul := Nat.mul_le_mul_left (2 ^ 24 + 2) hn5460
  have hS40 : ((entries.take k).map (fun e => (compress e.2).length + 3)).sum < 2 ^ 40 := by
    omega
  rw [hrowt] at hlook
  dsimp only at hlook
  rw [Nat.mod_eq_of_lt hS40] at hlook
  refine ⟨_, w, ?_, hopen, hlook, ?_⟩
  · unfold buildArchive
    rw [hlay]
    dsimp only
    rw [hmeta, hws]
  · rw [show entries.flatMap (fun e => u24le (compress e.2).length ++ compress e.2) ++
        chunks.flatten ++ u32le (ts + 4) ++ writeFirstLevel fl =
      entries.flatMap (fun e => u24le (compress e.2).length ++ compress e.2) ++
        (chunks.flatten ++ (u32le (ts + 4) ++ writeFirstLevel fl)) from by
        simp [List.append_assoc]]
    exact packed_blob_at compress entries k hk _ hsz

/-! ## Concrete example archives and the spec-modelled first-level rule -/

/-- The helper equation for `buildArchive` given the three stage results. -/
theorem buildArchive_eq (compress : List Nat → List Nat)
    (entries : List (List Nat × List Nat)) (redirects : List Redirect)
    (packed : List Nat) (written : List WrittenEntry) (rows : List SecondLevelIndexRow)
    (chunks : List (List Nat)) (fl : FirstLevelIndexW) (ts : Nat)
    (h1 : writeEntries compress entries = some (packed, written))
    (h2 : createSecondLevelIndex (entryMetadataOfWritten written) redirects = rows)
    (h3 : writeSecondLevel rows = some (chunks, fl, ts)) :
    buildArchive compress entries redirects =
      some (packed ++ chunks.flatten ++ u32le (ts + 4) ++ writeFirstLevel fl) := by
  unfold buildArchive
  rw [h1]
  dsimp only
  rw [h2, h3]

/-- The archive built from the single entry named "ab" (UTF-16 `[97, 98]`)
with one-byte content `[120]`, under the identity stand-in for zlib. -/
def exFileA : List Nat :=
  [1, 0, 0, 120,
   0, 2, 97, 0, 98, 0, 0, 0, 0, 0, 0,
   15, 0, 0, 0,
   97, 0, 98, 0, 0, 0, 0, 0, 0, 0, 0, 0, 14, 0]

/-- The scratch buffer `OpenWiki` leaves for `exFileA`. -/
def exBufA : List Nat := [15, 0, 0, 0] ++ List.replicate 508 0

/-- The archive built from entries "ab" (`[97, 98]`, content `[120]`) and
"abcd" (`[97, 98, 99, 100]`, content `[121]`). -/
def exFileB : List Nat :=
  [1, 0, 0, 120, 1, 0, 0, 121,
   0, 2, 97, 0, 98, 0, 0, 0, 0, 0, 0,
   2, 2, 99, 0, 100, 0, 4, 0, 0, 0, 0,
   26, 0, 0, 0,
   97, 0, 98, 0, 0, 0, 0, 0, 0, 0, 0, 0, 14, 0]

/-- The scratch buffer `OpenWiki` leaves for `exFileB`. -/
def exBufB : List Nat := [26, 0, 0, 0] ++ List.replicate 508 0

/-- The archive built from the entry "abcd" (content `[120]`) and one
redirect with source "ab" pointing at it. -/
def exFileC : List Nat :=
  [1, 0, 0, 120,
   0, 2, 97, 0, 98, 0, 0, 0, 0, 0, 0,
   2, 2, 99, 0, 100, 0, 0, 0, 0, 0, 0,
   26, 0, 0, 0,
   97, 0, 98, 0, 0, 0, 0, 0, 0, 0, 0, 0, 14, 0]

/-- The scratch buffer `OpenWiki` leaves for `exFileC`. -/
def exBufC : List Nat := [26, 0, 0, 0] ++ List.replicate 508 0

/-- The first-level append rule exactly as §4.3 of the spec words it: keep a
counter of rows emitted since the last first-level ENTRY, and append when the
counter has reached 1024 and the current row's key differs from the previous
first-level ENTRY's key (returning the appended keys in order).  This is a
spec-modelled definition, written from the spec's words for comparison with
the code's `writeSecondLevel`. -/
def specFLGo (lastEntry : FirstLevelIndexKey) (count : Nat) :
    List SecondLevelIndexRow → List FirstLevelIndexKey
  | [] => []
  | r :: rs =>
    let cur := pad4 r.nameUTF16
    if 1024 ≤ count ∧ ¬ cur = lastEntry then
      cur :: specFLGo cur 1 rs
    else specFLGo lastEntry (count + 1) rs

/-- The spec-worded first-level key list: the first row's key is seeded, then
`specFLGo` runs over all rows with the counter at 0. -/
def specFirstLevelKeys (rows : List SecondLevelIndexRow) : List FirstLevelIndexKey :=
  match rows with
  | [] => []
  | r0 :: _ => pad4 r0.nameUTF16 :: specFLGo (pad4 r0.nameUTF16) 0 rows

/-- 1025 rows: "A" then 1024 distinct five-unit keys all sharing the
first-level key "BBBB".  At the 1024th "BBBB" row the counter reaches 1024
and the key differs from the last first-level ENTRY ("A" padded) but not from
the previous ROW, so the spec's rule appends and the code's does not. -/
def csRows : List SecondLevelIndexRow :=
  ⟨[65], 0⟩ :: (List.range 1024).map (fun c => ⟨[66, 66, 66, 66, c], 0⟩)

/-- 1026 rows in the same shape: the last key sits 1025 rows after the only
first-level entry's offset. -/
def csRows2 : List SecondLevelIndexRow :=
  ⟨[65], 0⟩ :: (List.range 1025).map (fun c => ⟨[66, 66, 66, 66, c], 0⟩)

theorem runMetaGo_no_jump : ∀ (rows : List SecondLevelIndexRow) (pk : List Nat)
    (pfl : FirstLevelIndexKey) (count pos : Nat),
    (∀ i, i < rows.length → count + i < 1024 ∨
      pad4 ((rows.getD i rowDefault).nameUTF16) =
        (if i = 0 then pfl else pad4 ((rows.getD (i - 1) rowDefault).nameUTF16))) →
    ∀ m ∈ runMetaGo pk pfl count pos rows, m.isJump = false := by
  intro rows
  induction rows with
  | nil => intro pk pfl count pos _ m hm; simp [runMetaGo] at hm
  | cons r rs ih =>
    intro pk pfl count pos h m hm
    have hcond : ¬ (1024 ≤ count ∧ ¬ pad4 r.nameUTF16 = pfl) := by
      have h0 := h 0 (by simp)
      simp only [List.getD_cons_zero, if_pos rfl] at h0
      rcases h0 with h0 | h0
      · omega
      · exact fun hc => hc.2 h0
    simp only [runMetaGo, List.mem_cons] at hm
    rcases hm with rfl | hm
    · simp [decide_eq_false hcond]
    · rw [if_neg hcond] at hm
      refine ih r.nameUTF16 (pad4 r.nameUTF16) _ _ ?_ m hm
      intro i hi
      have hsucc := h (i + 1) (by simpa using Nat.succ_lt_succ hi)
      simp only [List.getD_cons_succ, Nat.add_sub_cancel] at hsucc
      rcases hsucc with hl | hr2
      · left
        omega
      · right
        cases i with
        | zero =>
          simp only [if_pos rfl]
          simpa using hr2
        | succ i =>
          rw [if_neg (by omega)]
          rw [if_neg (by omega)] at hr2
          simpa using hr2

theorem jumpOffsets_eq_nil (ms : List RowMeta) (h : ∀ m ∈ ms, m.isJump = false) :
    jumpOffsets ms = [] := by
  unfold jumpOffsets
  rw [List.filter_eq_nil_iff.mpr (fun m hm => by simp [h m hm])]
  rfl

theorem jumpKeys_eq_nil (ms : List RowMeta) (rows : List SecondLevelIndexRow)
    (h : ∀ m ∈ ms, m.isJump = false) : jumpKeys ms rows = [] := by
  unfold jumpKeys
  rw [List.filter_eq_nil_iff.mpr (fun p hp => by
    have := List.of_mem_zip hp
    simp [h p.1 this.1])]
  rfl

theorem specFLGo_no_append : ∀ (rows : List SecondLevelIndexRow)
    (le : FirstLevelIndexKey) (count : Nat),
    (∀ i, i < rows.length →
      ¬ (1024 ≤ count + i ∧ ¬ pad4 ((rows.getD i rowDefault).nameUTF16) = le)) →
    specFLGo le count rows = [] := by
  intro rows
  induction rows with
  | nil => intro le count _; rfl
  | cons r rs ih =>
    intro le count h
    have h0 := h 0 (by simp)
    simp only [List.getD_cons_zero, Nat.add_zero] at h0
    simp only [specFLGo, if_neg h0]
    refine ih le (count + 1) ?_
    intro i hi
    have := h (i + 1) (by simpa using Nat.succ_lt_succ hi)
    simp only [List.getD_cons_succ] at this
    intro hc
    exact this ⟨by omega, hc.2⟩

theorem specFLGo_split : ∀ (xs ys : List SecondLevelIndexRow)
    (le : FirstLevelIndexKey) (count : Nat),
    (∀ i, i < xs.length →
      ¬ (1024 ≤ count + i ∧ ¬ pad4 ((xs.getD i rowDefault).nameUTF16) = le)) →
    specFLGo le count (xs ++ ys) = specFLGo le (count + xs.length) ys := by
  intro xs
  induction xs with
  | nil => intro ys le count _; simp
  | cons x xs ih =>
    intro ys le count h
    have h0 := h 0 (by simp)
    simp only [List.getD_cons_zero, Nat.add_zero] at h0
    simp only [List.cons_append, specFLGo, if_neg h0, List.append_eq]
    rw [ih ys le (count + 1) ?_]
    · refine congrArg (fun c => specFLGo le c ys) ?_
      simp only [List.length_cons]
      omega
    · intro i hi
      have := h (i + 1) (by simpa using Nat.succ_lt_succ hi)
      simp only [List.getD_cons_succ] at this
      intro hc
      exact this ⟨by omega, hc.2⟩

theorem bRows_valid (n : Nat) : ∀ r ∈ (⟨[65], 0⟩ : SecondLevelIndexRow) ::
    (List.range n).map (fun c => (⟨[66, 66, 66, 66, c], 0⟩ : SecondLevelIndexRow)),
    r.nameUTF16 ≠ [] ∧ r.nameUTF16.length ≤ 127 := by
  intro r hr
  rcases List.mem_cons.mp hr with rfl | hr2
  · exact ⟨by simp, by simp⟩
  · obtain ⟨c, -, rfl⟩ := List.mem_map.mp hr2
    exact ⟨by simp, by simp⟩

theorem bRows_getD (n j : Nat) (hj : j < n) :
    ((⟨[65], 0⟩ : SecondLevelIndexRow) ::
      (List.range n).map (fun c => (⟨[66, 66, 66, 66, c], 0⟩ : SecondLevelIndexRow))).getD
      (j + 1) rowDefault = ⟨[66, 66, 66, 66, j], 0⟩ := by
  rw [List.getD_cons_succ, List.getD_eq_getElem _ _ (by simpa), List.getElem_map,
    List.getElem_range]

theorem bRows_no_jump (n : Nat) :
    ∀ m ∈ metaOf ((⟨[65], 0⟩ : SecondLevelIndexRow) ::
      (List.range n).map (fun c => (⟨[66, 66, 66, 66, c], 0⟩ : SecondLevelIndexRow))),
      m.isJump = false := by
  refine runMetaGo_no_jump _ _ _ _ _ ?_
  intro i hi
  rcases Nat.lt_or_ge i 1024 with h | h
  · left
    omega
  · right
    have hlen : i < n + 1 := by simpa using hi
    have h2 : 2 ≤ i := by omega
    rw [if_neg (by omega)]
    obtain ⟨j, rfl⟩ : ∃ j, i = j + 1 := ⟨i - 1, by omega⟩
    rw [bRows_getD n j (by omega)]
    obtain ⟨j2, hj2⟩ : ∃ j2, j = j2 + 1 := ⟨j - 1, by omega⟩
    rw [Nat.add_sub_cancel, hj2, bRows_getD n j2 (by omega)]
    rfl

theorem csRows_writeSecondLevel :
    ∃ chunks ts, writeSecondLevel csRows = some (chunks, ⟨[pad4 [65]], [0]⟩, ts) := by
  have hws := writeSecondLevel_spec csRows (by simp [csRows]) (by
    intro r hr
    exact bRows_valid 1024 r (by simpa [csRows] using hr))
  have hjk : jumpKeys (metaOf csRows) csRows = [] :=
    jumpKeys_eq_nil _ _ (by simpa [csRows] using bRows_no_jump 1024)
  have hjo : jumpOffsets (metaOf csRows) = [] :=
    jumpOffsets_eq_nil _ (by simpa [csRows] using bRows_no_jump 1024)
  rw [hjk, hjo, show pad4 ((csRows.getD 0 rowDefault).nameUTF16) = pad4 [65] from rfl] at hws
  exact ⟨_, _, hws⟩

theorem csRows2_writeSecondLevel :
    ∃ chunks ts, writeSecondLevel csRows2 = some (chunks, ⟨[pad4 [65]], [0]⟩, ts) := by
  have hws := writeSecondLevel_spec csRows2 (by simp [csRows2]) (by
    intro r hr
    exact bRows_valid 1025 r (by simpa [csRows2] using hr))
  have hjk : jumpKeys (metaOf csRows2) csRows2 = [] :=
    jumpKeys_eq_nil _ _ (by simpa [csRows2] using bRows_no_jump 1025)
  have hjo : jumpOffsets (metaOf csRows2) = [] :=
    jumpOffsets_eq_nil _ (by simpa [csRows2] using bRows_no_jump 1025)
  rw [hjk, hjo, show pad4 ((csRows2.getD 0 rowDefault).nameUTF16) = pad4 [65] from rfl] at hws
  exact ⟨_, _, hws⟩

theorem specFirstLevelKeys_csRows :
    specFirstLevelKeys csRows = [pad4 [65], ⟨66, 66, 66, 66⟩] := by
  unfold csRows specFirstLevelKeys
  dsimp only
  have hsplit : (⟨[65], 0⟩ : SecondLevelIndexRow) ::
      (List.range 1024).map (fun c => (⟨[66, 66, 66, 66, c], 0⟩ : SecondLevelIndexRow)) =
      ((⟨[65], 0⟩ : SecondLevelIndexRow) ::
        ((List.range 1024).map
          (fun c => (⟨[66, 66, 66, 66, c], 0⟩ : SecondLevelIndexRow))).take 1023) ++
      ((List.range 1024).map
        (fun c => (⟨[66, 66, 66, 66, c], 0⟩ : SecondLevelIndexRow))).drop 1023 := by
    rw [List.cons_append, List.take_append_drop]
  conv_lhs => rw [hsplit]
  rw [specFLGo_split _ _ _ 0 (by
    intro i hi
    rw [List.length_cons, List.length_take, List.length_map, List.length_range] at hi
    intro hc
    omega)]
  have hxl : (0 + ((⟨[65], 0⟩ : SecondLevelIndexRow) ::
      ((List.range 1024).map
        (fun c => (⟨[66, 66, 66, 66, c], 0⟩ : SecondLevelIndexRow))).take 1023).length) =
      1024 := by
    simp
  rw [hxl]
  have hys : ((List.range 1024).map
      (fun c => (⟨[66, 66, 66, 66, c], 0⟩ : SecondLevelIndexRow))).drop 1023 =
      [⟨[66, 66, 66, 66, 1023], 0⟩] := by
    rw [List.drop_eq_getElem_cons (by simp), List.getElem_map, List.getElem_range,
      List.drop_of_length_le (by simp)]
  rw [hys]
  decide

instance {e a : Type} [DecidableEq e] [DecidableEq a] : DecidableEq (Except e a) :=
  fun x y =>
  match x, y with
  | .error x1, .error y1 =>
    if h : x1 = y1 then isTrue (by rw [h]) else isFalse (fun hc => h (Except.error.inj hc))
  | .error _, .ok _ => isFalse (fun hc => Except.noConfusion hc)
  | .ok _, .error _ => isFalse (fun hc => Except.noConfusion hc)
  | .ok x1, .ok y1 =>
    if h : x1 = y1 then isTrue (by rw [h]) else isFalse (fun hc => h (Except.ok.inj hc))

/-! ## The claims -/

/-- C10: `query` panics on the empty prefix (the guard at the top of `query`),
and for every non-empty prefix the guard is not triggered: the outcome is a
result list or a surfaced error, never the panic. -/
theorem claim_C10_empty_query_guard (w : Wiki) (prefixChars : List Nat) :
    (prefixChars = [] → queryM w prefixChars = .panicEmptyQuery) ∧
    (prefixChars ≠ [] → queryM w prefixChars ≠ .panicEmptyQuery) := by
  constructor
  · intro h
    subst h
    rfl
  · intro h
    unfold queryM
    rw [if_neg h]
    split
    · simp
    · split
      · simp
      · dsimp only
        split
        · simp
        · split
          · simp
          · simp

theorem claim_C10_witness :
    queryM ⟨[], [], 0, [], []⟩ [] = .panicEmptyQuery ∧
    queryM ⟨[], [], 0, [], []⟩ [97] ≠ .panicEmptyQuery :=
  ⟨(claim_C10_empty_query_guard ⟨[], [], 0, [], []⟩ []).1 rfl,
   (claim_C10_empty_query_guard ⟨[], [], 0, [], []⟩ [97]).2 (by decide)⟩

theorem queryAccum_length_le : ∀ (fuel : Nat) (pc stream buf : List Nat) (r : SearchResult)
    (acc out : List SearchResult), acc.length ≤ 32 →
    queryAccum pc fuel stream buf r acc = .ok out → out.length ≤ 32 := by
  intro fuel
  induction fuel with
  | zero =>
    intro pc stream buf r acc out _ h
    exact absurd h (by simp [queryAccum])
  | succ fuel ih =>
    intro pc stream buf r acc out hacc h
    simp only [queryAccum] at h
    split at h
    · rename_i hcond
      split at h
      · exact absurd h (by simp)
      · rename_i s1buf1r1 heq
        refine ih pc _ _ _ (acc ++ [r]) out ?_ h
        simp only [List.length_append, List.length_cons, List.length_nil]
        omega
    · simp only [Except.ok.injEq] at h
      subst h
      exact hacc

/-- C7 (amended): `query` returns at most 32 results.  (The counterexample
shows the stronger reading — that every returned result is an archive row —
fails at the tail of the index.) -/
theorem claim_C7_limit (w : Wiki) (prefixChars : List Nat) (rs : List SearchResult)
    (h : queryM w prefixChars = .ok rs) : rs.length ≤ 32 := by
  unfold queryM at h
  split at h
  · exact absurd h (by simp)
  · split at h
    · exact absurd h (by simp)
    · split at h
      · exact absurd h (by simp)
      · dsimp only at h
        split at h
        · exact absurd h (by simp)
        · split at h
          · exact absurd h (by simp)
          · rename_i rs2 heq
            simp only [QueryResult.ok.injEq] at h
            subst h
            exact queryAccum_length_le _ _ _ _ _ _ rs2 (by simp) heq

/-- C8: at a compressed size of exactly `2^24` bytes — which the spec declares
fatal (the prefix is 24-bit, so the maximum representable size is `2^24 - 1`)
— `writeEntries` does *not* abort: the guard is `size > 1<<24`, off by one, and
the emitted 3-byte length prefix wraps to `[0, 0, 0]`, corrupting the
archive. -/
theorem claim_C8_u24_boundary :
    writeEntries (fun _ => List.replicate (2 ^ 24) 55) [([97, 98, 99, 100], [])] =
      some ([0, 0, 0] ++ List.replicate (2 ^ 24) 55, [([97, 98, 99, 100], 2 ^ 24 + 3)]) := by
  unfold writeEntries writeEntriesLoop
  simp only [List.length_replicate]
  rw [Nat.mod_eq_of_lt (by norm_num)]
  rw [if_neg (by omega)]
  rw [show writeEntriesLoop (fun x => List.replicate (2 ^ 24) 55) [] (0 + 2 ^ 24 + 3) =
    some ([], []) from rfl]
  dsimp only
  refine congrArg _ ?_
  refine Prod.ext ?_ ?_
  · show u24le (2 ^ 24) ++ List.replicate (2 ^ 24) 55 ++ [] =
      [0, 0, 0] ++ List.replicate (2 ^ 24) 55
    rw [List.append_nil, show u24le (2 ^ 24) = [0, 0, 0] from by decide]
  · show [([97, 98, 99, 100], 0 + 2 ^ 24 + 3)] = [([97, 98, 99, 100], 2 ^ 24 + 3)]
    norm_num

set_option maxRecDepth 100000 in
/-- C9: the 4-byte read of the second-level index size in `OpenWiki` discards
the byte count `rdr.Read` returns.  On a short read delivering only 2 of the
4 bytes, `OpenWiki` still returns success — with the first-level key stream
shifted by two bytes, decoding garbage keys — instead of surfacing an error
as every `io.ReadFull`-guarded read does.  `exFileA` is the archive built
from the single entry "ab". -/
theorem claim_C9_short_read :
    buildArchive (fun b => b) [([97, 98], [120])] [] = some exFileA ∧
    openWikiRead exFileA 4 = some ⟨[97, 98, 0, 0], [0], 29, exFileA, exBufA⟩ ∧
    openWikiRead exFileA 2 = some ⟨[0, 97, 98, 0], [0], 29, exFileA, exBufA⟩ ∧
    ([0, 97, 98, 0] : List Nat) ≠ [97, 98, 0, 0] := by
  refine ⟨?_, by decide, by decide, by decide⟩
  have h := buildArchive_eq (fun b => b) [([97, 98], [120])] [] [1, 0, 0, 120]
    [([97, 98], 4)] [⟨[97, 98], 0⟩] [[0, 2, 97, 0, 98, 0, 0, 0, 0, 0, 0]]
    ⟨[⟨97, 98, 0, 0⟩], [0]⟩ 11
    (by decide)
    (by
      unfold createSecondLevelIndex
      exact (List.mergeSort_of_sorted (by decide)).trans (by decide))
    (by decide)
  rw [h]
  decide

set_option maxRecDepth 100000 in
/-- C1 counterexample: for the archive of the single 2-code-unit entry "ab"
(bytes `[120]`), exact lookup of "ab" itself fails with the reader's
"before the first entry" error instead of returning the payload offset: the
zero-padded 4-unit first-level key of "ab" compares strictly greater than the
2-unit query, so the scan rejects the query before the first entry. -/
theorem claim_C1_counterexample :
    buildArchive (fun b => b) [([97, 98], [120])] [] = some exFileA ∧
    openWiki exFileA = some ⟨[97, 98, 0, 0], [0], 29, exFileA, exBufA⟩ ∧
    entryOffsetM ⟨[97, 98, 0, 0], [0], 29, exFileA, exBufA⟩ [97, 98] =
      .error .beforeFirst := by
  refine ⟨?_, by decide, by decide⟩
  have h := buildArchive_eq (fun b => b) [([97, 98], [120])] [] [1, 0, 0, 120]
    [([97, 98], 4)] [⟨[97, 98], 0⟩] [[0, 2, 97, 0, 98, 0, 0, 0, 0, 0, 0]]
    ⟨[⟨97, 98, 0, 0⟩], [0]⟩ 11
    (by decide)
    (by
      unfold createSecondLevelIndex
      exact (List.mergeSort_of_sorted (by decide)).trans (by decide))
    (by decide)
  rw [h]
  decide

/-- The archive of the entry "ab" (`[97, 98]`, bytes `[120]`) plus a redirect
with source "ac" (`[97, 99]`) targeting it. -/
def exFileD : List Nat :=
  [1, 0, 0, 120,
   0, 2, 97, 0, 98, 0, 0, 0, 0, 0, 0,
   1, 1, 99, 0, 0, 0, 0, 0, 0,
   24, 0, 0, 0,
   97, 0, 98, 0, 0, 0, 0, 0, 0, 0, 0, 0, 14, 0]

/-- The scratch buffer `OpenWiki` leaves for `exFileD`. -/
def exBufD : List Nat := [24, 0, 0, 0] ++ List.replicate 508 0

set_option maxRecDepth 100000 in
/-- C2 counterexample: with the entry "ab" and the redirect source "ac"
targeting it, both second-level rows carry payload offset 0, yet exact lookup
of the redirect source returns offset 0 while exact lookup of the target
entry's own name "ab" fails with "before the first entry" — so the two
lookups do not return the same payload offset. -/
theorem claim_C2_counterexample :
    buildArchive (fun b => b) [([97, 98], [120])] [⟨[97, 99], 0⟩] = some exFileD ∧
    openWiki exFileD = some ⟨[97, 98, 0, 0], [0], 38, exFileD, exBufD⟩ ∧
    entryOffsetM ⟨[97, 98, 0, 0], [0], 38, exFileD, exBufD⟩ [97, 99] = .ok 0 ∧
    entryOffsetM ⟨[97, 98, 0, 0], [0], 38, exFileD, exBufD⟩ [97, 98] =
      .error .beforeFirst := by
  refine ⟨?_, by decide, by decide, by decide⟩
  have h := buildArchive_eq (fun b => b) [([97, 98], [120])] [⟨[97, 99], 0⟩] [1, 0, 0, 120]
    [([97, 98], 4)] [⟨[97, 98], 0⟩, ⟨[97, 99], 0⟩]
    [[0, 2, 97, 0, 98, 0, 0, 0, 0, 0, 0], [1, 1, 99, 0, 0, 0, 0, 0, 0]]
    ⟨[⟨97, 98, 0, 0⟩], [0]⟩ 20
    (by decide)
    (by
      unfold createSecondLevelIndex
      exact (List.mergeSort_of_sorted (by decide)).trans (by decide))
    (by decide)
  rw [h]
  decide

set_option maxRecDepth 100000 in
/-- C7 counterexample: querying the archive of "ab" and "abcd" for the
present 4-unit prefix "abcd" returns two results: the genuine row for "abcd"
and a second, fabricated result whose 26-unit key and offset are decoded from
the index's size trailer and first-level bytes — the accumulation loop reads
one row past the last appended result, and past the end of the second-level
index there are no rows.  The fabricated key is not the name of any ingested
entry. -/
theorem claim_C7_counterexample :
    buildArchive (fun b => b) [([97, 98], [120]), ([97, 98, 99, 100], [121])] [] =
      some exFileB ∧
    openWiki exFileB = some ⟨[97, 98, 0, 0], [0], 40, exFileB, exBufB⟩ ∧
    queryM ⟨[97, 98, 0, 0], [0], 40, exFileB, exBufB⟩ [97, 98, 99, 100] =
      .ok [⟨[97, 98, 99, 100], 4⟩,
           ⟨[97, 98, 99, 100, 4, 0, 0, 0, 0, 0, 0, 0, 0, 0, 0, 0, 0, 0, 0, 0, 0, 0, 0, 0,
             0, 0], 420913152000⟩] ∧
    ([97, 98, 99, 100, 4, 0, 0, 0, 0, 0, 0, 0, 0, 0, 0, 0, 0, 0, 0, 0, 0, 0, 0, 0, 0, 0]
      : List Nat) ∉ [[97, 98], [97, 98, 99, 100]] := by
  refine ⟨?_, by decide, by decide, by decide⟩
  have h := buildArchive_eq (fun b => b) [([97, 98], [120]), ([97, 98, 99, 100], [121])] []
    [1, 0, 0, 120, 1, 0, 0, 121]
    [([97, 98], 4), ([97, 98, 99, 100], 8)] [⟨[97, 98], 0⟩, ⟨[97, 98, 99, 100], 4⟩]
    [[0, 2, 97, 0, 98, 0, 0, 0, 0, 0, 0], [2, 2, 99, 0, 100, 0, 4, 0, 0, 0, 0]]
    ⟨[⟨97, 98, 0, 0⟩], [0]⟩ 22
    (by decide)
    (by
      unfold createSecondLevelIndex
      exact (List.mergeSort_of_sorted (by decide)).trans (by decide))
    (by decide)
  rw [h]
  decide

set_option maxRecDepth 100000 in
theorem claim_C7_limit_witness :
    queryM ⟨[97, 98, 0, 0], [0], 40, exFileB, exBufB⟩ [97, 98, 99, 100] =
      .ok [⟨[97, 98, 99, 100], 4⟩,
           ⟨[97, 98, 99, 100, 4, 0, 0, 0, 0, 0, 0, 0, 0, 0, 0, 0, 0, 0, 0, 0, 0, 0, 0, 0,
             0, 0], 420913152000⟩] ∧
    ([(⟨[97, 98, 99, 100], 4⟩ : SearchResult),
      ⟨[97, 98, 99, 100, 4, 0, 0, 0, 0, 0, 0, 0, 0, 0, 0, 0, 0, 0, 0, 0, 0, 0, 0, 0,
        0, 0], 420913152000⟩]).length ≤ 32 :=
  ⟨by decide,
   claim_C7_limit ⟨[97, 98, 0, 0], [0], 40, exFileB, exBufB⟩ [97, 98, 99, 100] _ (by decide)⟩

/-- C1 (amended): for every set of ingested entries (and resolved redirects)
with distinct, valid names and compressed blobs below `2^24` bytes, and for
every entry whose name is at least 4 UTF-16 code units long, building the
archive and calling exact lookup on the name returns a payload offset at
which the u24-length-prefixed bytes are exactly the entry's compressed blob
(which zlib-inflates to the original file bytes).  The 4-unit floor on the
queried name is needed: the counterexample shows a 2-unit name failing with
"before the first entry". -/
theorem claim_C1_roundtrip (compress : List Nat → List Nat)
    (entries : List (List Nat × List Nat)) (redirects : List Redirect) (i : Nat)
    (hvnames : ∀ e ∈ entries, e.1 ≠ [] ∧ e.1.length ≤ 127 ∧ ∀ u ∈ e.1, u < 2 ^ 16)
    (hvred : ∀ r ∈ redirects, r.nameUTF16 ≠ [] ∧ r.nameUTF16.length ≤ 127 ∧
      ∀ u ∈ r.nameUTF16, u < 2 ^ 16)
    (hnodup : ((entries.map Prod.fst) ++ redirects.map Redirect.nameUTF16).Nodup)
    (hsz : ∀ e ∈ entries, (compress e.2).length < 2 ^ 24)
    (hcount : 12 * (entries.length + redirects.length) + 14 < 2 ^ 16)
    (hi : i < entries.length)
    (hguard : 4 ≤ (entries.getD i ([], [])).1.length) :
    ∃ file w off, buildArchive compress entries redirects = some file ∧
      openWiki file = some w ∧
      entryOffsetM w ((entries.getD i ([], [])).1) = .ok off ∧
      entryAtCompressed file off = .ok (compress ((entries.getD i ([], [])).2)) := by
  have hmem0 := mem_secondLevelUnsorted_entry
    ⟨(List.range entries.length).map (fun j => (entries.getD j ([], [])).1),
     (List.range entries.length).map (fun j =>
       ((entries.take (j + 1)).map (fun e => (compress e.2).length + 3)).sum)⟩
    redirects i (by simpa [EntryMetadata.len] using hi)
  rw [layout_name compress entries i hi, layout_startOffset compress entries i hi] at hmem0
  obtain ⟨file, w, hb, ho, hl, he⟩ := buildArchive_lookup compress entries redirects
    ((entries.getD i ([], [])).1) i hvnames hvred hnodup hsz hcount hi hmem0 hguard
  exact ⟨file, w, _, hb, ho, hl, he⟩

theorem claim_C1_roundtrip_witness :
    ∃ file w off, buildArchive (fun b => b) [([97, 98, 99, 100], [120])] [] = some file ∧
      openWiki file = some w ∧
      entryOffsetM w [97, 98, 99, 100] = .ok off ∧
      entryAtCompressed file off = .ok [120] := by
  have h := claim_C1_roundtrip (fun b => b) [([97, 98, 99, 100], [120])] [] 0
    (by decide) (by decide) (by decide) (by decide) (by decide) (by decide) (by decide)
  exact h

/-- C2 (amended): for every resolved redirect, the second-level rows written
for the redirect's source name and for the target entry's name both carry the
target entry's start offset — 0 for entry 0, otherwise the previous entry's
cumulative end offset, i.e. `EntryMetadata.startOffset` — and exact lookups of
both names return that same offset, provided both names are at least 4 code
units long (the counterexample shows the lookups disagreeing for a 2-unit
name). -/
theorem claim_C2_redirect_fidelity (compress : List Nat → List Nat)
    (entries : List (List Nat × List Nat)) (redirects : List Redirect) (r : Redirect)
    (hr : r ∈ redirects)
    (hvnames : ∀ e ∈ entries, e.1 ≠ [] ∧ e.1.length ≤ 127 ∧ ∀ u ∈ e.1, u < 2 ^ 16)
    (hvred : ∀ r2 ∈ redirects, r2.nameUTF16 ≠ [] ∧ r2.nameUTF16.length ≤ 127 ∧
      ∀ u ∈ r2.nameUTF16, u < 2 ^ 16)
    (hnodup : ((entries.map Prod.fst) ++ redirects.map Redirect.nameUTF16).Nodup)
    (hsz : ∀ e ∈ entries, (compress e.2).length < 2 ^ 24)
    (hcount : 12 * (entries.length + redirects.length) + 14 < 2 ^ 16)
    (hidx : r.entryIdx < entries.length)
    (hguardS : 4 ≤ r.nameUTF16.length)
    (hguardT : 4 ≤ (entries.getD r.entryIdx ([], [])).1.length) :
    ∃ file w off, buildArchive compress entries redirects = some file ∧
      openWiki file = some w ∧
      entryOffsetM w r.nameUTF16 = .ok off ∧
      entryOffsetM w ((entries.getD r.entryIdx ([], [])).1) = .ok off ∧
      off = EntryMetadata.startOffset
        ⟨(List.range entries.length).map (fun j => (entries.getD j ([], [])).1),
         (List.range entries.length).map (fun j =>
           ((entries.take (j + 1)).map (fun e => (compress e.2).length + 3)).sum)⟩
        r.entryIdx := by
  have hmemS := mem_secondLevelUnsorted_redirect
    ⟨(List.range entries.length).map (fun j => (entries.getD j ([], [])).1),
     (List.range entries.length).map (fun j =>
       ((entries.take (j + 1)).map (fun e => (compress e.2).length + 3)).sum)⟩
    redirects r hr
  rw [layout_startOffset compress entries r.entryIdx hidx] at hmemS
  have hmemT := mem_secondLevelUnsorted_entry
    ⟨(List.range entries.length).map (fun j => (entries.getD j ([], [])).1),
     (List.range entries.length).map (fun j =>
       ((entries.take (j + 1)).map (fun e => (compress e.2).length + 3)).sum)⟩
    redirects r.entryIdx (by simpa [EntryMetadata.len] using hidx)
  rw [layout_name compress entries r.entryIdx hidx,
    layout_startOffset compress entries r.entryIdx hidx] at hmemT
  obtain ⟨file1, w1, hb1, ho1, hl1, he1⟩ := buildArchive_lookup compress entries redirects
    r.nameUTF16 r.entryIdx hvnames hvred hnodup hsz hcount hidx hmemS hguardS
  obtain ⟨file2, w2, hb2, ho2, hl2, he2⟩ := buildArchive_lookup compress entries redirects
    ((entries.getD r.entryIdx ([], [])).1) r.entryIdx hvnames hvred hnodup hsz hcount hidx
    hmemT hguardT
  have hfile : file1 = file2 := by
    rw [hb1] at hb2
    exact Option.some.inj hb2
  subst hfile
  have hw : w1 = w2 := by
    rw [ho1] at ho2
    exact Option.some.inj ho2
  subst hw
  refine ⟨file1, w1, _, hb1, ho1, hl1, hl2, ?_⟩
  rw [layout_startOffset compress entries r.entryIdx hidx]

theorem claim_C2_redirect_fidelity_witness :
    ∃ file w off, buildArchive (fun b => b) [([97, 98, 99, 100], [120])]
        [⟨[101, 102, 103, 104], 0⟩] = some file ∧
      openWiki file = some w ∧
      entryOffsetM w [101, 102, 103, 104] = .ok off ∧
      entryOffsetM w [97, 98, 99, 100] = .ok off ∧
      off = EntryMetadata.startOffset
        ⟨(List.range 1).map (fun j =>
           (([([97, 98, 99, 100], [120])] : List (List Nat × List Nat)).getD j ([], [])).1),
         (List.range 1).map (fun j =>
           ((([([97, 98, 99, 100], [120])] : List (List Nat × List Nat)).take (j + 1)).map
             (fun e => ((fun b => b) e.2).length + 3)).sum)⟩ 0 := by
  have h := claim_C2_redirect_fidelity (fun b => b) [([97, 98, 99, 100], [120])]
    [⟨[101, 102, 103, 104], 0⟩] ⟨[101, 102, 103, 104], 0⟩ (by decide)
    (by decide) (by decide) (by decide) (by decide) (by decide) (by decide) (by decide)
    (by decide)
  exact h

/-- C3 (amended): the second-level rows built by `createSecondLevelIndex` are
always sorted (non-strictly) by UTF-16 code-unit comparison; they are
*strictly* sorted whenever the merged names (entries then redirect sources)
are distinct.  With a duplicated name the output has two adjacent equal keys
(see the counterexample), so strictness needs the distinctness premise the
original claim omitted. -/
theorem claim_C3_strict_sorted (em : EntryMetadata) (redirects : List Redirect) :
    (createSecondLevelIndex em redirects).Pairwise
      (fun a b => slicesCompare a.nameUTF16 b.nameUTF16 ≤ 0) ∧
    (((secondLevelUnsorted em redirects).map SecondLevelIndexRow.nameUTF16).Nodup →
      (createSecondLevelIndex em redirects).Pairwise
        (fun a b => slicesCompare a.nameUTF16 b.nameUTF16 < 0)) := by
  have hle : (createSecondLevelIndex em redirects).Pairwise
      (fun a b => slicesCompare a.nameUTF16 b.nameUTF16 ≤ 0) :=
    (createSecondLevelIndex_sorted em redirects).imp (fun h => (rowLe_iff _ _).mp h)
  refine ⟨hle, ?_⟩
  intro hnodup
  have hperm := createSecondLevelIndex_perm em redirects
  have hnd2 : ((createSecondLevelIndex em redirects).map
      SecondLevelIndexRow.nameUTF16).Nodup :=
    ((hperm.map SecondLevelIndexRow.nameUTF16).nodup_iff).mpr hnodup
  have hne : (createSecondLevelIndex em redirects).Pairwise
      (fun a b => a.nameUTF16 ≠ b.nameUTF16) := List.pairwise_map.mp hnd2
  exact (hle.and hne).imp (fun h => slicesCompare_lt_of_le_ne _ _ h.1 h.2)

/-- C3 counterexample: an entry named "a" and a redirect source also named
"a" (ties are possible in the merged input) produce two adjacent rows with
equal keys — the second-level index is not strictly sorted for every input
mix. -/
theorem claim_C3_counterexample :
    createSecondLevelIndex ⟨[[97]], [4]⟩ [⟨[97], 0⟩] = [⟨[97], 0⟩, ⟨[97], 0⟩] ∧
    ¬ slicesCompare [97] [97] < 0 := by
  constructor
  · unfold createSecondLevelIndex
    exact (List.mergeSort_of_sorted (by decide)).trans (by decide)
  · decide

theorem claim_C3_witness :
    (createSecondLevelIndex ⟨[[97, 98]], [4]⟩ []).Pairwise
      (fun a b => slicesCompare a.nameUTF16 b.nameUTF16 ≤ 0) ∧
    (createSecondLevelIndex ⟨[[97, 98]], [4]⟩ []).Pairwise
      (fun a b => slicesCompare a.nameUTF16 b.nameUTF16 < 0) := by
  have h := claim_C3_strict_sorted ⟨[[97, 98]], [4]⟩ []
  exact ⟨h.1, h.2 (by decide)⟩

theorem getD_zipWith_chunk (ms : List RowMeta) (rows : List SecondLevelIndexRow) (i : Nat)
    (hi : i < rows.length) (hlen : ms.length = rows.length) :
    (List.zipWith (fun m r => chunkOf m.cl r) ms rows).getD i [] =
      chunkOf ((ms.getD i metaDefault).cl) (rows.getD i rowDefault) := by
  rw [List.getD_eq_getElem _ _ (by rw [List.length_zipWith]; omega), List.getElem_zipWith,
    List.getD_eq_getElem _ _ (by omega), List.getD_eq_getElem _ _ hi]

/-- C4: for every valid row list, the writer emits per-row chunks whose
stored `common_prefix_len` is the longest common UTF-16 prefix of the
previous and current keys (0 at jump boundaries and for the first row, whose
previous key is empty), whose `common_prefix_len + remaining_len` equals the
full key length, and from which the reader's row walk
(`readSecondLevelIndex`, iterated) reconstructs exactly the originally
inserted keys with their stored 40-bit offsets. -/
theorem claim_C4_front_compression (rows : List SecondLevelIndexRow) (tail : List Nat)
    (hne : rows ≠ [])
    (hvalid : ∀ r ∈ rows, r.nameUTF16 ≠ [] ∧ r.nameUTF16.length ≤ 127 ∧
      ∀ u ∈ r.nameUTF16, u < 2 ^ 16) :
    ∃ chunks fl ts, writeSecondLevel rows = some (chunks, fl, ts) ∧
      (∀ i, i < rows.length →
        (chunks.getD i []).getD 0 0 =
          (if ((metaOf rows).getD i metaDefault).isJump then 0
           else commonPrefixLen
             (if i = 0 then [] else (rows.getD (i - 1) rowDefault).nameUTF16)
             ((rows.getD i rowDefault).nameUTF16)) ∧
        (chunks.getD i []).getD 0 0 + (chunks.getD i []).getD 1 0 =
          (rows.getD i rowDefault).nameUTF16.length) ∧
      decodeRowsM rows.length (chunks.flatten ++ tail) (List.replicate 512 0) =
        .ok (rows.map (fun r => ⟨r.nameUTF16, r.offset % 2 ^ 40⟩)) := by
  have hws := writeSecondLevel_spec rows hne (fun r hr => ⟨(hvalid r hr).1, (hvalid r hr).2.1⟩)
  have hm0 : metaOf rows = runMetaGo [] (pad4 ((rows.getD 0 rowDefault).nameUTF16)) 0 0 rows := by
    cases rows with
    | nil => exact absurd rfl hne
    | cons r rs => simp [metaOf]
  have hmslen : (metaOf rows).length = rows.length := by
    rw [hm0, runMetaGo_length]
  refine ⟨_, _, _, hws, ?_, ?_⟩
  · intro i hi
    rw [getD_zipWith_chunk _ _ i hi hmslen]
    have hcl : ((metaOf rows).getD i metaDefault).cl ≤
        (rows.getD i rowDefault).nameUTF16.length := by
      rw [hm0, runMetaGo_cl rows [] _ 0 0 i hi]
      split
      · omega
      · exact (commonPrefixLen_spec _ _).2.1
    constructor
    · show ((metaOf rows).getD i metaDefault).cl = _
      rw [hm0, runMetaGo_cl rows [] (pad4 ((rows.getD 0 rowDefault).nameUTF16)) 0 0 i hi]
    · show ((metaOf rows).getD i metaDefault).cl +
        ((rows.getD i rowDefault).nameUTF16.length - ((metaOf rows).getD i metaDefault).cl) =
        (rows.getD i rowDefault).nameUTF16.length
      omega
  · refine decodeRowsM_spec rows (metaOf rows) [] tail (List.replicate 512 0)
      (List.length_replicate 512 0) (fun i hi => absurd hi (by simp)) ?_
      (fun r hr => ⟨(hvalid r hr).2.1, (hvalid r hr).2.2⟩)
    rw [hm0]
    exact runMetaGo_clAgree rows [] _ 0 0

set_option maxRecDepth 100000 in
theorem claim_C4_front_compression_witness :
    ∃ chunks fl ts,
      writeSecondLevel [⟨[97, 98, 99, 100], 0⟩, ⟨[97, 98, 99, 105], 7⟩] =
        some (chunks, fl, ts) ∧
      (∀ i, i < ([⟨[97, 98, 99, 100], 0⟩, ⟨[97, 98, 99, 105], 7⟩] :
          List SecondLevelIndexRow).length →
        (chunks.getD i []).getD 0 0 =
          (if ((metaOf [⟨[97, 98, 99, 100], 0⟩, ⟨[97, 98, 99, 105], 7⟩]).getD i
              metaDefault).isJump then 0
           else commonPrefixLen
             (if i = 0 then []
              else (([⟨[97, 98, 99, 100], 0⟩, ⟨[97, 98, 99, 105], 7⟩] :
                List SecondLevelIndexRow).getD (i - 1) rowDefault).nameUTF16)
             ((([⟨[97, 98, 99, 100], 0⟩, ⟨[97, 98, 99, 105], 7⟩] :
               List SecondLevelIndexRow).getD i rowDefault).nameUTF16)) ∧
        (chunks.getD i []).getD 0 0 + (chunks.getD i []).getD 1 0 =
          ((([⟨[97, 98, 99, 100], 0⟩, ⟨[97, 98, 99, 105], 7⟩] :
            List SecondLevelIndexRow).getD i rowDefault).nameUTF16).length) ∧
      decodeRowsM 2 (chunks.flatten ++ []) (List.replicate 512 0) =
        .ok [⟨[97, 98, 99, 100], 0⟩, ⟨[97, 98, 99, 105], 7⟩] := by
  have h := claim_C4_front_compression [⟨[97, 98, 99, 100], 0⟩, ⟨[97, 98, 99, 105], 7⟩] []
    (by decide) (by decide)
  exact h

/-- C5 (amended): a new first-level entry is appended (with the row forced to
`common_prefix_len = 0`) only at rows past the first whose 4-code-unit key
differs from the *previous row's* key — the code updates
`prevFirstLevelKey` on every row, so the comparison is against the previous
row, not against the previous first-level entry as the spec words it (the
counterexample separates the two readings). -/
theorem claim_C5_jump_rule (rows : List SecondLevelIndexRow) (hne : rows ≠ [])
    (hvalid : ∀ r ∈ rows, r.nameUTF16 ≠ [] ∧ r.nameUTF16.length ≤ 127) :
    ∃ chunks fl ts, writeSecondLevel rows = some (chunks, fl, ts) ∧
      ∃ idxs : List Nat, List.Chain' (· < ·) idxs ∧
        fl.keys = pad4 ((rows.getD 0 rowDefault).nameUTF16) ::
          idxs.map (fun i => pad4 ((rows.getD i rowDefault).nameUTF16)) ∧
        ∀ i ∈ idxs, 0 < i ∧ i < rows.length ∧
          (chunks.getD i []).getD 0 0 = 0 ∧
          pad4 ((rows.getD i rowDefault).nameUTF16) ≠
            pad4 ((rows.getD (i - 1) rowDefault).nameUTF16) := by
  have hws := writeSecondLevel_spec rows hne hvalid
  have hm0 : metaOf rows = runMetaGo [] (pad4 ((rows.getD 0 rowDefault).nameUTF16)) 0 0 rows := by
    cases rows with
    | nil => exact absurd rfl hne
    | cons r rs => simp [metaOf]
  have hmslen : (metaOf rows).length = rows.length := by
    rw [hm0, runMetaGo_length]
  obtain ⟨idxs, j1, j2, j3, j4⟩ :=
    runMetaGo_jump_struct rows [] (pad4 ((rows.getD 0 rowDefault).nameUTF16)) 0 0
  rw [← hm0] at j1 j4
  refine ⟨_, _, _, hws, idxs, j3, ?_, ?_⟩
  · show pad4 ((rows.getD 0 rowDefault).nameUTF16) :: jumpKeys (metaOf rows) rows = _
    rw [j1]
  · intro i hi
    obtain ⟨p1, p2, p3, p4⟩ := j4 i hi
    have h0 : 0 < i := by
      rcases Nat.eq_zero_or_pos i with h0 | h0
      · obtain ⟨habs, -⟩ := p3 h0
        omega
      · exact h0
    refine ⟨h0, p1, ?_, p4 h0⟩
    rw [getD_zipWith_chunk _ _ i p1 hmslen]
    show ((metaOf rows).getD i metaDefault).cl = 0
    exact p2

theorem claim_C5_jump_rule_witness :
    ∃ chunks fl ts,
      writeSecondLevel [⟨[97, 98, 99, 100], 0⟩] = some (chunks, fl, ts) ∧
      ∃ idxs : List Nat, List.Chain' (· < ·) idxs ∧
        fl.keys = pad4 ((([⟨[97, 98, 99, 100], 0⟩] :
            List SecondLevelIndexRow).getD 0 rowDefault).nameUTF16) ::
          idxs.map (fun i => pad4 ((([⟨[97, 98, 99, 100], 0⟩] :
            List SecondLevelIndexRow).getD i rowDefault).nameUTF16)) ∧
        ∀ i ∈ idxs, 0 < i ∧ i < ([⟨[97, 98, 99, 100], 0⟩] :
            List SecondLevelIndexRow).length ∧
          (chunks.getD i []).getD 0 0 = 0 ∧
          pad4 ((([⟨[97, 98, 99, 100], 0⟩] :
            List SecondLevelIndexRow).getD i rowDefault).nameUTF16) ≠
            pad4 ((([⟨[97, 98, 99, 100], 0⟩] :
              List SecondLevelIndexRow).getD (i - 1) rowDefault).nameUTF16) := by
  have h := claim_C5_jump_rule [⟨[97, 98, 99, 100], 0⟩] (by decide) (by decide)
  exact h

/-- C5 counterexample: 1025 rows — "A" then 1024 distinct keys all padding to
"BBBB".  At the 1024th "BBBB" row the counter reaches 1024 and its key
differs from the previous first-level ENTRY's key (the spec's rule appends a
second entry) but not from the previous ROW's key (the code appends
nothing): the code's first-level index keeps a single entry while the
spec-worded rule produces two. -/
theorem claim_C5_counterexample :
    (∃ chunks ts, writeSecondLevel csRows = some (chunks, ⟨[pad4 [65]], [0]⟩, ts)) ∧
    specFirstLevelKeys csRows = [pad4 [65], ⟨66, 66, 66, 66⟩] ∧
    ([pad4 [65]] : List FirstLevelIndexKey) ≠ [pad4 [65], ⟨66, 66, 66, 66⟩] :=
  ⟨csRows_writeSecondLevel, specFirstLevelKeys_csRows, by decide⟩

theorem take_flatten_mono (L : List (List Nat)) (i j : Nat) (h : i ≤ j) :
    (L.take i).flatten.length ≤ (L.take j).flatten.length := by
  have h2 := take_flatten_le (L.take j) i
  rw [List.take_take, Nat.min_eq_left h] at h2
  exact h2

/-- C6 (amended): for every key present in the archive (at least 4 code units
long or with a first-level key different from the first row's), the
second-level byte offset returned by the first-level scan is the byte
position of some row `k0` at or before the key's row `t`, hence at most the
key's own byte position.  The "at most 1024 rows between them" half of the
original claim is false: the counterexample walks 1025 rows. -/
theorem claim_C6_offset_le (pre : List Nat) (rows : List SecondLevelIndexRow) (t : Nat)
    (hsorted : ∀ i j, i < j → j < rows.length →
      slicesCompare ((rows.getD i rowDefault).nameUTF16)
        ((rows.getD j rowDefault).nameUTF16) < 0)
    (hvalid : ∀ r ∈ rows, r.nameUTF16 ≠ [] ∧ r.nameUTF16.length ≤ 127 ∧
      ∀ u ∈ r.nameUTF16, u < 2 ^ 16)
    (hcount : 12 * rows.length + 14 < 2 ^ 16)
    (ht : t < rows.length)
    (hguard : 4 ≤ ((rows.getD t rowDefault).nameUTF16).length ∨
      pad4 ((rows.getD t rowDefault).nameUTF16) ≠ pad4 ((rows.getD 0 rowDefault).nameUTF16)) :
    ∃ chunks fl ts w k0, writeSecondLevel rows = some (chunks, fl, ts) ∧
      openWiki (pre ++ chunks.flatten ++ u32le (ts + 4) ++ writeFirstLevel fl) = some w ∧
      k0 ≤ t ∧
      firstLevelOffset w ((rows.getD t rowDefault).nameUTF16) =
        .ok (((metaOf rows).getD k0 metaDefault).pos) ∧
      ((metaOf rows).getD k0 metaDefault).pos ≤ ((metaOf rows).getD t metaDefault).pos := by
  have hne : rows ≠ [] := by
    intro h
    rw [h] at ht
    simp at ht
  have hn0 : 0 < rows.length := by omega
  have hvalid2 : ∀ r ∈ rows, r.nameUTF16 ≠ [] ∧ r.nameUTF16.length ≤ 127 :=
    fun r hr => ⟨(hvalid r hr).1, (hvalid r hr).2.1⟩
  have hrowmem : ∀ k, k < rows.length → rows.getD k rowDefault ∈ rows := by
    intro k hk
    rw [List.getD_eq_getElem _ _ hk]
    exact rows.getElem_mem hk
  have hm0 : metaOf rows = runMetaGo [] (pad4 ((rows.getD 0 rowDefault).nameUTF16)) 0 0 rows := by
    cases rows with
    | nil => exact absurd rfl hne
    | cons r rs => simp [metaOf]
  obtain ⟨idxs, j1, j2, j3, j4⟩ :=
    runMetaGo_jump_struct rows [] (pad4 ((rows.getD 0 rowDefault).nameUTF16)) 0 0
  rw [← hm0] at j1 j2 j4
  have h0pos : ∀ i ∈ idxs, 0 < i := by
    intro i hi
    rcases Nat.eq_zero_or_pos i with h0 | h0
    · obtain ⟨h1024, -⟩ := (j4 i hi).2.2.1 h0
      omega
    · exact h0
  have hchain : List.Chain' (· < ·) (0 :: idxs) := by
    rw [List.chain'_cons']
    exact ⟨fun y hy => h0pos y (List.mem_of_mem_head? hy), j3⟩
  have hkeys : (pad4 ((rows.getD 0 rowDefault).nameUTF16) :: jumpKeys (metaOf rows) rows) =
      (0 :: idxs).map (fun k => pad4 ((rows.getD k rowDefault).nameUTF16)) := by
    rw [j1, List.map_cons]
  have hpos0 : ((metaOf rows).getD 0 metaDefault).pos = 0 := by
    rw [hm0, runMetaGo_pos rows [] _ 0 0 0 hn0]
    simp
  have hoffs : (0 :: jumpOffsets (metaOf rows)) =
      (0 :: idxs).map (fun k => ((metaOf rows).getD k metaDefault).pos) := by
    rw [j2, List.map_cons, hpos0]
  have hidxlen : idxs.length ≤ rows.length := by
    have hp : List.Pairwise (· < ·) idxs := List.chain'_iff_pairwise.mp j3
    have := pairwise_lt_length_le idxs rows.length 0 hp (fun x hx => (j4 x hx).1)
      (fun x _ => Nat.zero_le x)
    omega
  have htsflat : (List.zipWith (fun m r => chunkOf m.cl r) (metaOf rows) rows).flatten.length =
      ((List.zipWith (fun m r => chunkOf m.cl r) (metaOf rows) rows).map List.length).sum := by
    rw [List.length_flatten]
  have htsle : ((List.zipWith (fun m r => chunkOf m.cl r) (metaOf rows) rows).map
      List.length).sum ≤ 261 * rows.length :=
    zip_chunks_sum_le (metaOf rows) rows (fun r hr => (hvalid r hr).2.1)
  have hposle : ∀ k, k < rows.length →
      ((metaOf rows).getD k metaDefault).pos ≤
        ((List.zipWith (fun m r => chunkOf m.cl r) (metaOf rows) rows).map List.length).sum := by
    intro k hk
    rw [hm0, runMetaGo_pos rows [] _ 0 0 k hk, ← hm0, Nat.zero_add, ← htsflat]
    exact take_flatten_le _ k
  have hws := writeSecondLevel_spec rows hne hvalid2
  have hopen := openWiki_spec pre
      (List.zipWith (fun m r => chunkOf m.cl r) (metaOf rows) rows).flatten
      ⟨pad4 ((rows.getD 0 rowDefault).nameUTF16) :: jumpKeys (metaOf rows) rows,
        0 :: jumpOffsets (metaOf rows)⟩
      (((List.zipWith (fun m r => chunkOf m.cl r) (metaOf rows) rows).map List.length).sum + 4)
      (by
        dsimp only
        rw [hkeys, hoffs]
        simp)
      (by
        dsimp only
        rw [hkeys]
        simp only [List.length_map, List.length_cons]
        omega)
      (by omega)
  have hoffslen : (0 :: jumpOffsets (metaOf rows)).length = idxs.length + 1 := by
    rw [hoffs]
    simp
  have hoffmod : ((0 :: jumpOffsets (metaOf rows)).map (· % 2 ^ 32)) =
      (0 :: jumpOffsets (metaOf rows)) := by
    have hmem : ∀ o ∈ (0 :: jumpOffsets (metaOf rows)), o % 2 ^ 32 = o := by
      intro o ho
      rw [hoffs] at ho
      obtain ⟨k, hk, rfl⟩ := List.mem_map.mp ho
      have hkn : k < rows.length := by
        rcases List.mem_cons.mp hk with rfl | hk2
        · omega
        · exact (j4 k hk2).1
      exact Nat.mod_eq_of_lt (by have := hposle k hkn; omega)
    exact (List.map_congr_left hmem).trans (List.map_id _)
  have hfu : flatUnits (pad4 ((rows.getD 0 rowDefault).nameUTF16) ::
        jumpKeys (metaOf rows) rows) =
      ((0 :: idxs).map (fun k => pad4 ((rows.getD k rowDefault).nameUTF16))).flatMap keyList := by
    rw [hkeys]
    refine flatUnits_eq_keyList _ ?_
    intro k hk
    obtain ⟨k2, hk2, rfl⟩ := List.mem_map.mp hk
    have hkn : k2 < rows.length := by
      rcases List.mem_cons.mp hk2 with rfl | hk3
      · omega
      · exact (j4 k2 hk3).1
    exact pad4_units_lt _ ((hvalid _ (hrowmem k2 hkn)).2.2)
  have hjumpks : ∀ i, 0 < i → i < (0 :: idxs).length →
      0 < (0 :: idxs).getD i 0 ∧ (0 :: idxs).getD i 0 < rows.length ∧
      pad4 ((rows.getD ((0 :: idxs).getD i 0) rowDefault).nameUTF16) ≠
        pad4 ((rows.getD ((0 :: idxs).getD i 0 - 1) rowDefault).nameUTF16) := by
    intro i hi0 hilen
    cases i with
    | zero => omega
    | succ i =>
      rw [List.getD_cons_succ]
      have hilen2 : i < idxs.length := by simpa using hilen
      have hmem : idxs.getD i 0 ∈ idxs := by
        rw [List.getD_eq_getElem _ _ hilen2]
        exact idxs.getElem_mem hilen2
      obtain ⟨p1, p2, p3, p4⟩ := j4 _ hmem
      exact ⟨h0pos _ hmem, p1, p4 (h0pos _ hmem)⟩
  obtain ⟨j, hjlt, hksle, hloop⟩ := flRouting_spec rows (0 :: idxs)
    (0 :: jumpOffsets (metaOf rows)) t ((rows.getD t rowDefault).nameUTF16) rfl
    (by simp) (by simp) (by rw [hoffslen]; simp) hchain hjumpks hsorted ht hguard
  have hk0n : (0 :: idxs).getD j 0 < rows.length := by
    cases j with
    | zero => simpa using hn0
    | succ i =>
      rw [List.getD_cons_succ]
      have hilen2 : i < idxs.length := by simpa using hjlt
      have hmem : idxs.getD i 0 ∈ idxs := by
        rw [List.getD_eq_getElem _ _ hilen2]
        exact idxs.getElem_mem hilen2
      exact (j4 _ hmem).1
  have hoffval : (0 :: jumpOffsets (metaOf rows)).getD j 0 =
      ((metaOf rows).getD ((0 :: idxs).getD j 0) metaDefault).pos := by
    rw [hoffs, getD_map_nat _ _ _ (by simpa using hjlt)]
  refine ⟨_, _, _, _, (0 :: idxs).getD j 0, hws, hopen, hksle, ?_, ?_⟩
  · unfold firstLevelOffset
    dsimp only
    rw [hfu, hoffmod, hloop, hoffval]
  · rw [hm0, runMetaGo_pos rows [] _ 0 0 _ hk0n, runMetaGo_pos rows [] _ 0 0 t ht, ← hm0]
    simp only [Nat.zero_add]
    exact take_flatten_mono _ _ _ (by omega)

theorem claim_C6_offset_le_witness :
    ∃ chunks fl ts w k0,
      writeSecondLevel [⟨[97, 98, 99, 100], 0⟩] = some (chunks, fl, ts) ∧
      openWiki ([] ++ chunks.flatten ++ u32le (ts + 4) ++ writeFirstLevel fl) = some w ∧
      k0 ≤ 0 ∧
      firstLevelOffset w ((([⟨[97, 98, 99, 100], 0⟩] :
          List SecondLevelIndexRow).getD 0 rowDefault).nameUTF16) =
        .ok (((metaOf [⟨[97, 98, 99, 100], 0⟩]).getD k0 metaDefault).pos) ∧
      ((metaOf [⟨[97, 98, 99, 100], 0⟩]).getD k0 metaDefault).pos ≤
        ((metaOf [⟨[97, 98, 99, 100], 0⟩]).getD 0 metaDefault).pos := by
  have h := claim_C6_offset_le [] [⟨[97, 98, 99, 100], 0⟩] 0
    (by
      intro i j hij hj
      simp only [List.length_cons, List.length_nil] at hj
      exact absurd hij (by omega))
    (by decide) (by decide) (by decide) (by decide)
  exact h

/-- C6 counterexample: in the 1026-row archive `csRows2` the first-level
index holds a single entry at offset 0 (the byte position of row 0); the
last key `[66, 66, 66, 66, 1024]`, present at row index 1025, is routed by
the scan to offset 0, so decoding from the returned offset to the key's row
passes through 1025 > 1024 rows — well over the claimed bound, and row 1025
is not the first row at that offset. -/
theorem claim_C6_counterexample :
    (∃ chunks ts, writeSecondLevel csRows2 = some (chunks, ⟨[pad4 [65]], [0]⟩, ts)) ∧
    (csRows2.getD 1025 rowDefault).nameUTF16 = [66, 66, 66, 66, 1024] ∧
    firstLevelOffsetLoop [66, 66, 66, 66, 1024] (flatUnits [pad4 [65]]) [0] none = .ok 0 ∧
    1024 < 1025 - 0 := by
  refine ⟨csRows2_writeSecondLevel, ?_, by decide, by decide⟩
  have h := bRows_getD 1025 1024 (by omega)
  rw [show (1024 : Nat) + 1 = 1025 from rfl] at h
  rw [show csRows2 = (⟨[65], 0⟩ : SecondLevelIndexRow) ::
    (List.range 1025).map (fun c => (⟨[66, 66, 66, 66, c], 0⟩ : SecondLevelIndexRow))
    from rfl, h]
